import Mathlib

/-! htop: `XUtils.c` and `Affinity.c`

A shallow embedding of the allocation wrappers, the string utilities and the CPU affinity
list of htop, with the properties its specification states about them.

Conventions of the embedding.

* A C string is the list of its bytes before the terminating NUL; reading the position
  `strlen s` yields `NUL`.
* The target is LP64: `unsigned int` has 32 bits, `size_t` has 64 bits, a pointer has 8 bytes.
  Arithmetic on these types is reduced modulo the width where the source computes in them.
* A function returns `none` when the C program has no result: a failed `assert`, `fail()`,
  or an access outside an allocated object.  The underlying allocator itself is taken to
  succeed (its failure ends the process in `fail()`).
-/

namespace Htop

/-! ## Machine constants -/

/-- Terminating byte of a C string. -/
def NUL : Char := Char.ofNat 0

/-- Number of values of `unsigned int`. -/
def UINT_MOD : Nat := 2 ^ 32

/-- Width of `size_t` on the LP64 target. -/
def SIZE_BITS : Nat := 64

/-- Number of values of `size_t`. -/
def SIZE_MOD : Nat := 2 ^ 64

/-- Largest value of a `size_t` of `w` bits. -/
def SIZE_MAX (w : Nat) : Nat := 2 ^ w - 1

/-- The value of `sizeof(char*)`. -/
def PTR_BYTES : Nat := 8

/-- The value of `sizeof(unsigned int)`. -/
def UINT_BYTES : Nat := 4

/-- The value of `sizeof(Affinity)`: a pointer, two `unsigned int`, a pointer. -/
def AFFINITY_BYTES : Nat := 24

/-! ## Diagnostic allocator (XUtils.c:33-106)

The byte-level functions return the byte count of the block they obtain, `none` when they
end in `fail()` or on a failed `assert`. -/

/-- Source `xMalloc` (XUtils.c:33). -/
def xMalloc (size : Nat) : Option Nat :=
  if size = 0 then none else some size

/-- The guard `SIZE_MAX / nmemb < size` of the array allocators. -/
def overflowGuard (w nmemb size : Nat) : Bool :=
  decide (SIZE_MAX w / nmemb < size)

/-- Source `xMallocArray` (XUtils.c:45). -/
def xMallocArray (w nmemb size : Nat) : Option Nat :=
  if nmemb = 0 then none
  else if size = 0 then none
  else if overflowGuard w nmemb size then none
  else xMalloc ((nmemb * size) % 2 ^ w)

/-- Source `xCalloc` (XUtils.c:54); the result is the byte count `nmemb * size` as the
source computes it for the audit line. -/
def xCalloc (w nmemb size : Nat) : Option Nat :=
  if nmemb = 0 then none
  else if size = 0 then none
  else if overflowGuard w nmemb size then none
  else some ((nmemb * size) % 2 ^ w)

/-- Source `xRealloc` (XUtils.c:70). -/
def xRealloc (size : Nat) : Option Nat :=
  if size = 0 then none else some size

/-- Source `xReallocArray` (XUtils.c:83). -/
def xReallocArray (w nmemb size : Nat) : Option Nat :=
  if nmemb = 0 then none
  else if size = 0 then none
  else if overflowGuard w nmemb size then none
  else xRealloc ((nmemb * size) % 2 ^ w)

/-! ## Typed storage -/

/-- Storage of `n` cells that keeps the old cells which still fit; cells gained hold
`fill`. -/
def resize {α : Type} (fill : α) (buf : List α) (n : Nat) : List α :=
  buf.take n ++ List.replicate (n - buf.length) fill

/-- Store `buf[i] = v`; no result outside the allocation. -/
def store {α : Type} (buf : List α) (i : Nat) (v : α) : Option (List α) :=
  if i < buf.length then some (buf.set i v) else none

/-- Read `buf[i]` from cells that may be indeterminate (`none`); no result outside the
allocation or on an indeterminate cell. -/
def load {α : Type} (buf : List (Option α)) (i : Nat) : Option α :=
  (buf.get? i).join

/-- The content of cells none of which is indeterminate. -/
def allSome {α : Type} : List (Option α) → Option (List α)
  | [] => some []
  | none :: _ => none
  | some x :: r => (allSome r).map (x :: ·)

/-- An `xCalloc(nmemb, elt)` block seen as cells of `elt` bytes, each `zero`. -/
def callocCells {α : Type} (zero : α) (elt nmemb : Nat) : Option (List α) :=
  (xCalloc SIZE_BITS nmemb elt).map fun bytes => List.replicate (bytes / elt) zero

/-- An `xRealloc(buf, size)` block seen as cells of `elt` bytes: the old cells that fit are
kept, cells gained hold `fill`. -/
def reallocCells {α : Type} (fill : α) (elt : Nat) (buf : List α) (size : Nat) :
    Option (List α) :=
  (xRealloc size).map fun bytes => resize fill buf (bytes / elt)

/-- Source `xReallocArrayZero` (XUtils.c:92) on a block of bytes, each a number or
indeterminate (`none`); `none` for `ptr` is the null pointer.  The result is the returned
block and whether `xReallocArray` was called. -/
def xReallocArrayZero (w : Nat) (ptr : Option (List (Option Nat)))
    (prevmemb newmemb size : Nat) : Option (Option (List (Option Nat)) × Bool) :=
  if decide (ptr = none) ≠ decide (prevmemb = 0) then none
  else if prevmemb = newmemb then some (ptr, false)
  else
    (xReallocArray w newmemb size).bind fun bytes =>
    -- realloc: the old bytes that fit are kept, bytes gained are indeterminate
    let ret := resize none (ptr.getD []) bytes
    if newmemb > prevmemb then
      -- memset(ret + prevmemb * size, 0, (newmemb - prevmemb) * size)
      let off := (prevmemb * size) % 2 ^ w
      let len := ((newmemb - prevmemb) * size) % 2 ^ w
      if off + len ≤ ret.length then
        some (some (ret.take off ++ List.replicate len (some 0) ++ ret.drop (off + len)),
          true)
      else none
    else some (some ret, true)

/-! ## C strings -/

/-- The byte `s[i]` of a C string: its content, then the terminator. -/
def charAt (s : List Char) (i : Nat) : Char := s.getD i NUL

/-- Library `strchr(s, c)`: offset of the first occurrence of `c` in `s`, the terminator
included in the search; `none` is the null pointer. -/
def strchr : List Char → Char → Option Nat
  | [], c => if c = NUL then some 0 else none
  | x :: xs, c => if x = c then some 0 else (strchr xs c).map (· + 1)

/-- Library `strrchr(s, c)`: offset of the last occurrence of `c` in `s`. -/
def strrchr : List Char → Char → Option Nat
  | [], c => if c = NUL then some 0 else none
  | x :: xs, c =>
    match strrchr xs c with
    | some j => some (j + 1)
    | none => if x = c then some 0 else none

/-- Library `strlen`. -/
def strlen (s : List Char) : Nat := s.length

/-- Source `xStrdup` (XUtils.c:272): a fresh copy of the string. -/
def xStrdup (s : List Char) : List Char := s

/-- Source `xStrndup` (XUtils.c:291): a fresh copy of at most `len` leading bytes. -/
def xStrndup (s : List Char) (len : Nat) : List Char := s.take len

/-! ## `String_trim` (XUtils.c:129) -/

/-- The first loop of `String_trim`: `in++` while `in[0]` is a space, a tab or a newline;
at the end of the string `in[0]` is the terminator and the loop stops. -/
def String_trim.skip : List Char → List Char
  | [] => []
  | c :: cs => if c = ' ' ∨ c = '\t' ∨ c = '\n' then String_trim.skip cs else c :: cs

/-- The second loop of `String_trim`: `len--` while `len > 0` and `in[len - 1]` is a
space, a tab or a newline. -/
def String_trim.back (s : List Char) : Nat → Nat
  | 0 => 0
  | len + 1 =>
    if charAt s len = ' ' ∨ charAt s len = '\t' ∨ charAt s len = '\n' then
      String_trim.back s len
    else len + 1

/-- Source `String_trim`: the new string; the argument is only read. -/
def String_trim (s : List Char) : List Char :=
  let s1 := String_trim.skip s
  xStrndup s1 (String_trim.back s1 (strlen s1))

/-- The three characters `String_trim` strips. -/
def isBlank (c : Char) : Bool := c = ' ' ∨ c = '\t' ∨ c = '\n'

/-! ## `String_split` (XUtils.c:142) -/

/-- One `char*` cell of an array: not yet written, the null pointer, or a string. -/
inductive Slot where
  | indet : Slot
  | null : Slot
  | str : List Char → Slot
  deriving DecidableEq, Repr

/-- The `while` loop of `String_split`.  State: the unread rest of `s`, the array `out`,
the counter `ctr` (`size_t`) and `blocks` (`unsigned int`).  The first argument bounds the
number of iterations; the result is the state on leaving the loop. -/
def String_split.loop (sep : Char) :
    Nat → List Char → List Slot → Nat → Nat → Option (List Char × List Slot × Nat)
  | 0, _, _, _, _ => none
  | fuel + 1, s, out, ctr, blocks =>
    -- while ((where = strchr(s, sep)) != NULL)
    match strchr s sep with
    | none => some (s, out, ctr)
    | some size =>
      -- out[ctr] = xStrndup(s, size); ctr++;
      (store out ctr (Slot.str (xStrndup s size))).bind fun out1 =>
      let ctr1 := (ctr + 1) % SIZE_MOD
      -- if (ctr == blocks) { blocks += rate; out = xRealloc(out, sizeof(char*) * blocks); }
      let blocks1 := if ctr1 = blocks then (blocks + 10) % UINT_MOD else blocks
      (if ctr1 = blocks then
          reallocCells Slot.indet PTR_BYTES out1 ((PTR_BYTES * blocks1) % SIZE_MOD)
        else some out1).bind fun out2 =>
      -- s += size + 1; this leaves the string only when `where` is its terminator
      if size + 1 ≤ strlen s then
        String_split.loop sep fuel (s.drop (size + 1)) out2 ctr1 blocks1
      else none

/-- Source `String_split(s, sep, n)`: the returned array and the count stored in `*n`. -/
def String_split (s : List Char) (sep : Char) : Option (List Slot × Nat) :=
  -- out = xCalloc(rate, sizeof(char*)); ctr = 0; blocks = rate;
  (callocCells Slot.null PTR_BYTES 10).bind fun out0 =>
  (String_split.loop sep (strlen s + 1) s out0 0 10).bind fun (rest, out1, ctr1) =>
  -- if (s[0] != 0) { out[ctr] = xStrdup(s); ctr++; }
  (if charAt rest 0 ≠ NUL then
      (store out1 ctr1 (Slot.str (xStrdup rest))).map fun o => (o, (ctr1 + 1) % SIZE_MOD)
    else some (out1, ctr1)).bind fun (out2, ctr2) =>
  -- out = xRealloc(out, sizeof(char*) * (ctr + 1)); out[ctr] = NULL;
  (reallocCells Slot.indet PTR_BYTES out2
    ((PTR_BYTES * ((ctr2 + 1) % SIZE_MOD)) % SIZE_MOD)).bind fun out3 =>
  (store out3 ctr2 Slot.null).map fun out4 => (out4, ctr2)

/-- Spec `split`: the segments of `s` between consecutive separators, the empty segment
at the very end dropped. -/
def segments (s : List Char) (sep : Char) : List (List Char) :=
  let parts := s.splitOn sep
  if parts.getLast? = some [] then parts.dropLast else parts

/-! ## `String_safeStrncpy` (XUtils.c:234) -/

/-- State of a copy: the destination memory, and the indices of `src` read and of `dest`
written so far (latest first). -/
structure CopyState where
  dest : Nat → Char
  reads : List Nat
  writes : List Nat

/-- The `for` loop of `String_safeStrncpy`; the first argument bounds the number of
iterations, the result is the final `i` and state. -/
def String_safeStrncpy.loop (src : Nat → Char) (size : Nat) :
    Nat → Nat → CopyState → Option (Nat × CopyState)
  | 0, _, _ => none
  | fuel + 1, i, st =>
    if i < size - 1 then
      -- `src[i]` is evaluated only when `i < size - 1` holds
      let st1 := { st with reads := i :: st.reads }
      if src i ≠ NUL then
        String_safeStrncpy.loop src size fuel (i + 1)
          { dest := Function.update st1.dest i (src i), reads := i :: st1.reads,
            writes := i :: st1.writes }
      else some (i, st1)
    else some (i, st)

/-- Source `String_safeStrncpy(dest, src, size)`: the returned count and the final state;
`assert(size > 0)`. -/
def String_safeStrncpy (dest src : Nat → Char) (size : Nat) : Option (Nat × CopyState) :=
  if size = 0 then none
  else
    (String_safeStrncpy.loop src size size 0 { dest := dest, reads := [], writes := [] }).map
      fun (i, st) => (i, { st with dest := Function.update st.dest i NUL,
                                   writes := i :: st.writes })

/-- Memory holding the C string `s`: its bytes, then terminators. -/
def memOf (s : List Char) : Nat → Char := fun i => s.getD i NUL

/-! ## `String_readLine` (XUtils.c:208) -/

/-- A `FILE*` open for reading: the bytes not yet read and the end-of-file indicator. -/
structure Stream where
  rest : List Char
  eof : Bool
  deriving DecidableEq, Repr

/-- The reading loop of library `fgets`: at most `n` bytes, stopping after a newline.
Result: the bytes read, the bytes left, and whether a read met the end of the stream. -/
def fgets.read : Nat → List Char → List Char × List Char × Bool
  | 0, r => ([], r, false)
  | _ + 1, [] => ([], [], true)
  | n + 1, c :: r =>
    if c = '\n' then ([c], r, false)
    else
      let (a, b, e) := fgets.read n r
      (c :: a, b, e)

/-- Library `fgets(at, n, fd)` for `n > 1`: the bytes stored at `at` before the added
terminator, `none` for a null result (end of stream and nothing read). -/
def fgets (n : Nat) (fd : Stream) : Option (List Char) × Stream :=
  let (chunk, rest, hit) := fgets.read (n - 1) fd.rest
  if chunk = [] ∧ hit then (none, { rest := rest, eof := true })
  else (some chunk, { rest := rest, eof := fd.eof || hit })

/-- Store `bytes` at offset `off` of a block of bytes. -/
def writeBytes (buf : List (Option Char)) (off : Nat) (bytes : List Char) :
    Option (List (Option Char)) :=
  if off + bytes.length ≤ buf.length then
    some (buf.take off ++ bytes.map some ++ buf.drop (off + bytes.length))
  else none

/-- The C string that starts a block of bytes: the bytes before the first NUL; no result
when an indeterminate byte or the end of the block is met first. -/
def cstr : List (Option Char) → Option (List Char)
  | [] => none
  | none :: _ => none
  | some c :: r => if c = NUL then some [] else (cstr r).map (c :: ·)

/-- The loop of `String_readLine`.  State: the stream, `buffer`, `bufSize`
(`unsigned int`) and the offset of `at` in `buffer`.  The first argument bounds the number
of iterations.  Result: the returned string (`none` is the null pointer) and the stream. -/
def String_readLine.loop :
    Nat → Stream → List (Option Char) → Nat → Nat → Option (Option (List Char) × Stream)
  | 0, _, _, _, _ => none
  | fuel + 1, fd, buffer, bufSize, at_ =>
    -- ok = fgets(at, step + 1, fd); if (!ok) { xFree(buffer); return NULL; }
    match fgets (1024 + 1) fd with
    | (none, fd1) => some (none, fd1)
    | (some chunk, fd1) =>
      (writeBytes buffer at_ (chunk ++ [NUL])).bind fun buf1 =>
      -- newLine = strrchr(at, 10)
      (cstr (buf1.drop at_)).bind fun line =>
      match strrchr line '\n' with
      | some j =>
        -- *newLine = 0; return buffer;
        (store buf1 (at_ + j) (some NUL)).bind fun buf2 =>
        (cstr buf2).map fun r => (some r, fd1)
      | none =>
        -- if (feof(fd)) return buffer;
        if fd1.eof then (cstr buf1).map fun r => (some r, fd1)
        else
          -- bufSize += step; buffer = xRealloc(buffer, bufSize + 1);
          let bufSize1 := (bufSize + 1024) % UINT_MOD
          (reallocCells none 1 buf1 ((bufSize1 + 1) % UINT_MOD)).bind fun buf3 =>
          -- at = buffer + bufSize - step, a position of the block
          if 1024 ≤ bufSize1 ∧ bufSize1 ≤ buf3.length then
            String_readLine.loop fuel fd1 buf3 bufSize1 (bufSize1 - 1024)
          else none

/-- Source `String_readLine(fd)`: the returned string (`none` is the null pointer) and the
stream after the call. -/
def String_readLine (fd : Stream) : Option (Option (List Char) × Stream) :=
  (xMalloc (1024 + 1)).bind fun bytes =>
  String_readLine.loop (fd.rest.length + 1) fd (List.replicate bytes none) 1024 0

/-- Successive calls of `String_readLine` on one stream: the results of `n` calls, in
order, and the stream after the last one. -/
def readLines : Nat → Stream → Option (List (Option (List Char)) × Stream)
  | 0, fd => some ([], fd)
  | n + 1, fd =>
    (String_readLine fd).bind fun (r, fd1) =>
    (readLines n fd1).map fun (rs, fd2) => (r :: rs, fd2)

/-- Content of a stream made of the lines `ls` joined by newlines; `terminated` tells
whether the last line ends with a newline too. -/
def joinLines : List (List Char) → Bool → List Char
  | [], _ => []
  | [l], terminated => if terminated then l ++ ['\n'] else l
  | l :: l2 :: ls, terminated => l ++ '\n' :: joinLines (l2 :: ls) terminated

/-! ## `Affinity` (Affinity.c) -/

/-- Modelled from the spec: struct `ProcessList` is declared in ProcessList.h, which is not
among the sources; of it `Affinity.c` reads only the context's known CPU count
`existingCPUs`. -/
structure ProcessList where
  existingCPUs : Nat
  deriving DecidableEq, Repr

/-- Modelled from the spec: struct `Affinity` is declared in Affinity.h, which is not among
the sources.  It holds the borrowed context `pl`, the capacity `size`, the count `used` and
the block `cpus` of ids; `size` and `used` are `unsigned int`, the type of the counters
that `Affinity.c` compares with them and of the ids.  A cell of `cpus` may be
indeterminate (`none`). -/
structure Affinity where
  pl : ProcessList
  size : Nat
  used : Nat
  cpus : List (Option Nat)
  deriving DecidableEq, Repr

/-- Source `Affinity_new` (Affinity.c:30). -/
def Affinity_new (pl : ProcessList) : Option Affinity :=
  (xCalloc SIZE_BITS 1 AFFINITY_BYTES).bind fun _ =>
  (callocCells (some 0) UINT_BYTES 8).map fun cpus =>
  { pl := pl, size := 8, used := 0, cpus := cpus }

/-- Source `Affinity_add` (Affinity.c:43). -/
def Affinity_add (this : Affinity) (id : Nat) : Option Affinity :=
  -- if (used == size) { size *= 2; cpus = xRealloc(cpus, sizeof(unsigned int) * size); }
  (if this.used = this.size then
      let size1 := (this.size * 2) % UINT_MOD
      (reallocCells none UINT_BYTES this.cpus ((UINT_BYTES * size1) % SIZE_MOD)).map
        fun cpus => { this with size := size1, cpus := cpus }
    else some this).bind fun t =>
  -- cpus[used] = id; used++;
  (store t.cpus t.used (some id)).map fun cpus =>
  { t with cpus := cpus, used := (t.used + 1) % UINT_MOD }

/-- A fresh `Affinity` followed by `Affinity_add` of each id of `ids`, in order. -/
def Affinity_addAll (pl : ProcessList) (ids : List Nat) : Option Affinity :=
  (Affinity_new pl).bind fun a => ids.foldlM Affinity_add a

/-- The ids an `Affinity` stores: the cells `cpus[0 .. used)`. -/
def Affinity.ids (this : Affinity) : Option (List Nat) :=
  allSome (this.cpus.take this.used)

/-- Representation invariant of an `Affinity`: the block has `size` cells, of which
`used` are in use, and the capacity is positive. -/
def Affinity.WF (this : Affinity) : Prop :=
  this.cpus.length = this.size ∧ this.used ≤ this.size ∧ 0 < this.size

/-- The value of `CPU_SETSIZE`: the number of bits of a `cpu_set_t`. -/
def CPU_SETSIZE : Nat := 1024

/-- The value of `sizeof(cpu_set_t)`. -/
def CPU_SET_BYTES : Nat := 128

/-- The value of `sizeof(unsigned long)`. -/
def ULONG_BYTES : Nat := 8

/-- Library macro `CPU_SET(cpu, set)` on a mask held as a number, bit `c` for CPU `c`:
without effect for `cpu` outside the set. -/
def CPU_SET (cpu set : Nat) : Nat :=
  if cpu < CPU_SETSIZE then set ||| 1 <<< cpu else set

/-- Library macro `CPU_ISSET(cpu, set)`: false for `cpu` outside the set. -/
def CPU_ISSET (cpu set : Nat) : Bool :=
  decide (cpu < CPU_SETSIZE) && set.testBit cpu

/-- Library `hwloc_bitmap_set(bitmap, id)`: a bitmap has no fixed size. -/
def hwloc_bitmap_set (bitmap id : Nat) : Nat := bitmap ||| 1 <<< id

/-- What a call of `sched_setaffinity(pid, cpusetsize, mask)` passes. -/
structure SchedCall where
  pid : Nat
  cpusetsize : Nat
  mask : Nat
  deriving DecidableEq, Repr

/-- The mask as `sched_setaffinity` sees it: the first `cpusetsize` bytes of the set. -/
def SchedCall.seen (c : SchedCall) : Nat := c.mask % 2 ^ (8 * c.cpusetsize)

/-- What a call of `hwloc_set_proc_cpubind(topology, pid, cpuset, flag)` passes. -/
structure HwlocCall where
  pid : Nat
  cpuset : Nat
  deriving DecidableEq, Repr

namespace Sched

/-- The mask loop of `Affinity_set` (Affinity.c:107-110): `CPU_ZERO`, then `CPU_SET` of
every stored id. -/
def Affinity_set.mask (this : Affinity) : Option Nat :=
  (List.range this.used).foldlM (fun m i => (load this.cpus i).map fun c => CPU_SET c m) 0

/-- Source `Affinity_set`, scheduler backend (Affinity.c:104): the call it makes and the
value it returns; `os` gives the result of `sched_setaffinity`. -/
def Affinity_set (os : SchedCall → Int) (pid : Nat) (this : Affinity) :
    Option (SchedCall × Bool) :=
  (Affinity_set.mask this).map fun cpuset =>
  let call : SchedCall := { pid := pid, cpusetsize := ULONG_BYTES, mask := cpuset }
  (call, decide (os call = 0))

/-- Source `Affinity_get`, scheduler backend (Affinity.c:89); `query` is the outcome of
`sched_getaffinity(pid, sizeof(cpu_set_t), &cpuset)`: `none` when it fails, the mask when
it returns 0.  The inner `none` of the result is the null pointer. -/
def Affinity_get (query : Option Nat) (pl : ProcessList) : Option (Option Affinity) :=
  match query with
  | none => some none
  | some cpuset =>
    (Affinity_new pl).bind fun affinity =>
    ((List.range pl.existingCPUs).foldlM
      (fun a i => if CPU_ISSET i cpuset then Affinity_add a i else some a) affinity).map some

end Sched

namespace Hwloc

/-- The bitmap loop of `Affinity_set` (Affinity.c:78-81): an empty bitmap, then
`hwloc_bitmap_set` of every stored id. -/
def Affinity_set.mask (this : Affinity) : Option Nat :=
  (List.range this.used).foldlM
    (fun m i => (load this.cpus i).map fun c => hwloc_bitmap_set m c) 0

/-- Source `Affinity_set`, topology backend (Affinity.c:76): the call it makes and the
value it returns; `lib` gives the result of `hwloc_set_proc_cpubind`. -/
def Affinity_set (lib : HwlocCall → Int) (pid : Nat) (this : Affinity) :
    Option (HwlocCall × Bool) :=
  (Affinity_set.mask this).map fun cpuset =>
  let call : HwlocCall := { pid := pid, cpuset := cpuset }
  (call, decide (lib call = 0))

end Hwloc

/-- Library type `hwloc_bitmap_t` as a query fills it: the indices `i` with bit `i` of
`bits` set, and, when `infinite`, every index above them too. -/
structure HwlocBitmap where
  bits : Nat
  infinite : Bool
  deriving DecidableEq, Repr

/-- Library `hwloc_bitmap_last`: the highest index set, `-1` when the bitmap is empty or
infinitely set. -/
def hwloc_bitmap_last (b : HwlocBitmap) : Int :=
  if b.infinite then -1 else if b.bits = 0 then -1 else (Nat.log2 b.bits : Int)

/-- Library `hwloc_bitmap_foreach_begin` .. `hwloc_bitmap_foreach_end` on a finite
bitmap: the indices set, in ascending order. -/
def hwloc_bitmap_foreach (b : HwlocBitmap) : List Nat :=
  (List.range (Nat.log2 b.bits + 1)).filter fun i => b.bits.testBit i

namespace Hwloc

/-- Source `Affinity_get`, topology backend (Affinity.c:55); `query` is the outcome of
`hwloc_get_proc_cpubind`: `none` when it fails, the bitmap when it returns 0.  The inner
`none` of the result is the null pointer. -/
def Affinity_get (query : Option HwlocBitmap) (pl : ProcessList) :
    Option (Option Affinity) :=
  match query with
  | none => some none
  | some cpuset =>
    (Affinity_new pl).bind fun affinity =>
    (if hwloc_bitmap_last cpuset = -1 then
        -- for (i = 0; i < pl->existingCPUs; i++) Affinity_add(affinity, i);
        (List.range pl.existingCPUs).foldlM Affinity_add affinity
      else
        -- hwloc_bitmap_foreach_begin(id, cpuset) Affinity_add(affinity, (unsigned)id);
        (hwloc_bitmap_foreach cpuset).foldlM Affinity_add affinity).map some

end Hwloc

/-! ### The operating system of the round trip

A successful bind stores the mask it is given for the process, and a later query of the
process returns the stored mask.  A bind of the empty set does not succeed. -/

/-- The scheduler's state: the affinity mask of each process id. -/
structure Kernel where
  maskOf : Nat → Nat

/-- Library `sched_setaffinity`: the state after the call and its result.  A mask in which
the call sees no CPU is refused (`-1`, `EINVAL`) and the binding stays as it is; otherwise
the call succeeds and the mask seen is stored for the process. -/
def Kernel.sched_setaffinity (k : Kernel) (call : SchedCall) : Kernel × Int :=
  if call.seen = 0 then (k, -1)
  else ({ maskOf := Function.update k.maskOf call.pid call.seen }, 0)

/-- A `sched_getaffinity(pid, sizeof(cpu_set_t), &cpuset)` that succeeds. -/
def Kernel.sched_getaffinity (k : Kernel) (pid : Nat) : Option Nat :=
  some (k.maskOf pid)

/-- The topology library's state: the bitmap each process id is bound to. -/
structure Topology where
  bitmapOf : Nat → HwlocBitmap

/-- Library `hwloc_set_proc_cpubind`: the state after the call and its result.  An empty
bitmap is refused (`-1`, `EINVAL`) and the binding stays as it is; otherwise the call
succeeds and the bitmap passed is stored for the process. -/
def Topology.hwloc_set_proc_cpubind (t : Topology) (call : HwlocCall) : Topology × Int :=
  if call.cpuset = 0 then (t, -1)
  else
    ({ bitmapOf := Function.update t.bitmapOf call.pid
        { bits := call.cpuset, infinite := false } }, 0)

/-- A `hwloc_get_proc_cpubind` that succeeds. -/
def Topology.hwloc_get_proc_cpubind (t : Topology) (pid : Nat) : Option HwlocBitmap :=
  some (t.bitmapOf pid)

/-- Scheduler backend: `Affinity_set` of `this` on process `pid`, immediately followed by
`Affinity_get` of the same process. -/
def Sched.roundTrip (k : Kernel) (pid : Nat) (this : Affinity) (pl : ProcessList) :
    Option (Option Affinity) :=
  (Sched.Affinity_set (fun c => (k.sched_setaffinity c).2) pid this).bind fun (call, _) =>
  Sched.Affinity_get ((k.sched_setaffinity call).1.sched_getaffinity pid) pl

/-- Topology backend: `Affinity_set` of `this` on process `pid`, immediately followed by
`Affinity_get` of the same process. -/
def Hwloc.roundTrip (t : Topology) (pid : Nat) (this : Affinity) (pl : ProcessList) :
    Option (Option Affinity) :=
  (Hwloc.Affinity_set (fun c => (t.hwloc_set_proc_cpubind c).2) pid this).bind
    fun (call, _) =>
  Hwloc.Affinity_get ((t.hwloc_set_proc_cpubind call).1.hwloc_get_proc_cpubind pid) pl

/-- An `Affinity` stores exactly the ids `L`. -/
def Affinity.Stores (this : Affinity) (L : List Nat) : Prop :=
  this.cpus.take this.used = L.map some ∧ this.used = L.length


/-! ## `free_and_xStrdup` (XUtils.c:283) -/

/-- Modelled from the spec: `String_eq` is declared in XUtils.h, which is not among the
sources; it tells whether the string held and the new value are identical. -/
def String_eq (a b : List Char) : Bool := decide (a = b)

/-- A heap block that holds a string: its address and its content. -/
structure StrPtr where
  addr : Nat
  str : List Char
  deriving DecidableEq, Repr

/-- The state around a `char**` slot: the pointer in the slot (`none` is the null
pointer), the address the next duplication returns, and the calls made so far, latest
first: the arguments of `xFree` and the results of `xStrdup`. -/
structure SlotHeap where
  slot : Option StrPtr
  next : Nat
  frees : List (Option Nat)
  dups : List StrPtr
  deriving DecidableEq, Repr

/-- The two statements after the test of `free_and_xStrdup`: `xFree(*ptr)`, then
`*ptr = xStrdup(str)`. -/
def free_and_xStrdup.replace (h : SlotHeap) (str : List Char) : SlotHeap :=
  { slot := some { addr := h.next, str := xStrdup str },
    next := h.next + 1,
    frees := h.slot.map (·.addr) :: h.frees,
    dups := { addr := h.next, str := xStrdup str } :: h.dups }

/-- Source `free_and_xStrdup(ptr, str)` on the state around the slot `*ptr`. -/
def free_and_xStrdup (h : SlotHeap) (str : List Char) : SlotHeap :=
  match h.slot with
  | some p =>
    -- if (*ptr && String_eq(*ptr, str)) return;
    if String_eq p.str str then h else free_and_xStrdup.replace h str
  | none => free_and_xStrdup.replace h str

/-- The state with an empty slot and no call made yet. -/
def SlotHeap.empty : SlotHeap := { slot := none, next := 1, frees := [], dups := [] }

/-! ## `readfd_internal`, `xReadfile`, `xReadfileat` (XUtils.c:302-349) -/

/-- The value of `EINTR`. -/
def EINTR : Nat := 4

/-- The value of `EINVAL`. -/
def EINVAL : Nat := 22

/-- Outcome of one call of library `read`: the bytes it delivers (none at the end of the
file), or the result `-1` with `errno` set. -/
inductive ReadResult where
  | data : List Nat → ReadResult
  | error : Nat → ReadResult
  deriving DecidableEq, Repr

/-- How a run of `readfd_internal` over a sequence of outcomes of `read` ends: it returns
a value, leaving the buffer and having called `close` a number of times; or the sequence
ends while the function still waits for a read (`pending`); or it accesses memory outside
the buffer or overflows `ssize_t` (`fault`). -/
inductive ReadOutcome where
  | returned : Int → List (Option Nat) → Nat → ReadOutcome
  | pending : ReadOutcome
  | fault : ReadOutcome
  deriving DecidableEq, Repr

/-- Store `vals` at offset `off` of a block. -/
def writeCells {α : Type} (buf : List (Option α)) (off : Nat) (vals : List α) :
    Option (List (Option α)) :=
  if off + vals.length ≤ buf.length then
    some (buf.take off ++ vals.map some ++ buf.drop (off + vals.length))
  else none

/-- The `for (;;)` loop of `readfd_internal`, one outcome of `read` per iteration.  State:
the block `buffer`, the offset of the pointer `buffer` in it (equal to `alreadyRead`), the
remaining `count`, and the number of calls of `close` so far.  `closeErrno` is the value
`close` leaves in `errno` when it fails. -/
def readfd_internal.loop (closeErrno : Option Nat) :
    List ReadResult → List (Option Nat) → Nat → Nat → Nat → ReadOutcome
  | [], _, _, _, _ => ReadOutcome.pending
  | ReadResult.error errno :: rest, buffer, off, count, closes =>
    -- if (res == -1) { if (errno == EINTR) continue; close(fd); return -errno; }
    if errno = EINTR then readfd_internal.loop closeErrno rest buffer off count closes
    else ReadOutcome.returned (-((closeErrno.getD errno : Nat) : Int)) buffer (closes + 1)
  | ReadResult.data bytes :: rest, buffer, off, count, closes =>
    -- res = read(fd, buffer, count) delivers at most `count` bytes
    let got := bytes.take count
    match writeCells buffer off got with
    | none => ReadOutcome.fault
    | some buffer1 =>
      -- if (res > 0) { buffer += res; count -= res; alreadyRead += res; }
      let off1 := off + got.length
      let count1 := count - got.length
      if 2 ^ 63 ≤ off1 then ReadOutcome.fault
      -- if (count == 0 || res == 0) { close(fd); *buffer = 0; return alreadyRead; }
      else if count1 = 0 ∨ got.length = 0 then
        match store buffer1 off1 (some 0) with
        | none => ReadOutcome.fault
        | some buffer2 => ReadOutcome.returned (off1 : Int) buffer2 (closes + 1)
      else readfd_internal.loop closeErrno rest buffer1 off1 count1 closes

/-- Source `readfd_internal(fd, buffer, count)` over the outcomes `reads` of the calls of
`read`. -/
def readfd_internal (closeErrno : Option Nat) (reads : List ReadResult)
    (buffer : List (Option Nat)) (count : Nat) : ReadOutcome :=
  -- if (!count) { close(fd); return -EINVAL; }
  if count = 0 then ReadOutcome.returned (-(EINVAL : Int)) buffer 1
  -- count--; reserve one for the terminator
  else readfd_internal.loop closeErrno reads buffer 0 (count - 1) 0

/-- Source `xReadfile(pathname, buffer, count)`; `openErrno` is `none` when `open` gives a
descriptor, else the `errno` it sets. -/
def xReadfile (openErrno closeErrno : Option Nat) (reads : List ReadResult)
    (buffer : List (Option Nat)) (count : Nat) : ReadOutcome :=
  match openErrno with
  | some errno => ReadOutcome.returned (-(errno : Int)) buffer 0
  | none => readfd_internal closeErrno reads buffer count

/-- Source `xReadfileat(dirfd, pathname, buffer, count)`; `openErrno` is `none` when
`Compat_openat` gives a descriptor, else the `errno` it sets. -/
def xReadfileat (openErrno closeErrno : Option Nat) (reads : List ReadResult)
    (buffer : List (Option Nat)) (count : Nat) : ReadOutcome :=
  match openErrno with
  | some errno => ReadOutcome.returned (-(errno : Int)) buffer 0
  | none => readfd_internal closeErrno reads buffer count

/-- The bytes a sequence of outcomes of `read` delivers before it ends the reading:
interrupted reads are skipped, the end of the file or another error ends it. -/
def readStream : List ReadResult → List Nat
  | [] => []
  | ReadResult.error errno :: rest => if errno = EINTR then readStream rest else []
  | ReadResult.data [] :: _ => []
  | ReadResult.data (b :: bytes) :: rest => (b :: bytes) ++ readStream rest

/-- An outcome of `read` that is neither an interruption nor a delivery of bytes: the end
of the file, or an error other than `EINTR`. -/
def ReadResult.ends : ReadResult → Bool
  | ReadResult.data bytes => bytes.isEmpty
  | ReadResult.error errno => errno != EINTR

/-! ## `String_getToken` (XUtils.c:181) -/

/-- The value of `(char)EOF`: the byte 0xFF. -/
def EOF_CHAR : Char := Char.ofNat 255

/-- Number of values of `unsigned short int`. -/
def USHRT_MOD : Nat := 65536

/-- Number of bytes of the scratch buffer `match` of `String_getToken`. -/
def MATCH_BYTES : Nat := 50

/-- State of the loop of `String_getToken`: `inWord`, `count` (`unsigned short int`),
`foundCount`, and the stores into `match` made so far, latest first, each with its index
and the byte stored. -/
structure TokenState where
  inWord : Bool
  count : Nat
  foundCount : Nat
  stores : List (Nat × Char)
  deriving DecidableEq, Repr

/-- The new value of `inWord` in an iteration of `String_getToken` on the byte
`c = line[i]`: `inWord = line[i] == 32 ? 0 : 1`. -/
def String_getToken.inWordAt (c : Char) : Bool := !(decide (c = ' '))

/-- The value of `count` after `if (lastState == 0 && inWord == 1) count++;`. -/
def String_getToken.countAt (st : TokenState) (c : Char) : Nat :=
  if st.inWord = false ∧ String_getToken.inWordAt c = true then (st.count + 1) % USHRT_MOD
  else st.count

/-- One iteration of the `for` loop of `String_getToken` on the byte `c = line[i]`. -/
def String_getToken.step (numMatch : Nat) (st : TokenState) (c : Char) : TokenState :=
  -- if (inWord == 1) if (count == numMatch && line[i] is none of 32, 0, 10, (char)EOF)
  if String_getToken.inWordAt c = true ∧ String_getToken.countAt st c = numMatch ∧
      c ≠ ' ' ∧ c ≠ NUL ∧ c ≠ '\n' ∧ c ≠ EOF_CHAR then
    -- match[foundCount] = line[i]; foundCount++;
    { inWord := String_getToken.inWordAt c, count := String_getToken.countAt st c,
      foundCount := st.foundCount + 1, stores := (st.foundCount, c) :: st.stores }
  else
    { inWord := String_getToken.inWordAt c, count := String_getToken.countAt st c,
      foundCount := st.foundCount, stores := st.stores }

/-- The `for` loop of `String_getToken` over the bytes `line[0 .. strlen(line))`. -/
def String_getToken.scan (line : List Char) (numMatch : Nat) : TokenState :=
  line.foldl (String_getToken.step numMatch)
    { inWord := false, count := 0, foundCount := 0, stores := [] }

/-- All the stores of `String_getToken` into `match`, in program order: those of the
loop, then `match[foundCount] = 0`. -/
def String_getToken.writes (line : List Char) (numMatch : Nat) : List (Nat × Char) :=
  ((String_getToken.scan line numMatch).foundCount, NUL) ::
    (String_getToken.scan line numMatch).stores |>.reverse

/-- The bytes the loop of `String_getToken` retains, in order. -/
def String_getToken.retained (line : List Char) (numMatch : Nat) : List Char :=
  (String_getToken.scan line numMatch).stores.reverse.map Prod.snd

/-- Stores into a block, in order; no result when one of them is outside the block. -/
def applyStores (buf : List (Option Char)) (stores : List (Nat × Char)) :
    Option (List (Option Char)) :=
  stores.foldlM (fun m st => store m st.1 (some st.2)) buf

/-- Source `String_getToken(line, numMatch)`: the stores go to the 50 bytes of `match`,
and the result is `xStrdup(match)`. -/
def String_getToken (line : List Char) (numMatch : Nat) : Option (List Char) :=
  (applyStores (List.replicate MATCH_BYTES none) (String_getToken.writes line numMatch)).bind
    fun m => (cstr m).map xStrdup

/-- The tokens of a line delimited by spaces. -/
def spaceTokens (line : List Char) : List (List Char) :=
  (line.splitOn ' ').filter fun p => p ≠ []

/-- A token without the bytes that `String_getToken` leaves out: newline and 0xFF (and
NUL, which no C string holds). -/
def keptOf (token : List Char) : List Char :=
  token.filter fun c => c ≠ NUL ∧ c ≠ '\n' ∧ c ≠ EOF_CHAR

/-- Spec `tokenAt`, as the claim reads it: the tokens of a line delimited by space, tab
and newline. -/
def whitespaceTokens (line : List Char) : List (List Char) :=
  (line.splitOnP fun c => c = ' ' ∨ c = '\t' ∨ c = '\n').filter fun p => p ≠ []

/-- The `n`-th token (1-indexed) of a list of tokens, empty when there is none. -/
def tokenAt (tokens : List (List Char)) (n : Nat) : List Char :=
  if n = 0 then [] else tokens.getD (n - 1) []

/-! ## Single steps of `Affinity_add` and of the loop of `String_split` -/

/-- The first statement of `Affinity_add` (Affinity.c:44): the state in which the store
`cpus[used] = id` is done. -/
def Affinity_add.grown (this : Affinity) : Option Affinity :=
  if this.used = this.size then
    let size1 := (this.size * 2) % UINT_MOD
    (reallocCells none UINT_BYTES this.cpus ((UINT_BYTES * size1) % SIZE_MOD)).map
      fun cpus => { this with size := size1, cpus := cpus }
  else some this

/-- Invariant of the states of an `Affinity`: the block has `size` cells, `used` of them
in use, and the capacity is 8 doubled some number of times. -/
def Affinity.Inv (this : Affinity) : Prop :=
  this.cpus.length = this.size ∧ this.used ≤ this.size ∧ ∃ k, this.size = 8 * 2 ^ k

/-- One iteration of the `while` loop of `String_split` with `where - s = size`: the
array, `ctr` and `blocks` after it. -/
def String_split.body (s : List Char) (out : List Slot) (ctr blocks size : Nat) :
    Option (List Slot × Nat × Nat) :=
  -- out[ctr] = xStrndup(s, size); ctr++;
  (store out ctr (Slot.str (xStrndup s size))).bind fun out1 =>
  let ctr1 := (ctr + 1) % SIZE_MOD
  -- if (ctr == blocks) { blocks += rate; out = xRealloc(out, sizeof(char*) * blocks); }
  let blocks1 := if ctr1 = blocks then (blocks + 10) % UINT_MOD else blocks
  (if ctr1 = blocks then
      reallocCells Slot.indet PTR_BYTES out1 ((PTR_BYTES * blocks1) % SIZE_MOD)
    else some out1).map fun out2 => (out2, ctr1, blocks1)

/-! ## The audit lines of the allocator (XUtils.c:31-113, 246-300)

The stream `debug_log` is a list of lines, the latest last.  What `malloc`, `calloc`,
`realloc`, `strdup`, `strndup` and `vasprintf` return (`data`, 0 for the null pointer) and
the time `t` that `gettimeofday` gives are parameters.  The result is what the function
returns and the stream after the call, `none` when the call ends in `fail()` or on a failed
`assert`. -/

/-- The arguments `fun`, `file`, `line` of the allocator functions. -/
structure Site where
  fn : String
  file : String
  line : Int
  deriving DecidableEq, Repr

/-- The verbs of the format strings of the audit lines. -/
inductive Verb where
  | allocated : Verb
  | allocatedAndZeroised : Verb
  | reallocated : Verb
  | duplicated : Verb
  | deallocated : Verb
  deriving DecidableEq, Repr

/-- One line of `debug_log`: the pointer, the time, the verb, the byte count (`none` for a
format string without one) and the call-site. -/
structure AuditLine where
  ptr : Nat
  time : Nat × Nat
  verb : Verb
  bytes : Option Nat
  site : Site
  deriving DecidableEq, Repr

/-- Source `xMalloc` (XUtils.c:33) with its audit line. -/
def Audit.xMalloc (log : List AuditLine) (data : Nat) (t : Nat × Nat) (size : Nat)
    (site : Site) : Option (Nat × List AuditLine) :=
  -- assert(size > 0);
  if size = 0 then none
  -- void* data = malloc(size); if (!data) fail();
  else if data = 0 then none
  else some (data, log ++
    [{ ptr := data, time := t, verb := Verb.allocated, bytes := some size, site := site }])

/-- Source `xMallocArray` (XUtils.c:45) with its audit line. -/
def Audit.xMallocArray (w : Nat) (log : List AuditLine) (data : Nat) (t : Nat × Nat)
    (nmemb size : Nat) (site : Site) : Option (Nat × List AuditLine) :=
  if nmemb = 0 then none
  else if size = 0 then none
  else if overflowGuard w nmemb size then none
  else Audit.xMalloc log data t ((nmemb * size) % 2 ^ w) site

/-- Source `xCalloc` (XUtils.c:54) with its audit line. -/
def Audit.xCalloc (w : Nat) (log : List AuditLine) (data : Nat) (t : Nat × Nat)
    (nmemb size : Nat) (site : Site) : Option (Nat × List AuditLine) :=
  if nmemb = 0 then none
  else if size = 0 then none
  else if overflowGuard w nmemb size then none
  -- void* data = calloc(nmemb, size); if (!data) fail();
  else if data = 0 then none
  else some (data, log ++
    [{ ptr := data, time := t, verb := Verb.allocatedAndZeroised,
       bytes := some ((nmemb * size) % 2 ^ w), site := site }])

/-- Source `xRealloc` (XUtils.c:70) with its audit line; a failed `realloc` ends in
`fail()`. -/
def Audit.xRealloc (log : List AuditLine) (data : Nat) (t : Nat × Nat) (size : Nat)
    (site : Site) : Option (Nat × List AuditLine) :=
  if size = 0 then none
  -- void* data = realloc(ptr, size); if (!data) { xFree(ptr, ..); fail(); }
  else if data = 0 then none
  else some (data, log ++
    [{ ptr := data, time := t, verb := Verb.reallocated, bytes := some size, site := site }])

/-- Source `xReallocArray` (XUtils.c:83) with its audit line. -/
def Audit.xReallocArray (w : Nat) (log : List AuditLine) (data : Nat) (t : Nat × Nat)
    (nmemb size : Nat) (site : Site) : Option (Nat × List AuditLine) :=
  if nmemb = 0 then none
  else if size = 0 then none
  else if overflowGuard w nmemb size then none
  else Audit.xRealloc log data t ((nmemb * size) % 2 ^ w) site

/-- Source `xReallocArrayZero` (XUtils.c:92) with its audit line: `ptr` is the block passed
(0 for the null pointer); the `memset` leaves the pointer and the stream as they are. -/
def Audit.xReallocArrayZero (w : Nat) (log : List AuditLine) (data : Nat) (t : Nat × Nat)
    (ptr prevmemb newmemb size : Nat) (site : Site) : Option (Nat × List AuditLine) :=
  -- assert((ptr == NULL) == (prevmemb == 0));
  if decide (ptr = 0) ≠ decide (prevmemb = 0) then none
  -- if (prevmemb == newmemb) return ptr;
  else if prevmemb = newmemb then some (ptr, log)
  else Audit.xReallocArray w log data t newmemb size site

/-- Source `xFree` (XUtils.c:108): the stream after the call. -/
def Audit.xFree (log : List AuditLine) (t : Nat × Nat) (ptr : Nat) (site : Site) :
    List AuditLine :=
  log ++ [{ ptr := ptr, time := t, verb := Verb.deallocated, bytes := none, site := site }]

/-- Source `xAsprintf` (XUtils.c:246): `r` is what `vasprintf` returns and `strp` the
pointer it stores. -/
def Audit.xAsprintf (log : List AuditLine) (r : Int) (strp : Nat) :
    Option (Int × List AuditLine) :=
  -- if (r < 0 || !*strp) fail();
  if r < 0 ∨ strp = 0 then none else some (r, log)

/-- Source `xStrdup` (XUtils.c:272) with its audit line. -/
def Audit.xStrdup (log : List AuditLine) (data : Nat) (t : Nat × Nat) (str : List Char)
    (site : Site) : Option (Nat × List AuditLine) :=
  -- char* data = strdup(str); if (!data) fail();
  if data = 0 then none
  else some (data, log ++
    [{ ptr := data, time := t, verb := Verb.duplicated, bytes := some (strlen str + 1),
       site := site }])

/-- Source `xStrndup` (XUtils.c:291) with its audit line: the count printed is
`len + 1`, a `size_t`. -/
def Audit.xStrndup (log : List AuditLine) (data : Nat) (t : Nat × Nat) (len : Nat)
    (site : Site) : Option (Nat × List AuditLine) :=
  -- char* data = strndup(str, len); if (!data) fail();
  if data = 0 then none
  else some (data, log ++
    [{ ptr := data, time := t, verb := Verb.duplicated, bytes := some ((len + 1) % SIZE_MOD),
       site := site }])

/-! ## Properties of `String_split` -/

theorem strchr_eq_none {sep : Char} (hsep : sep ≠ NUL) :
    ∀ s : List Char, strchr s sep = none → sep ∉ s
  | [], _ => by simp
  | x :: xs, h => by
    unfold strchr at h
    by_cases hx : x = sep
    · simp [hx] at h
    · simp only [hx, if_false, Option.map_eq_none'] at h
      have := strchr_eq_none hsep xs h
      simp [this, Ne.symm hx]

theorem strchr_eq_some {sep : Char} (hsep : sep ≠ NUL) :
    ∀ (s : List Char) (i : Nat), strchr s sep = some i →
      i < s.length ∧ sep ∉ s.take i ∧ s = s.take i ++ sep :: s.drop (i + 1)
  | [], i, h => by simp [strchr, hsep] at h
  | x :: xs, i, h => by
    unfold strchr at h
    by_cases hx : x = sep
    · simp only [hx, if_true, Option.some.injEq] at h
      subst h
      simp [hx]
    · simp only [hx, if_false, Option.map_eq_some'] at h
      obtain ⟨j, hj, rfl⟩ := h
      obtain ⟨h1, h2, h3⟩ := strchr_eq_some hsep xs j hj
      refine ⟨by simpa using h1, ?_, ?_⟩
      · simp [List.take_succ_cons, h2, Ne.symm hx]
      · simpa [List.take_succ_cons] using h3

theorem splitOn_of_not_mem (sep : Char) (s : List Char) (h : sep ∉ s) :
    s.splitOn sep = [s] := by
  unfold List.splitOn
  apply List.splitOnP_eq_single
  intro x hx hp
  rw [beq_iff_eq] at hp
  exact h (hp ▸ hx)

theorem splitOn_first (sep : Char) (pre rest : List Char) (h : sep ∉ pre) :
    (pre ++ sep :: rest).splitOn sep = pre :: rest.splitOn sep := by
  unfold List.splitOn
  apply List.splitOnP_first
  · intro x hx hp
    rw [beq_iff_eq] at hp
    exact h (hp ▸ hx)
  · simp

theorem resize_set_last {α : Type} (fill v : α) (buf : List α) (k : Nat)
    (hk : k ≤ buf.length) :
    (resize fill buf (k + 1)).set k v = buf.take k ++ [v] := by
  apply List.ext_getElem
  · simp [resize]; omega
  · intro i h1 h2
    simp only [List.length_append, List.length_take, List.length_singleton] at h2
    have hik : i ≤ k := by omega
    rcases Nat.lt_or_eq_of_le hik with hlt | heq
    · rw [List.getElem_set_ne (by omega), List.getElem_append_left (by simp; omega)]
      simp only [resize]
      rw [List.getElem_append_left (by simp; omega)]
      simp
    · subst heq
      rw [List.getElem_set_self, List.getElem_append_right (by simp)]
      simp

theorem store_eq_some {α : Type} (buf : List α) (i : Nat) (v : α) (h : i < buf.length) :
    store buf i v = some (buf.set i v) := by
  simp [store, h]

theorem take_succ_set {α : Type} (buf : List α) (i : Nat) (v : α) (h : i < buf.length) :
    (buf.set i v).take (i + 1) = buf.take i ++ [v] := by
  apply List.ext_getElem
  · simp; omega
  · intro j h1 h2
    simp only [List.length_append, List.length_take, List.length_singleton] at h2
    rcases Nat.lt_or_eq_of_le (show j ≤ i by omega) with hlt | heq
    · rw [List.getElem_take, List.getElem_set_ne (by omega),
        List.getElem_append_left (by simp; omega)]
      simp
    · subst heq
      rw [List.getElem_take, List.getElem_set_self, List.getElem_append_right (by simp)]
      simp

theorem reallocCells_eq {α : Type} (fill : α) (elt : Nat) (buf : List α) (size : Nat)
    (h : size ≠ 0) : reallocCells fill elt buf size = some (resize fill buf (size / elt)) := by
  simp [reallocCells, xRealloc, h]

theorem splitOn_length (sep : Char) (s : List Char) :
    (s.splitOn sep).length = s.count sep + 1 := by
  induction s with
  | nil => simp
  | cons x xs ih =>
    unfold List.splitOn at ih ⊢
    rw [List.splitOnP_cons]
    by_cases hx : x = sep
    · simp [hx, ih]
    · have hx2 : ¬ (x == sep) = true := by simpa using hx
      rw [if_neg hx2, List.count_cons_of_ne (Ne.symm hx)]
      cases hsp : List.splitOnP (fun y => y == sep) xs with
      | nil => exact absurd hsp (List.splitOnP_ne_nil _ _)
      | cons a l => rw [hsp] at ih; simpa using ih

theorem String_split_loop_spec {sep : Char} (hsep : sep ≠ NUL) :
    ∀ (fuel : Nat) (s : List Char) (out : List Slot) (ctr blocks : Nat),
      s.length < fuel → out.length = blocks → ctr < blocks → blocks ≤ ctr + 10 →
      ctr + s.count sep + 10 < UINT_MOD →
      ∃ init last out1, s.splitOn sep = init ++ [last] ∧ (∀ c ∈ last, c ∈ s) ∧
        String_split.loop sep fuel s out ctr blocks = some (last, out1, ctr + init.length) ∧
        ctr + init.length < out1.length ∧
        out1.take (ctr + init.length) = out.take ctr ++ init.map Slot.str
  | 0, _, _, _, _, hf, _, _, _, _ => absurd hf (Nat.not_lt_zero _)
  | fuel + 1, s, out, ctr, blocks, hf, hlen, hctr, hblk, hcnt => by
    unfold String_split.loop
    cases hch : strchr s sep with
    | none =>
      have hmem := strchr_eq_none hsep s hch
      exact ⟨[], s, out, by simpa using splitOn_of_not_mem sep s hmem, fun c hc => hc,
        by simp, by simpa [hlen] using hctr, by simp⟩
    | some size =>
      obtain ⟨h1, h2, h3⟩ := strchr_eq_some hsep s size hch
      have hcount : s.count sep = (s.drop (size + 1)).count sep + 1 := by
        conv_lhs => rw [h3]
        rw [List.count_append, List.count_cons_self, List.count_eq_zero_of_not_mem h2]
        omega
      have hc1 : (ctr + 1) % SIZE_MOD = ctr + 1 := by
        apply Nat.mod_eq_of_lt
        simp only [UINT_MOD, SIZE_MOD] at *
        omega
      simp only [store_eq_some out ctr _ (hlen ▸ hctr), Option.some_bind, hc1, strlen,
        Nat.succ_le_of_lt h1, if_true]
      by_cases hgrow : ctr + 1 = blocks
      · have hb1 : (blocks + 10) % UINT_MOD = blocks + 10 := by
          apply Nat.mod_eq_of_lt
          simp only [UINT_MOD] at *
          omega
        have hsz : (PTR_BYTES * (blocks + 10)) % SIZE_MOD / PTR_BYTES = blocks + 10 := by
          simp only [UINT_MOD, SIZE_MOD, PTR_BYTES] at *
          omega
        have hnz : (PTR_BYTES * (blocks + 10)) % SIZE_MOD ≠ 0 := by
          simp only [UINT_MOD, SIZE_MOD, PTR_BYTES] at *
          omega
        simp only [hgrow, if_true, hb1, reallocCells_eq _ _ _ _ hnz, hsz, Option.some_bind]
        obtain ⟨init, last, out1, e1, e2, e3, e4, e5⟩ :=
          String_split_loop_spec hsep fuel (s.drop (size + 1))
            (resize Slot.indet (out.set ctr (Slot.str (xStrndup s size))) (blocks + 10))
            blocks (blocks + 10)
            (by simp only [List.length_drop]; omega)
            (by simp [resize]; omega) (by omega) (by omega) (by omega)
        refine ⟨s.take size :: init, last, out1, ?_, ?_, ?_, ?_, ?_⟩
        · conv_lhs => rw [h3]
          rw [splitOn_first sep _ _ h2, e1]
          rfl
        · exact fun c hc => List.mem_of_mem_drop (e2 c hc)
        · rw [e3]; simp only [List.length_cons]; congr 3; omega
        · simp only [List.length_cons]; omega
        · have : ctr + (s.take size :: init).length = blocks + init.length := by
            simp only [List.length_cons]; omega
          rw [this, e5]
          have hres : (resize Slot.indet (out.set ctr (Slot.str (xStrndup s size)))
              (blocks + 10)).take blocks = out.take ctr ++ [Slot.str (s.take size)] := by
            simp only [resize, xStrndup]
            rw [List.take_append_of_le_length (by simp; omega), List.take_take,
              Nat.min_eq_left (by omega), ← hgrow]
            exact take_succ_set out ctr _ (by omega)
          rw [hres]
          simp
      · simp only [hgrow, if_false, Option.some_bind]
        obtain ⟨init, last, out1, e1, e2, e3, e4, e5⟩ :=
          String_split_loop_spec hsep fuel (s.drop (size + 1))
            (out.set ctr (Slot.str (xStrndup s size))) (ctr + 1) blocks
            (by simp only [List.length_drop]; omega)
            (by simpa using hlen) (by omega) (by omega) (by omega)
        refine ⟨s.take size :: init, last, out1, ?_, ?_, ?_, ?_, ?_⟩
        · conv_lhs => rw [h3]
          rw [splitOn_first sep _ _ h2, e1]
          rfl
        · exact fun c hc => List.mem_of_mem_drop (e2 c hc)
        · rw [e3]; simp only [List.length_cons]; congr 3; omega
        · simp only [List.length_cons]; omega
        · have : ctr + (s.take size :: init).length = ctr + 1 + init.length := by
            simp only [List.length_cons]; omega
          rw [this, e5, take_succ_set out ctr _ (by omega)]
          simp [xStrndup]

theorem segments_of_splitOn (s : List Char) (sep : Char) (init : List (List Char))
    (last : List Char) (h : s.splitOn sep = init ++ [last]) :
    segments s sep = if last = [] then init else init ++ [last] := by
  simp only [segments, h, List.getLast?_append, List.getLast?_singleton, Option.or,
    Option.some.injEq, List.dropLast_concat]

/-- While the number of separators stays within the range of `blocks`: for a C string `s`
and a separator other than NUL, `String_split` returns the segments of `s` between
consecutive separators, in order, empty segments kept except the one at the very end; the
array holds these strings followed by the null sentinel, and the count is their number. -/
theorem String_split_segments (s : List Char) (sep : Char) (hsep : sep ≠ NUL)
    (hs : NUL ∉ s) (hcnt : s.count sep + 10 < UINT_MOD) :
    String_split s sep =
      some ((segments s sep).map Slot.str ++ [Slot.null], (segments s sep).length) := by
  obtain ⟨init, last, out1, e1, e2, e3, e4, e5⟩ :=
    String_split_loop_spec hsep (strlen s + 1) s (List.replicate 10 Slot.null) 0 10
      (by simp [strlen]) (by simp) (by omega) (by omega) (by omega)
  have hcalloc : callocCells Slot.null PTR_BYTES 10 = some (List.replicate 10 Slot.null) := by
    decide
  have hinit : init.length < s.count sep + 1 := by
    have := congrArg List.length e1
    have hle : (s.splitOn sep).length = s.count sep + 1 := by
      clear * -
      induction s with
      | nil => simp
      | cons x xs ih =>
        unfold List.splitOn at ih ⊢
        rw [List.splitOnP_cons]
        by_cases hx : x = sep
        · simp [hx, ih]
        · have hx2 : ¬ (x == sep) = true := by simpa using hx
          rw [if_neg hx2, List.count_cons_of_ne (Ne.symm hx)]
          cases hsp : List.splitOnP (fun y => y == sep) xs with
          | nil => exact absurd hsp (List.splitOnP_ne_nil _ _)
          | cons a l => rw [hsp] at ih; simpa using ih
    simp only [List.length_append, List.length_singleton] at this
    omega
  simp only [Nat.zero_add, List.take_zero, List.nil_append] at e3 e4 e5
  rw [segments_of_splitOn s sep init last e1]
  unfold String_split
  simp only [hcalloc, Option.some_bind, e3]
  by_cases hl : last = []
  · subst hl
    have h0 : (init.length + 1) % SIZE_MOD = init.length + 1 := by
      apply Nat.mod_eq_of_lt
      simp only [UINT_MOD, SIZE_MOD] at *
      omega
    have hsz : (PTR_BYTES * (init.length + 1)) % SIZE_MOD / PTR_BYTES = init.length + 1 := by
      simp only [UINT_MOD, SIZE_MOD, PTR_BYTES] at *
      omega
    have hnz : (PTR_BYTES * (init.length + 1)) % SIZE_MOD ≠ 0 := by
      simp only [UINT_MOD, SIZE_MOD, PTR_BYTES] at *
      omega
    have hlen : init.length < (resize Slot.indet out1 (init.length + 1)).length := by
      simp [resize]; omega
    simp only [charAt, List.getD_nil, ne_eq, not_true_eq_false, if_false, Option.some_bind,
      h0, reallocCells_eq _ _ _ _ hnz, hsz, store_eq_some _ _ _ hlen, Option.map_some', if_true,
      resize_set_last _ _ _ _ (Nat.le_of_lt e4), e5]
  · have hne : charAt last 0 ≠ NUL := by
      cases last with
      | nil => exact absurd rfl hl
      | cons c cs =>
        simp only [charAt, List.getD_cons_zero]
        intro hc
        exact hs (hc ▸ e2 c (List.mem_cons_self c cs))
    have h0 : (init.length + 1) % SIZE_MOD = init.length + 1 := by
      apply Nat.mod_eq_of_lt
      simp only [UINT_MOD, SIZE_MOD] at *
      omega
    have h1 : (init.length + 1 + 1) % SIZE_MOD = init.length + 1 + 1 := by
      apply Nat.mod_eq_of_lt
      simp only [UINT_MOD, SIZE_MOD] at *
      omega
    have hsz : (PTR_BYTES * (init.length + 1 + 1)) % SIZE_MOD / PTR_BYTES
        = init.length + 1 + 1 := by
      simp only [UINT_MOD, SIZE_MOD, PTR_BYTES] at *
      omega
    have hnz : (PTR_BYTES * (init.length + 1 + 1)) % SIZE_MOD ≠ 0 := by
      simp only [UINT_MOD, SIZE_MOD, PTR_BYTES] at *
      omega
    have hlen : init.length + 1 <
        (resize Slot.indet (out1.set init.length (Slot.str last))
          (init.length + 1 + 1)).length := by
      simp [resize]; omega
    simp only [hne, hl, ne_eq, not_false_eq_true, if_true, if_false,
      store_eq_some _ _ _ e4, Option.map_some', Option.some_bind, h0, h1,
      reallocCells_eq _ _ _ _ hnz,
      hsz, xStrdup, store_eq_some _ _ _ hlen,
      resize_set_last _ _ _ _ (show init.length + 1 ≤ (out1.set init.length _).length by
        simp; omega),
      take_succ_set out1 _ _ e4, e5]
    simp

/-- The three strings of the specification. -/
theorem String_split_segments_examples :
    String_split "a,,b".toList ',' =
        some ([Slot.str "a".toList, Slot.str [], Slot.str "b".toList, Slot.null], 3) ∧
      String_split "a,b,".toList ',' =
        some ([Slot.str "a".toList, Slot.str "b".toList, Slot.null], 2) ∧
      String_split [] ',' = some ([Slot.null], 0) :=
  ⟨(String_split_segments "a,,b".toList ',' (by decide) (by decide) (by decide)).trans
      (by decide),
    (String_split_segments "a,b,".toList ',' (by decide) (by decide) (by decide)).trans
      (by decide),
    (String_split_segments [] ',' (by decide) (by decide) (by decide)).trans (by decide)⟩


/-! ## Properties of `Affinity_add` -/

theorem allSome_map_some {α : Type} : ∀ xs : List α, allSome (xs.map some) = some xs
  | [] => rfl
  | x :: xs => by simp [allSome, allSome_map_some xs]

theorem Affinity_new_eq (pl : ProcessList) :
    Affinity_new pl =
      some { pl := pl, size := 8, used := 0, cpus := List.replicate 8 (some 0) } := by
  have h1 : xCalloc SIZE_BITS 1 AFFINITY_BYTES = some 24 := by decide
  have h2 : callocCells (some 0) UINT_BYTES 8 = some (List.replicate 8 (some (0 : Nat))) := by
    decide
  simp [Affinity_new, h1, h2]

theorem Affinity_add_spec (a : Affinity) (id : Nat) (hwf : a.WF) (hused : a.used < 2 ^ 31) :
    ∃ b, Affinity_add a id = some b ∧ b.WF ∧ b.pl = a.pl ∧ b.used = a.used + 1 ∧
      b.cpus.take b.used = a.cpus.take a.used ++ [some id] := by
  obtain ⟨h1, h2, h3⟩ := hwf
  have hu : (a.used + 1) % UINT_MOD = a.used + 1 := by
    apply Nat.mod_eq_of_lt
    simp only [UINT_MOD]
    omega
  unfold Affinity_add
  by_cases hfull : a.used = a.size
  · have hs : (a.size * 2) % UINT_MOD = a.size * 2 := by
      apply Nat.mod_eq_of_lt
      simp only [UINT_MOD]
      omega
    have hsz : (UINT_BYTES * (a.size * 2)) % SIZE_MOD / UINT_BYTES = a.size * 2 := by
      simp only [SIZE_MOD, UINT_BYTES]
      omega
    have hnz : (UINT_BYTES * (a.size * 2)) % SIZE_MOD ≠ 0 := by
      simp only [SIZE_MOD, UINT_BYTES]
      omega
    have hlen : a.used < (resize none a.cpus (a.size * 2)).length := by
      simp [resize]; omega
    simp only [hfull, if_true, hs, reallocCells_eq _ _ _ _ hnz, hsz, Option.map_some',
      Option.some_bind, store_eq_some _ _ _ (hfull ▸ hlen)]
    refine ⟨_, rfl, ⟨?_, ?_, ?_⟩, rfl, ?_, ?_⟩
    · simp [resize]; omega
    · simp only [hfull ▸ hu]; omega
    · simp only; omega
    · simp only [hfull ▸ hu]
    · simp only [hfull ▸ hu]
      rw [take_succ_set _ _ _ (hfull ▸ hlen)]
      simp only [resize]
      rw [List.take_append_of_le_length (by simp; omega), List.take_take,
        Nat.min_eq_left (by omega)]
  · simp only [hfull, if_false, Option.some_bind,
      store_eq_some a.cpus a.used _ (by omega), Option.map_some', hu]
    refine ⟨_, rfl, ⟨?_, ?_, ?_⟩, rfl, rfl, ?_⟩
    · simpa using h1
    · simp only; omega
    · exact h3
    · exact take_succ_set _ _ _ (by omega)

theorem Affinity_add_fold :
    ∀ (xs : List Nat) (a : Affinity), a.WF → a.used + xs.length ≤ 2 ^ 31 →
      ∃ b, xs.foldlM Affinity_add a = some b ∧ b.WF ∧ b.pl = a.pl ∧
        b.used = a.used + xs.length ∧
        b.cpus.take b.used = a.cpus.take a.used ++ xs.map some
  | [], a, hwf, _ => ⟨a, rfl, hwf, rfl, rfl, by simp⟩
  | x :: xs, a, hwf, hlen => by
    simp only [List.length_cons] at hlen
    obtain ⟨b, hb, hbwf, hbpl, hbu, hbt⟩ := Affinity_add_spec a x hwf (by omega)
    obtain ⟨c, hc, hcwf, hcpl, hcu, hct⟩ := Affinity_add_fold xs b hbwf (by omega)
    refine ⟨c, ?_, hcwf, hcpl.trans hbpl, ?_, ?_⟩
    · simp only [List.foldlM, hb]
      exact hc
    · simp only [List.length_cons]; omega
    · rw [hct, hbt]; simp

theorem load_of_take {α : Type} (buf : List (Option α)) (xs : List α) (n i : Nat)
    (h : buf.take n = xs.map some) (hi : i < xs.length) : load buf i = xs.get? i := by
  have hn : i < n := by
    have := congrArg List.length h
    simp only [List.length_take, List.length_map] at this
    omega
  have h1 : (buf.take n).get? i = buf.get? i := by
    simp only [List.get?_eq_getElem?]
    exact List.getElem?_take_of_lt hn
  rw [load, ← h1, h]
  simp [List.get?_eq_getElem?, hi]

/-- C2: starting from `Affinity_new` and calling `Affinity_add` with the ids `xs` in order
yields `used = xs.length` and `cpus[i] = xs[i]` for every `i` below it, whatever number of
capacity doublings took place, as long as the capacity stays within `unsigned int`. -/
theorem Affinity_add_all_in_order (pl : ProcessList) (xs : List Nat)
    (hcap : xs.length ≤ 2 ^ 31) :
    ∃ a, Affinity_addAll pl xs = some a ∧ a.used = xs.length ∧
      (∀ i, i < xs.length → load a.cpus i = xs.get? i) ∧ a.ids = some xs := by
  have hwf : Affinity.WF
      { pl := pl, size := 8, used := 0, cpus := List.replicate 8 (some 0) } := by
    simp [Affinity.WF]
  obtain ⟨b, hb, _, _, hbu, hbt⟩ := Affinity_add_fold xs _ hwf (by simpa using hcap)
  simp only [Nat.zero_add, List.take_zero, List.nil_append] at hbu hbt
  have hload : ∀ i, i < xs.length → load b.cpus i = xs.get? i :=
    fun i hi => load_of_take b.cpus xs b.used i hbt hi
  refine ⟨b, ?_, hbu, hload, ?_⟩
  · simp only [Affinity_addAll, Affinity_new_eq, Option.some_bind]
    exact hb
  · unfold Affinity.ids
    rw [hbt]
    exact allSome_map_some xs

/-- Witness for C2: nine additions from capacity 8, across one doubling. -/
theorem Affinity_add_all_in_order_witness :
    [10, 11, 12, 13, 14, 15, 16, 17, 18].length ≤ 2 ^ 31 ∧
      ∃ a, Affinity_addAll { existingCPUs := 32 } [10, 11, 12, 13, 14, 15, 16, 17, 18] = some a ∧
        a.used = [10, 11, 12, 13, 14, 15, 16, 17, 18].length ∧
        (∀ i, i < [10, 11, 12, 13, 14, 15, 16, 17, 18].length →
          load a.cpus i = [10, 11, 12, 13, 14, 15, 16, 17, 18].get? i) ∧
        a.ids = some [10, 11, 12, 13, 14, 15, 16, 17, 18] :=
  ⟨by decide, Affinity_add_all_in_order _ _ (by decide)⟩

/-! ## Properties of `String_safeStrncpy` -/

theorem String_safeStrncpy_loop_spec (src : Nat → Char) (size : Nat) :
    ∀ (fuel i : Nat) (st : CopyState), size - 1 - i < fuel → i ≤ size - 1 →
      (∀ j, j < i → src j ≠ NUL) →
      ∃ k st1, String_safeStrncpy.loop src size fuel i st = some (k, st1) ∧
        i ≤ k ∧ k ≤ size - 1 ∧ (∀ j, j < k → src j ≠ NUL) ∧ (k < size - 1 → src k = NUL) ∧
        (∀ j, j < i ∨ k ≤ j → st1.dest j = st.dest j) ∧
        (∀ j, i ≤ j → j < k → st1.dest j = src j) ∧
        (∀ j ∈ st1.writes, j ∈ st.writes ∨ j < k) ∧
        (∀ j ∈ st1.reads, j ∈ st.reads ∨ j < size - 1)
  | 0, _, _, hf, _, _ => absurd hf (Nat.not_lt_zero _)
  | fuel + 1, i, st, hf, hi, hsrc => by
    unfold String_safeStrncpy.loop
    by_cases hlt : i < size - 1
    · by_cases hc : src i = NUL
      · simp only [hlt, if_true, hc, ne_eq, not_true_eq_false, if_false]
        refine ⟨i, _, rfl, Nat.le_refl i, hi, hsrc, fun _ => hc, fun j _ => rfl, ?_, ?_, ?_⟩
        · intro j h1 h2; omega
        · intro j hj; exact Or.inl hj
        · intro j hj
          simp only [List.mem_cons] at hj
          rcases hj with rfl | hj
          · exact Or.inr hlt
          · exact Or.inl hj
      · simp only [hlt, if_true, hc, ne_eq, not_false_eq_true]
        obtain ⟨k, st1, e, h1, h2, h3, h4, h5, h6, h7, h8⟩ :=
          String_safeStrncpy_loop_spec src size fuel (i + 1)
            { dest := Function.update st.dest i (src i), reads := i :: i :: st.reads,
              writes := i :: st.writes } (by omega) (by omega)
            (by
              intro j hj
              rcases Nat.lt_or_eq_of_le (Nat.le_of_lt_succ hj) with h | h
              · exact hsrc j h
              · exact h ▸ hc)
        refine ⟨k, st1, e, by omega, h2, h3, h4, ?_, ?_, ?_, ?_⟩
        · intro j hj
          rw [h5 j (by omega)]
          exact Function.update_noteq (by omega) _ _
        · intro j hj1 hj2
          rcases Nat.lt_or_eq_of_le hj1 with h | h
          · exact h6 j (by omega) hj2
          · rw [← h, h5 i (Or.inl (Nat.lt_succ_self i))]
            exact Function.update_same _ _ _
        · intro j hj
          rcases h7 j hj with h | h
          · simp only [List.mem_cons] at h
            rcases h with rfl | h
            · exact Or.inr (by omega)
            · exact Or.inl h
          · exact Or.inr h
        · intro j hj
          rcases h8 j hj with h | h
          · simp only [List.mem_cons] at h
            rcases h with rfl | rfl | h
            · exact Or.inr hlt
            · exact Or.inr hlt
            · exact Or.inl h
          · exact Or.inr h
    · simp only [hlt, if_false]
      refine ⟨i, st, rfl, Nat.le_refl i, hi, hsrc, fun h => absurd h hlt, fun j _ => rfl,
        ?_, fun j hj => Or.inl hj, fun j hj => Or.inl hj⟩
      intro j h1 h2; omega

/-- C3: `String_safeStrncpy(dest, src, size)` is fatal for `size = 0`; for `size > 0` it
returns `k = min(strlen(src), size - 1)`, leaves `dest[0..k)` equal to `src[0..k)` and
`dest[k] = NUL`, writes no index of `dest` at or above `size` and reads no index of `src`
at or above `size - 1`, terminated or not. -/
theorem String_safeStrncpy_spec (dest src : Nat → Char) (size : Nat) :
    String_safeStrncpy dest src 0 = none ∧
    (0 < size →
      ∃ k st, String_safeStrncpy dest src size = some (k, st) ∧
        k ≤ size - 1 ∧ (∀ j, j < k → src j ≠ NUL) ∧ (k < size - 1 → src k = NUL) ∧
        (∀ n, (∀ j, j < n → src j ≠ NUL) → src n = NUL → k = min n (size - 1)) ∧
        (∀ j, j < k → st.dest j = src j) ∧ st.dest k = NUL ∧
        (∀ j, k < j → st.dest j = dest j) ∧
        (∀ j ∈ st.writes, j < size) ∧ (∀ j ∈ st.reads, j < size - 1)) := by
  refine ⟨rfl, fun hsize => ?_⟩
  obtain ⟨k, st1, e, _, h2, h3, h4, h5, h6, h7, h8⟩ :=
    String_safeStrncpy_loop_spec src size size 0 { dest := dest, reads := [], writes := [] }
      (by omega) (Nat.zero_le _) (fun j hj => absurd hj (Nat.not_lt_zero j))
  refine ⟨k, { st1 with dest := Function.update st1.dest k NUL, writes := k :: st1.writes },
    ?_, h2, h3, h4, ?_, ?_, ?_, ?_, ?_, ?_⟩
  · simp only [String_safeStrncpy, Nat.ne_of_gt hsize, if_false, e, Option.map_some']
  · intro n hn1 hn2
    rcases Nat.lt_trichotomy k n with h | h | h
    · have hk : ¬ k < size - 1 := fun hk => hn1 k h (h4 hk)
      omega
    · omega
    · exact absurd hn2 (h3 n h)
  · intro j hj
    simp only
    rw [Function.update_noteq (by omega), h6 j (Nat.zero_le j) hj]
  · simp only [Function.update_same]
  · intro j hj
    simp only
    rw [Function.update_noteq (by omega), h5 j (Or.inr (by omega))]
  · intro j hj
    simp only [List.mem_cons] at hj
    rcases hj with rfl | hj
    · omega
    · rcases h7 j hj with h | h
      · simp at h
      · omega
  · intro j hj
    rcases h8 j hj with h | h
    · simp at h
    · exact h

/-- Witness for C3 at the two copies of the specification: `"hello"` into capacity 3
gives `"he"` and returns 2; into capacity 1 it gives `""` and returns 0. -/
theorem String_safeStrncpy_spec_witness :
    (0 < 3 ∧
      ∃ k st, String_safeStrncpy (fun _ => 'x') (memOf "hello".toList) 3 = some (k, st) ∧
        k = 2 ∧ (List.range 3).map st.dest = ['h', 'e', NUL] ∧
        (∀ j ∈ st.writes, j < 3) ∧ (∀ j ∈ st.reads, j < 3 - 1)) ∧
    (0 < 1 ∧
      ∃ k st, String_safeStrncpy (fun _ => 'x') (memOf "hello".toList) 1 = some (k, st) ∧
        k = 0 ∧ (List.range 1).map st.dest = [NUL] ∧
        (∀ j ∈ st.writes, j < 1) ∧ (∀ j ∈ st.reads, j < 1 - 1)) := by
  refine ⟨⟨by decide, ?_⟩, ⟨by decide, ?_⟩⟩
  · obtain ⟨k, st, e, _, _, _, h4, h5, h6, _, h8, h9⟩ :=
      (String_safeStrncpy_spec (fun _ => 'x') (memOf "hello".toList) 3).2 (by decide)
    have hk : k = 2 := h4 5 (by decide) (by decide)
    subst hk
    refine ⟨2, st, e, rfl, ?_, h8, h9⟩
    simp only [List.range, List.range.loop, List.map, h6, h5 0 (by decide), h5 1 (by decide)]
    decide
  · obtain ⟨k, st, e, _, _, _, h4, h5, h6, _, h8, h9⟩ :=
      (String_safeStrncpy_spec (fun _ => 'x') (memOf "hello".toList) 1).2 (by decide)
    have hk : k = 0 := h4 5 (by decide) (by decide)
    subst hk
    refine ⟨0, st, e, rfl, ?_, h8, h9⟩
    simp only [List.range, List.range.loop, List.map, h6]

/-! ## Properties of `String_trim` -/

theorem String_trim_skip_eq : ∀ s : List Char, String_trim.skip s = s.dropWhile isBlank
  | [] => rfl
  | c :: cs => by
    unfold String_trim.skip
    by_cases h : c = ' ' ∨ c = '\t' ∨ c = '\n'
    · have hb : isBlank c = true := by simpa [isBlank] using h
      rw [if_pos h, List.dropWhile_cons_of_pos hb]
      exact String_trim_skip_eq cs
    · have hb : ¬ isBlank c = true := by simpa [isBlank] using h
      rw [if_neg h, List.dropWhile_cons_of_neg hb]

theorem String_trim_back_eq (s : List Char) :
    ∀ n, n ≤ s.length → s.take (String_trim.back s n) = (s.take n).rdropWhile isBlank
  | 0, _ => by simp [String_trim.back]
  | n + 1, hn => by
    have hlt : n < s.length := hn
    have htake : s.take (n + 1) = s.take n ++ [charAt s n] := by
      rw [List.take_succ]
      simp [charAt, List.getD_eq_getElem?_getD, List.getElem?_eq_getElem hlt]
    unfold String_trim.back
    by_cases h : charAt s n = ' ' ∨ charAt s n = '\t' ∨ charAt s n = '\n'
    · have hb : isBlank (charAt s n) = true := by simpa [isBlank] using h
      rw [if_pos h, htake, List.rdropWhile_concat_pos _ _ _ hb]
      exact String_trim_back_eq s n (Nat.le_of_lt hlt)
    · have hb : ¬ isBlank (charAt s n) = true := by simpa [isBlank] using h
      rw [if_neg h, htake, List.rdropWhile_concat_neg _ _ _ hb]

theorem String_trim_eq (s : List Char) :
    String_trim s = (s.dropWhile isBlank).rdropWhile isBlank := by
  simp only [String_trim, xStrndup, strlen, String_trim_skip_eq]
  rw [String_trim_back_eq _ _ (Nat.le_refl _), List.take_length]

/-- C4: `String_trim(s)` is `s` without its longest prefix and then its longest suffix
made of spaces, tabs and newlines: `s = p ++ String_trim s ++ q` with `p` and `q` made of
these characters only, and the result neither starts nor ends with one of them.  The
result is a new value; the argument is only read.  In particular `"  a b  "` gives
`"a b"`, and `""` and `"\t\n"` give `""`. -/
theorem String_trim_spec :
    (∀ s : List Char,
      String_trim s = (s.dropWhile isBlank).rdropWhile isBlank ∧
      ∃ p q, s = p ++ String_trim s ++ q ∧
        p = s.takeWhile isBlank ∧ q = (s.dropWhile isBlank).rtakeWhile isBlank ∧
        (∀ c ∈ p, isBlank c = true) ∧ (∀ c ∈ q, isBlank c = true) ∧
        (∀ c, (String_trim s).head? = some c → isBlank c = false) ∧
        (∀ c, (String_trim s).getLast? = some c → isBlank c = false)) ∧
    String_trim "  a b  ".toList = "a b".toList ∧
    String_trim "".toList = "".toList ∧
    String_trim "\t\n".toList = "".toList := by
  refine ⟨fun s => ⟨String_trim_eq s, s.takeWhile isBlank,
    (s.dropWhile isBlank).rtakeWhile isBlank, ?_, rfl, rfl, ?_, ?_, ?_, ?_⟩,
    by decide, by decide, by decide⟩
  · have h1 : (s.dropWhile isBlank).rdropWhile isBlank ++
        (s.dropWhile isBlank).rtakeWhile isBlank = s.dropWhile isBlank := by
      simp only [List.rdropWhile, List.rtakeWhile, ← List.reverse_append,
        List.takeWhile_append_dropWhile, List.reverse_reverse]
    rw [String_trim_eq, List.append_assoc, h1, List.takeWhile_append_dropWhile]
  · exact fun c hc => List.mem_takeWhile_imp hc
  · exact fun c hc => List.mem_rtakeWhile_imp hc
  · intro c hc
    rw [String_trim_eq] at hc
    obtain ⟨r, hr⟩ := List.rdropWhile_prefix isBlank (l := s.dropWhile isBlank)
    have hhead : (s.dropWhile isBlank).head? = some c := by
      rw [← hr]
      cases hres : (s.dropWhile isBlank).rdropWhile isBlank with
      | nil => rw [hres] at hc; simp at hc
      | cons x xs => rw [hres] at hc; simpa using hc
    have := List.head?_dropWhile_not isBlank s
    rw [hhead] at this
    simpa using this
  · intro c hc
    rw [String_trim_eq] at hc
    have hne : (s.dropWhile isBlank).rdropWhile isBlank ≠ [] := by
      intro h; rw [h] at hc; simp at hc
    have := List.rdropWhile_last_not isBlank (s.dropWhile isBlank) hne
    rw [List.getLast?_eq_getLast _ hne] at hc
    simp only [Option.some.injEq] at hc
    rw [hc] at this
    simpa using this

/-! ## Properties of `String_readLine` -/

theorem fgets_read_full : ∀ (c r : List Char), '\n' ∉ c →
    fgets.read c.length (c ++ r) = (c, r, false)
  | [], r, _ => by simp [fgets.read]
  | x :: c, r, h => by
    have hx : x ≠ '\n' := fun e => h (e ▸ List.mem_cons_self _ _)
    have hc : '\n' ∉ c := fun e => h (List.mem_cons_of_mem _ e)
    simp [fgets.read, hx, fgets_read_full c r hc]

theorem fgets_read_line : ∀ (n : Nat) (l r : List Char), '\n' ∉ l → l.length < n →
    fgets.read n (l ++ '\n' :: r) = (l ++ ['\n'], r, false)
  | 0, _, _, _, h => absurd h (Nat.not_lt_zero _)
  | n + 1, [], r, _, _ => by simp [fgets.read]
  | n + 1, x :: l, r, h, hn => by
    have hx : x ≠ '\n' := fun e => h (e ▸ List.mem_cons_self _ _)
    have hc : '\n' ∉ l := fun e => h (List.mem_cons_of_mem _ e)
    simp [fgets.read, hx, fgets_read_line n l r hc (by simpa using hn)]

theorem fgets_read_tail : ∀ (n : Nat) (l : List Char), '\n' ∉ l → l.length < n →
    fgets.read n l = (l, [], true)
  | 0, _, _, h => absurd h (Nat.not_lt_zero _)
  | n + 1, [], _, _ => by simp [fgets.read]
  | n + 1, x :: l, h, hn => by
    have hx : x ≠ '\n' := fun e => h (e ▸ List.mem_cons_self _ _)
    have hc : '\n' ∉ l := fun e => h (List.mem_cons_of_mem _ e)
    simp [fgets.read, hx, fgets_read_tail n l hc (by simpa using hn)]

theorem fgets_full (c r : List Char) (hc : c.length = 1024) (hnl : '\n' ∉ c) :
    fgets (1024 + 1) ⟨c ++ r, false⟩ = (some c, ⟨r, false⟩) := by
  have hne : c ≠ [] := fun e => by simp [e] at hc
  have := fgets_read_full c r hnl
  rw [hc] at this
  simp [fgets, this, hne]

theorem fgets_line (l r : List Char) (e : Bool) (hl : l.length < 1024) (hnl : '\n' ∉ l) :
    fgets (1024 + 1) ⟨l ++ '\n' :: r, e⟩ = (some (l ++ ['\n']), ⟨r, e⟩) := by
  simp [fgets, fgets_read_line 1024 l r hnl hl]

theorem fgets_tail (l : List Char) (e : Bool) (hl : l.length < 1024) (hnl : '\n' ∉ l)
    (hne : l ≠ []) : fgets (1024 + 1) ⟨l, e⟩ = (some l, ⟨[], true⟩) := by
  simp [fgets, fgets_read_tail 1024 l hnl hl, hne]

theorem fgets_end (e : Bool) : fgets (1024 + 1) ⟨[], e⟩ = (none, ⟨[], true⟩) := by
  simp [fgets, fgets.read]

theorem cstr_terminated : ∀ (l : List Char) (tail : List (Option Char)), NUL ∉ l →
    cstr (l.map some ++ some NUL :: tail) = some l
  | [], _, _ => by simp [cstr]
  | x :: l, tail, h => by
    have hx : x ≠ NUL := fun e => h (e ▸ List.mem_cons_self _ _)
    have hc : NUL ∉ l := fun e => h (List.mem_cons_of_mem _ e)
    simp [cstr, hx, cstr_terminated l tail hc]

theorem strrchr_not_mem (c : Char) (hc : c ≠ NUL) : ∀ l : List Char, c ∉ l →
    strrchr l c = none
  | [], _ => by simp [strrchr, hc]
  | x :: l, h => by
    have hx : x ≠ c := fun e => h (e ▸ List.mem_cons_self _ _)
    have hl : c ∉ l := fun e => h (List.mem_cons_of_mem _ e)
    simp [strrchr, hx, strrchr_not_mem c hc l hl]

theorem strrchr_last (c : Char) (hc : c ≠ NUL) : ∀ l : List Char, c ∉ l →
    strrchr (l ++ [c]) c = some l.length
  | [], _ => by simp [strrchr, hc]
  | x :: l, h => by
    have hl : c ∉ l := fun e => h (List.mem_cons_of_mem _ e)
    simp [strrchr, strrchr_last c hc l hl]

theorem writeBytes_eq (buf : List (Option Char)) (off : Nat) (bytes : List Char)
    (h : off + bytes.length ≤ buf.length) :
    writeBytes buf off bytes =
      some (buf.take off ++ (bytes.map some ++ buf.drop (off + bytes.length))) := by
  simp [writeBytes, h]

theorem newline_ne_NUL : '\n' ≠ NUL := by decide

theorem take_length_of_le (buf : List (Option Char)) (n k : Nat) (h : buf.length = n + k) :
    (buf.take n).length = n := by
  simp only [List.length_take]; omega

set_option maxRecDepth 8000 in
/-- One iteration of the loop on a chunk of 1024 bytes without a newline: the buffer grows
by 1024 bytes and the loop goes on after the chunk. -/
theorem String_readLine_loop_full (fuel : Nat) (c r : List Char)
    (buffer : List (Option Char)) (at_ : Nat) (hc : c.length = 1024) (hnl : '\n' ∉ c)
    (hnul : NUL ∉ c) (hlen : buffer.length = at_ + 1025) (hb : at_ + 2049 < UINT_MOD) :
    String_readLine.loop (fuel + 1) ⟨c ++ r, false⟩ buffer (at_ + 1024) at_ =
      String_readLine.loop fuel ⟨r, false⟩
        (buffer.take at_ ++ (c.map some ++ [some NUL]) ++ List.replicate 1024 none)
        (at_ + 2048) (at_ + 1024) := by
  have htk := take_length_of_le buffer at_ 1025 hlen
  have hw : writeBytes buffer at_ (c ++ [NUL]) =
      some (buffer.take at_ ++ (c.map some ++ [some NUL])) := by
    rw [writeBytes_eq _ _ _ (by simp [hc, hlen])]
    have : buffer.drop (at_ + (c ++ [NUL]).length) = [] := by
      apply List.drop_eq_nil_of_le
      simp [hc, hlen]
    rw [this]
    simp
  have hdrop : (buffer.take at_ ++ (c.map some ++ [some NUL])).drop at_ =
      c.map some ++ [some NUL] := by
    rw [List.drop_append_of_le_length (by omega), List.drop_eq_nil_of_le (by omega)]
    rfl
  have hs1 : (at_ + 1024 + 1024) % UINT_MOD = at_ + 2048 := by
    simp only [UINT_MOD] at *
    omega
  have hs2 : (at_ + 2048 + 1) % UINT_MOD = at_ + 2049 := by
    simp only [UINT_MOD] at *
    omega
  have hl1 : (buffer.take at_ ++ (c.map some ++ [some NUL])).length = at_ + 1025 := by
    simp only [List.length_append, List.length_map, List.length_singleton, htk, hc]
  have hre : reallocCells none 1 (buffer.take at_ ++ (c.map some ++ [some NUL]))
      (at_ + 2049) =
      some (buffer.take at_ ++ (c.map some ++ [some NUL]) ++ List.replicate 1024 none) := by
    rw [reallocCells_eq _ _ _ _ (by omega)]
    simp only [resize, Nat.div_one]
    rw [List.take_of_length_le (by omega), hl1]
    have : at_ + 2049 - (at_ + 1025) = 1024 := by omega
    rw [this]
  conv_lhs => unfold String_readLine.loop
  simp only [fgets_full c r hc hnl, hw, Option.some_bind, hdrop,
    cstr_terminated c [] hnul, strrchr_not_mem '\n' newline_ne_NUL c hnl, hs1, hs2, hre,
    Bool.false_eq_true, if_false]
  have hcond : 1024 ≤ at_ + 2048 ∧ at_ + 2048 ≤
      (buffer.take at_ ++ (c.map some ++ [some NUL]) ++ List.replicate 1024 none).length := by
    rw [List.length_append, hl1, List.length_replicate]
    omega
  rw [if_pos hcond]
  congr 1

/-- The iteration that meets the newline ending the line `done ++ l`. -/
theorem String_readLine_loop_newline (fuel : Nat) (l r done : List Char) (e : Bool)
    (buffer : List (Option Char)) (bufSize at_ : Nat) (hl : l.length < 1024)
    (hnl : '\n' ∉ l) (hnul : NUL ∉ l) (hdn : NUL ∉ done)
    (hdone : buffer.take at_ = done.map some) (hlen : buffer.length = at_ + 1025) :
    String_readLine.loop (fuel + 1) ⟨l ++ '\n' :: r, e⟩ buffer bufSize at_ =
      some (some (done ++ l), ⟨r, e⟩) := by
  have htk := take_length_of_le buffer at_ 1025 hlen
  have hdl : done.length = at_ := by
    have := congrArg List.length hdone
    simpa [htk] using this.symm
  have hw : writeBytes buffer at_ (l ++ ['\n'] ++ [NUL]) =
      some (done.map some ++ ((l ++ ['\n']).map some ++
        some NUL :: buffer.drop (at_ + (l.length + 2)))) := by
    rw [writeBytes_eq _ _ _ (by simp [hlen]; omega), hdone]
    simp
  have hdrop : (done.map some ++ ((l ++ ['\n']).map some ++
        some NUL :: buffer.drop (at_ + (l.length + 2)))).drop at_ =
      (l ++ ['\n']).map some ++ some NUL :: buffer.drop (at_ + (l.length + 2)) := by
    rw [List.drop_append_of_le_length (by simp [hdl]), List.drop_eq_nil_of_le (by simp [hdl])]
    rfl
  have hnul2 : NUL ∉ l ++ ['\n'] := by
    simp only [List.mem_append, List.mem_singleton, not_or]
    exact ⟨hnul, Ne.symm newline_ne_NUL⟩
  have hset : (done.map some ++ ((l ++ ['\n']).map some ++
        some NUL :: buffer.drop (at_ + (l.length + 2)))).set (at_ + l.length) (some NUL) =
      (done ++ l).map some ++
        some NUL :: some NUL :: buffer.drop (at_ + (l.length + 2)) := by
    rw [List.set_append_right _ _ (by simp [hdl])]
    simp only [List.length_map, hdl, Nat.add_sub_cancel_left, List.map_append, List.map_cons,
      List.map_nil, List.append_assoc]
    rw [List.set_append_right _ _ (by simp)]
    simp
  have hlt : at_ + l.length < (done.map some ++ ((l ++ ['\n']).map some ++
        some NUL :: buffer.drop (at_ + (l.length + 2)))).length := by
    simp [hdl]
  have hnul3 : NUL ∉ done ++ l := by
    simp only [List.mem_append, not_or]
    exact ⟨hdn, hnul⟩
  unfold String_readLine.loop
  simp only [fgets_line l r e hl hnl, hw, Option.some_bind, hdrop,
    cstr_terminated _ _ hnul2, strrchr_last '\n' newline_ne_NUL l hnl,
    store_eq_some _ _ _ hlt, hset, cstr_terminated _ _ hnul3, Option.map_some']

/-- The iteration that reads the unterminated rest `l` of the line `done ++ l` and meets
the end of the stream. -/
theorem String_readLine_loop_tail (fuel : Nat) (l done : List Char) (e : Bool)
    (buffer : List (Option Char)) (bufSize at_ : Nat) (hl : l.length < 1024) (hne : l ≠ [])
    (hnl : '\n' ∉ l) (hnul : NUL ∉ l) (hdn : NUL ∉ done)
    (hdone : buffer.take at_ = done.map some) (hlen : buffer.length = at_ + 1025) :
    String_readLine.loop (fuel + 1) ⟨l, e⟩ buffer bufSize at_ =
      some (some (done ++ l), ⟨[], true⟩) := by
  have htk := take_length_of_le buffer at_ 1025 hlen
  have hdl : done.length = at_ := by
    have := congrArg List.length hdone
    simpa [htk] using this.symm
  have hw : writeBytes buffer at_ (l ++ [NUL]) =
      some (done.map some ++ (l.map some ++
        some NUL :: buffer.drop (at_ + (l.length + 1)))) := by
    rw [writeBytes_eq _ _ _ (by simp [hlen]; omega), hdone]
    simp
  have hdrop : (done.map some ++ (l.map some ++
        some NUL :: buffer.drop (at_ + (l.length + 1)))).drop at_ =
      l.map some ++ some NUL :: buffer.drop (at_ + (l.length + 1)) := by
    rw [List.drop_append_of_le_length (by simp [hdl]), List.drop_eq_nil_of_le (by simp [hdl])]
    rfl
  have hnul3 : NUL ∉ done ++ l := by
    simp only [List.mem_append, not_or]
    exact ⟨hdn, hnul⟩
  have hcat : cstr (done.map some ++ (l.map some ++
        some NUL :: buffer.drop (at_ + (l.length + 1)))) = some (done ++ l) := by
    rw [← List.append_assoc, ← List.map_append]
    exact cstr_terminated _ _ hnul3
  unfold String_readLine.loop
  simp only [fgets_tail l e hl hnl hne, hw, Option.some_bind, hdrop,
    cstr_terminated _ _ hnul, strrchr_not_mem '\n' newline_ne_NUL l hnl, if_true, hcat,
    Option.map_some']

/-- Invariant of the loop state before an iteration: `done` is what the buffer holds of
the line so far, the buffer has 1025 bytes from `at_` on. -/
theorem String_readLine_loop_grow (c done : List Char) (buffer : List (Option Char))
    (at_ : Nat) (hc : c.length = 1024) (hdone : buffer.take at_ = done.map some)
    (hlen : buffer.length = at_ + 1025) :
    (buffer.take at_ ++ (c.map some ++ [some NUL]) ++ List.replicate 1024 none).take
        (at_ + 1024) = (done ++ c).map some ∧
      (buffer.take at_ ++ (c.map some ++ [some NUL]) ++ List.replicate 1024 none).length =
        at_ + 1024 + 1025 := by
  have htk := take_length_of_le buffer at_ 1025 hlen
  constructor
  · have hdl : done.length = at_ := by
      have := congrArg List.length hdone
      rw [htk, List.length_map] at this
      exact this.symm
    have e : buffer.take at_ ++ (c.map some ++ [some NUL]) ++ List.replicate 1024 none =
        (done ++ c).map some ++ ([some NUL] ++ List.replicate 1024 none) := by
      rw [hdone, List.map_append]
      simp only [List.append_assoc]
    rw [e]
    exact List.take_left' (by rw [List.length_map, List.length_append, hdl, hc])
  · simp only [List.length_append, List.length_map, List.length_singleton, htk, hc,
      List.length_replicate]

theorem String_readLine_loop_terminated :
    ∀ (n fuel : Nat) (l r done : List Char) (buffer : List (Option Char)) (at_ : Nat),
      l.length < 1024 * (n + 1) → n < fuel → '\n' ∉ l → NUL ∉ l → NUL ∉ done →
      buffer.take at_ = done.map some → buffer.length = at_ + 1025 →
      at_ + l.length + 1025 < UINT_MOD →
      String_readLine.loop fuel ⟨l ++ '\n' :: r, false⟩ buffer (at_ + 1024) at_ =
        some (some (done ++ l), ⟨r, false⟩)
  | _, 0, _, _, _, _, _, _, hf, _, _, _, _, _, _ => absurd hf (Nat.not_lt_zero _)
  | 0, fuel + 1, l, r, done, buffer, at_, hl, _, hnl, hnul, hdn, hdone, hlen, _ =>
    String_readLine_loop_newline fuel l r done false buffer _ at_ (by omega) hnl hnul hdn
      hdone hlen
  | n + 1, fuel + 1, l, r, done, buffer, at_, hl, hf, hnl, hnul, hdn, hdone, hlen, hb => by
    by_cases hshort : l.length < 1024
    · exact String_readLine_loop_newline fuel l r done false buffer _ at_ hshort hnl hnul hdn
        hdone hlen
    · have hsplit : l = l.take 1024 ++ l.drop 1024 := (List.take_append_drop 1024 l).symm
      have hc : (l.take 1024).length = 1024 := by
        rw [List.length_take]; omega
      have hmem : ∀ x, x ∈ l.take 1024 → x ∈ l := fun x hx => List.mem_of_mem_take hx
      have hmem2 : ∀ x, x ∈ l.drop 1024 → x ∈ l := fun x hx => List.mem_of_mem_drop hx
      obtain ⟨g1, g2⟩ := String_readLine_loop_grow (l.take 1024) done buffer at_ hc hdone hlen
      have hstep := String_readLine_loop_full fuel (l.take 1024) (l.drop 1024 ++ '\n' :: r)
        buffer at_ hc (fun h => hnl (hmem _ h)) (fun h => hnul (hmem _ h)) hlen (by omega)
      have hrec := String_readLine_loop_terminated n fuel (l.drop 1024) r
        (done ++ l.take 1024) _ (at_ + 1024)
        (by rw [List.length_drop]; omega) (by omega) (fun h => hnl (hmem2 _ h))
        (fun h => hnul (hmem2 _ h))
        (by
          simp only [List.mem_append, not_or]
          exact ⟨hdn, fun h => hnul (hmem _ h)⟩)
        g1 g2 (by rw [List.length_drop]; omega)
      have e1 : l ++ '\n' :: r = l.take 1024 ++ (l.drop 1024 ++ '\n' :: r) := by
        rw [← List.append_assoc, List.take_append_drop]
      rw [e1, hstep, hrec, List.append_assoc, List.take_append_drop]

theorem String_readLine_loop_unterminated :
    ∀ (n fuel : Nat) (l done : List Char) (buffer : List (Option Char)) (at_ : Nat),
      l.length < 1024 * (n + 1) → n < fuel → l.length % 1024 ≠ 0 →
      '\n' ∉ l → NUL ∉ l → NUL ∉ done →
      buffer.take at_ = done.map some → buffer.length = at_ + 1025 →
      at_ + l.length + 1025 < UINT_MOD →
      String_readLine.loop fuel ⟨l, false⟩ buffer (at_ + 1024) at_ =
        some (some (done ++ l), ⟨[], true⟩)
  | _, 0, _, _, _, _, _, hf, _, _, _, _, _, _, _ => absurd hf (Nat.not_lt_zero _)
  | 0, fuel + 1, l, done, buffer, at_, hl, _, hmod, hnl, hnul, hdn, hdone, hlen, _ =>
    String_readLine_loop_tail fuel l done false buffer _ at_ (by omega)
      (fun h => hmod (by simp [h])) hnl hnul hdn hdone hlen
  | n + 1, fuel + 1, l, done, buffer, at_, hl, hf, hmod, hnl, hnul, hdn, hdone, hlen, hb => by
    by_cases hshort : l.length < 1024
    · exact String_readLine_loop_tail fuel l done false buffer _ at_ hshort
        (fun h => hmod (by simp [h])) hnl hnul hdn hdone hlen
    · have hc : (l.take 1024).length = 1024 := by
        rw [List.length_take]; omega
      have hmem : ∀ x, x ∈ l.take 1024 → x ∈ l := fun x hx => List.mem_of_mem_take hx
      have hmem2 : ∀ x, x ∈ l.drop 1024 → x ∈ l := fun x hx => List.mem_of_mem_drop hx
      obtain ⟨g1, g2⟩ := String_readLine_loop_grow (l.take 1024) done buffer at_ hc hdone hlen
      have hstep := String_readLine_loop_full fuel (l.take 1024) (l.drop 1024)
        buffer at_ hc (fun h => hnl (hmem _ h)) (fun h => hnul (hmem _ h)) hlen (by omega)
      have hrec := String_readLine_loop_unterminated n fuel (l.drop 1024)
        (done ++ l.take 1024) _ (at_ + 1024)
        (by rw [List.length_drop]; omega) (by omega)
        (by rw [List.length_drop]; omega) (fun h => hnl (hmem2 _ h))
        (fun h => hnul (hmem2 _ h))
        (by
          simp only [List.mem_append, not_or]
          exact ⟨hdn, fun h => hnul (hmem _ h)⟩)
        g1 g2 (by rw [List.length_drop]; omega)
      have e1 : l = l.take 1024 ++ l.drop 1024 := (List.take_append_drop 1024 l).symm
      conv_lhs => rw [e1]
      rw [hstep, hrec, List.append_assoc, List.take_append_drop]

/-- A stream that ends, without a newline, after a whole number of 1024-byte chunks: the
loop reads the chunks, then `fgets` reports the end and the call returns the null
pointer. -/
theorem String_readLine_loop_lost :
    ∀ (n fuel : Nat) (l : List Char) (buffer : List (Option Char)) (at_ : Nat),
      l.length = 1024 * n → n < fuel → '\n' ∉ l → NUL ∉ l →
      buffer.length = at_ + 1025 → at_ + l.length + 1025 < UINT_MOD →
      String_readLine.loop fuel ⟨l, false⟩ buffer (at_ + 1024) at_ = some (none, ⟨[], true⟩)
  | _, 0, _, _, _, _, hf, _, _, _, _ => absurd hf (Nat.not_lt_zero _)
  | 0, fuel + 1, l, buffer, at_, hl, _, _, _, _, _ => by
    have : l = [] := List.length_eq_zero.mp (by omega)
    subst this
    unfold String_readLine.loop
    simp only [fgets_end]
  | n + 1, fuel + 1, l, buffer, at_, hl, hf, hnl, hnul, hlen, hb => by
    have hc : (l.take 1024).length = 1024 := by
      rw [List.length_take]; omega
    have hmem : ∀ x, x ∈ l.take 1024 → x ∈ l := fun x hx => List.mem_of_mem_take hx
    have hmem2 : ∀ x, x ∈ l.drop 1024 → x ∈ l := fun x hx => List.mem_of_mem_drop hx
    have hstep := String_readLine_loop_full fuel (l.take 1024) (l.drop 1024)
      buffer at_ hc (fun h => hnl (hmem _ h)) (fun h => hnul (hmem _ h)) hlen (by omega)
    have g2 : (buffer.take at_ ++ ((l.take 1024).map some ++ [some NUL]) ++
        List.replicate 1024 none).length = at_ + 1024 + 1025 := by
      simp only [List.length_append, List.length_map, List.length_singleton,
        take_length_of_le buffer at_ 1025 hlen, hc, List.length_replicate]
    have hrec := String_readLine_loop_lost n fuel (l.drop 1024) _ (at_ + 1024)
      (by rw [List.length_drop]; omega) (by omega) (fun h => hnl (hmem2 _ h))
      (fun h => hnul (hmem2 _ h)) g2 (by rw [List.length_drop]; omega)
    have e1 : l = l.take 1024 ++ l.drop 1024 := (List.take_append_drop 1024 l).symm
    conv_lhs => rw [e1]
    rw [hstep, hrec]

theorem xMalloc_line : xMalloc (1024 + 1) = some 1025 := by decide

theorem String_readLine_terminated (l r : List Char) (hnl : '\n' ∉ l) (hnul : NUL ∉ l)
    (hb : l.length + 1025 < UINT_MOD) :
    String_readLine ⟨l ++ '\n' :: r, false⟩ = some (some l, ⟨r, false⟩) := by
  have h := String_readLine_loop_terminated (l.length / 1024)
    ((l ++ '\n' :: r).length + 1) l r [] (List.replicate 1025 none) 0
    (by omega) (by simp only [List.length_append, List.length_cons]; omega) hnl hnul
    (List.not_mem_nil _) rfl (by rw [List.length_replicate]) (by omega)
  rw [Nat.zero_add, List.nil_append] at h
  simp only [String_readLine, xMalloc_line, Option.some_bind]
  exact h

theorem String_readLine_unterminated (l : List Char) (hmod : l.length % 1024 ≠ 0)
    (hnl : '\n' ∉ l) (hnul : NUL ∉ l) (hb : l.length + 1025 < UINT_MOD) :
    String_readLine ⟨l, false⟩ = some (some l, ⟨[], true⟩) := by
  have h := String_readLine_loop_unterminated (l.length / 1024) (l.length + 1) l []
    (List.replicate 1025 none) 0 (by omega) (by omega) hmod hnl hnul
    (List.not_mem_nil _) rfl (by rw [List.length_replicate]) (by omega)
  rw [Nat.zero_add, List.nil_append] at h
  simp only [String_readLine, xMalloc_line, Option.some_bind]
  exact h

theorem String_readLine_end (e : Bool) :
    String_readLine ⟨[], e⟩ = some (none, ⟨[], true⟩) := by
  simp only [String_readLine, xMalloc_line, Option.some_bind, List.length_nil, Nat.zero_add]
  unfold String_readLine.loop
  simp only [fgets_end]

theorem String_readLine_lost (n : Nat) (l : List Char) (hl : l.length = 1024 * n)
    (hnl : '\n' ∉ l) (hnul : NUL ∉ l) (hb : l.length + 1025 < UINT_MOD) :
    String_readLine ⟨l, false⟩ = some (none, ⟨[], true⟩) := by
  have h := String_readLine_loop_lost n (l.length + 1) l (List.replicate 1025 none) 0
    hl (by omega) hnl hnul (by rw [List.length_replicate]) (by omega)
  rw [Nat.zero_add] at h
  simp only [String_readLine, xMalloc_line, Option.some_bind]
  exact h

theorem readLines_end (e : Bool) : readLines 1 ⟨[], e⟩ = some ([none], ⟨[], true⟩) := by
  simp [readLines, String_readLine_end]

theorem replicate_a_clean (n : Nat) :
    '\n' ∉ List.replicate n 'a' ∧ NUL ∉ List.replicate n 'a' := by
  constructor <;>
  · intro h
    have := List.eq_of_mem_replicate h
    revert this
    decide

/-- C5: on a stream of 1024 bytes `a` with no newline, `String_readLine` returns the null
pointer although 1024 bytes were read before the end of the stream, and the bytes are
consumed; with 1023 such bytes it returns the line. -/
theorem String_readLine_full_chunk_lost :
    String_readLine ⟨List.replicate 1024 'a', false⟩ = some (none, ⟨[], true⟩) ∧
    String_readLine ⟨List.replicate 1023 'a', false⟩ =
      some (some (List.replicate 1023 'a'), ⟨[], true⟩) :=
  ⟨String_readLine_lost 1 _ (by rw [List.length_replicate]) (replicate_a_clean _).1
      (replicate_a_clean _).2 (by rw [List.length_replicate]; decide),
    String_readLine_unterminated _ (by rw [List.length_replicate]; decide)
      (replicate_a_clean _).1 (replicate_a_clean _).2
      (by rw [List.length_replicate]; decide)⟩

/-- Lines without newline and NUL, each shorter than `2^32 - 1025` bytes, joined by
newlines, the last one ending with a newline or else having a length that is not a multiple
of 1024: successive calls of `String_readLine` return the lines in order, each without its
newline, and the call after the last line returns the null pointer, the stream being at its
end. -/
theorem readLines_lines (ls : List (List Char)) (terminated : Bool)
    (hls : ∀ l ∈ ls, '\n' ∉ l ∧ NUL ∉ l ∧ l.length + 1025 < UINT_MOD)
    (hlast : terminated = false → ∀ l, ls.getLast? = some l → l.length % 1024 ≠ 0) :
    readLines (ls.length + 1) ⟨joinLines ls terminated, false⟩ =
      some (ls.map some ++ [none], ⟨[], true⟩) := by
  induction ls with
  | nil => exact readLines_end false
  | cons l ls ih =>
    obtain ⟨hnl, hnul, hb⟩ := hls l (List.mem_cons_self _ _)
    cases ls with
    | nil =>
      cases terminated with
      | true =>
        have h := String_readLine_terminated l [] hnl hnul hb
        simp only [joinLines, if_true, List.length_singleton, readLines, h, Option.some_bind,
          String_readLine_end, Option.map_some', List.map_cons, List.map_nil,
          List.singleton_append]
      | false =>
        have h := String_readLine_unterminated l (hlast rfl l rfl) hnl hnul hb
        simp only [joinLines, Bool.false_eq_true, if_false, List.length_singleton, readLines,
          h, Option.some_bind, String_readLine_end, Option.map_some', List.map_cons,
          List.map_nil, List.singleton_append]
    | cons l2 ls =>
      have h := String_readLine_terminated l (joinLines (l2 :: ls) terminated) hnl hnul hb
      have ih2 := ih (fun x hx => hls x (List.mem_cons_of_mem _ hx))
        (fun ht x hx => hlast ht x (by rw [List.getLast?_cons_cons]; exact hx))
      rw [readLines, joinLines, h, Option.some_bind]
      simp only [List.length_cons] at ih2 ⊢
      rw [ih2]
      rfl

/-- The stream `"abc\ndef"`: the calls return `"abc"`, then `"def"`, then the null
pointer. -/
theorem readLines_abc_def :
    readLines 3 ⟨"abc\ndef".toList, false⟩ =
      some ([some "abc".toList, some "def".toList, none], ⟨[], true⟩) :=
  readLines_lines ["abc".toList, "def".toList] false (by decide) (by decide)

/-- C6: on the stream of the two lines `abc` and 1024 bytes `a`, the last one
unterminated, the first call of `String_readLine` returns `abc` and the second call
returns the null pointer, not the second line: its 1024 bytes are read and dropped, and the
third call finds the stream at its end.  With 1023 bytes `a` the second call returns the
line. -/
theorem readLines_last_line_lost :
    readLines 3 ⟨joinLines [['a', 'b', 'c'], List.replicate 1024 'a'] false, false⟩ =
      some ([some ['a', 'b', 'c'], none, none], ⟨[], true⟩) ∧
    readLines 3 ⟨joinLines [['a', 'b', 'c'], List.replicate 1023 'a'] false, false⟩ =
      some ([some ['a', 'b', 'c'], some (List.replicate 1023 'a'), none], ⟨[], true⟩) := by
  have h1 : ∀ r, String_readLine ⟨['a', 'b', 'c'] ++ '\n' :: r, false⟩ =
      some (some ['a', 'b', 'c'], ⟨r, false⟩) :=
    fun r => String_readLine_terminated ['a', 'b', 'c'] r (by decide) (by decide) (by decide)
  have h2 := String_readLine_lost 1 (List.replicate 1024 'a')
    (by rw [List.length_replicate]) (replicate_a_clean _).1 (replicate_a_clean _).2
    (by rw [List.length_replicate]; decide)
  have h3 := String_readLine_unterminated (List.replicate 1023 'a')
    (by rw [List.length_replicate]; decide) (replicate_a_clean _).1 (replicate_a_clean _).2
    (by rw [List.length_replicate]; decide)
  constructor
  · simp only [joinLines, Bool.false_eq_true, if_false, readLines, h1, h2, Option.some_bind,
      String_readLine_end, Option.map_some']
  · simp only [joinLines, Bool.false_eq_true, if_false, readLines, h1, h3, Option.some_bind,
      String_readLine_end, Option.map_some']

/-! ## Properties of the allocator -/

theorem overflowGuard_iff (w nmemb size : Nat) (hn : 0 < nmemb) :
    overflowGuard w nmemb size = true ↔ SIZE_MAX w < nmemb * size := by
  simp only [overflowGuard, decide_eq_true_eq]
  rw [Nat.div_lt_iff_lt_mul hn, Nat.mul_comm]

theorem product_fits (w nmemb size : Nat) (hn : 0 < nmemb) (hs : 0 < size)
    (h : overflowGuard w nmemb size = false) :
    (nmemb * size) % 2 ^ w = nmemb * size ∧ nmemb * size ≠ 0 := by
  have h1 : ¬ SIZE_MAX w < nmemb * size := by
    intro hlt
    rw [(overflowGuard_iff w nmemb size hn).mpr hlt] at h
    exact Bool.noConfusion h
  have hpos : 0 < 2 ^ w := Nat.pow_pos (by decide)
  have hprod : 0 < nmemb * size := Nat.mul_pos hn hs
  simp only [SIZE_MAX] at h1
  exact ⟨Nat.mod_eq_of_lt (by omega), by omega⟩

/-- C7: for `nmemb > 0` and `size > 0`, the guard `SIZE_MAX / nmemb < size` of
`xMallocArray`, `xCalloc` and `xReallocArray` takes the fatal branch exactly when
`nmemb * size` exceeds `SIZE_MAX`; when it passes, the byte count computed modulo `2^w`
is the exact product.  The guard itself divides and compares only. -/
theorem overflowGuard_exact (w nmemb size : Nat) (hn : 0 < nmemb) (hs : 0 < size) :
    (overflowGuard w nmemb size = true ↔ SIZE_MAX w < nmemb * size) ∧
    (xMallocArray w nmemb size = none ↔ SIZE_MAX w < nmemb * size) ∧
    (xCalloc w nmemb size = none ↔ SIZE_MAX w < nmemb * size) ∧
    (xReallocArray w nmemb size = none ↔ SIZE_MAX w < nmemb * size) ∧
    (overflowGuard w nmemb size = false →
      (nmemb * size) % 2 ^ w = nmemb * size ∧
      xMallocArray w nmemb size = some (nmemb * size) ∧
      xCalloc w nmemb size = some (nmemb * size) ∧
      xReallocArray w nmemb size = some (nmemb * size)) := by
  have hiff := overflowGuard_iff w nmemb size hn
  have hn0 : nmemb ≠ 0 := Nat.ne_of_gt hn
  have hs0 : size ≠ 0 := Nat.ne_of_gt hs
  cases hg : overflowGuard w nmemb size with
  | true =>
    have hlt := hiff.mp hg
    simp [xMallocArray, xCalloc, xReallocArray, hn0, hs0, hg, hlt]
  | false =>
    obtain ⟨hmod, hne⟩ := product_fits w nmemb size hn hs hg
    have hnlt : ¬ SIZE_MAX w < nmemb * size := fun h => by
      rw [hiff.mpr h] at hg
      exact Bool.noConfusion hg
    simp [xMallocArray, xCalloc, xReallocArray, xMalloc, xRealloc, hn0, hs0, hg, hmod, hne,
      hnlt]

/-- Witness for C7 on a 64-bit `size_t`: three members of four bytes pass the guard
and give twelve bytes. -/
theorem overflowGuard_exact_witness :
    0 < 3 ∧ 0 < 4 ∧ overflowGuard 64 3 4 = false ∧ xMallocArray 64 3 4 = some 12 ∧
      xCalloc 64 3 4 = some 12 ∧ xReallocArray 64 3 4 = some 12 :=
  have h := (overflowGuard_exact 64 3 4 (by decide) (by decide)).2.2.2.2 (by decide)
  ⟨by decide, by decide, by decide, h.2.1, h.2.2.1, h.2.2.2⟩

/-- C8: `xReallocArrayZero` with equal counts returns the same block, untouched, without
calling the reallocation; growing a block of `prevmemb` members of `size > 0` bytes to
`newmemb` members whose byte count fits `size_t` returns a block of `newmemb * size`
bytes: the old bytes, then `(newmemb - prevmemb) * size` zero bytes. -/
theorem xReallocArrayZero_spec (w : Nat) (ptr : Option (List (Option Nat)))
    (prevmemb newmemb size : Nat) (hptr : ptr = none ↔ prevmemb = 0) :
    (prevmemb = newmemb →
      xReallocArrayZero w ptr prevmemb newmemb size = some (ptr, false)) ∧
    (prevmemb < newmemb → 0 < size → (ptr.getD []).length = prevmemb * size →
      newmemb * size ≤ SIZE_MAX w →
      xReallocArrayZero w ptr prevmemb newmemb size =
        some (some (ptr.getD [] ++
          List.replicate ((newmemb - prevmemb) * size) (some 0)), true) ∧
      (ptr.getD [] ++ List.replicate ((newmemb - prevmemb) * size) (some 0)).length =
        newmemb * size) := by
  have hassert : ¬ (decide (ptr = none) ≠ decide (prevmemb = 0)) := by
    simp only [ne_eq, decide_eq_decide, not_not]
    exact hptr
  constructor
  · intro heq
    simp only [xReallocArrayZero, hassert, if_false, heq, if_true]
    rw [if_neg (heq ▸ hassert)]
  · intro hlt hsize hlen hfit
    have hn : 0 < newmemb := by omega
    have hg : overflowGuard w newmemb size = false := by
      cases h : overflowGuard w newmemb size with
      | false => rfl
      | true =>
        have := (overflowGuard_iff w newmemb size hn).mp h
        omega
    obtain ⟨hmod, hne⟩ := product_fits w newmemb size hn hsize hg
    have hpos : 0 < 2 ^ w := Nat.pow_pos (by decide)
    have hle : prevmemb * size ≤ newmemb * size := Nat.mul_le_mul_right _ (Nat.le_of_lt hlt)
    have hsub : (newmemb - prevmemb) * size = newmemb * size - prevmemb * size :=
      Nat.sub_mul _ _ _
    have hlt2 : newmemb * size < 2 ^ w := by
      simp only [SIZE_MAX] at hfit
      omega
    have hoff : (prevmemb * size) % 2 ^ w = prevmemb * size := Nat.mod_eq_of_lt (by omega)
    have hln : ((newmemb - prevmemb) * size) % 2 ^ w = (newmemb - prevmemb) * size :=
      Nat.mod_eq_of_lt (by omega)
    have hre : xReallocArray w newmemb size = some (newmemb * size) := by
      simp [xReallocArray, xRealloc, Nat.ne_of_gt hn, Nat.ne_of_gt hsize, hg, hmod, hne]
    have hret : resize none (ptr.getD []) (newmemb * size) =
        ptr.getD [] ++ List.replicate ((newmemb - prevmemb) * size) (none : Option Nat) := by
      simp only [resize, hlen, hsub]
      rw [List.take_of_length_le (by rw [hlen]; exact hle)]
    have hfill : (ptr.getD [] ++
          List.replicate ((newmemb - prevmemb) * size) (none : Option Nat)).take
            (prevmemb * size) ++ List.replicate ((newmemb - prevmemb) * size) (some 0) ++
        (ptr.getD [] ++
          List.replicate ((newmemb - prevmemb) * size) (none : Option Nat)).drop
            (prevmemb * size + (newmemb - prevmemb) * size) =
        ptr.getD [] ++ List.replicate ((newmemb - prevmemb) * size) (some 0) := by
      rw [List.take_left' hlen,
        List.drop_eq_nil_of_le (by rw [List.length_append, List.length_replicate, hlen])]
      simp
    have hcond : prevmemb * size + (newmemb - prevmemb) * size ≤
        (ptr.getD [] ++
          List.replicate ((newmemb - prevmemb) * size) (none : Option Nat)).length := by
      rw [List.length_append, List.length_replicate, hlen]
    constructor
    · simp only [xReallocArrayZero, hassert, if_false, Nat.ne_of_lt hlt, hre,
        Option.some_bind, hret, gt_iff_lt, hlt, if_true, hoff, hln, hcond, hfill]
    · rw [List.length_append, List.length_replicate, hlen, hsub]
      omega

/-- Witness for C8: growing three members of four bytes to six zero-fills the bytes 12
to 23 and keeps the bytes 0 to 11; equal counts return the block as it is. -/
theorem xReallocArrayZero_spec_witness :
    xReallocArrayZero 64 (some ([1, 2, 3, 4, 5, 6, 7, 8, 9, 10, 11, 12].map some)) 3 6 4 =
        some (some ([1, 2, 3, 4, 5, 6, 7, 8, 9, 10, 11, 12].map some ++
          List.replicate 12 (some 0)), true) ∧
      xReallocArrayZero 64 (some ([1, 2, 3, 4, 5, 6, 7, 8, 9, 10, 11, 12].map some)) 3 3 4 =
        some (some ([1, 2, 3, 4, 5, 6, 7, 8, 9, 10, 11, 12].map some), false) :=
  ⟨((xReallocArrayZero_spec 64 (some ([1, 2, 3, 4, 5, 6, 7, 8, 9, 10, 11, 12].map some)) 3 6 4
      (by decide)).2 (by decide) (by decide) (by decide) (by decide)).1,
    (xReallocArrayZero_spec 64 (some ([1, 2, 3, 4, 5, 6, 7, 8, 9, 10, 11, 12].map some)) 3 3 4
      (by decide)).1 rfl⟩

/-! ## Properties of `Affinity_set` and `Affinity_get` -/

/-- C9: for the stored ids `[0, 64]` the scheduler backend builds the mask with the bits 0
and 64, but passes `sizeof(unsigned long)` = 8 bytes as the size of the set, so the mask
the call sees has bit 0 only: the stored id 64 is dropped.  The topology backend passes
both bits.  The value returned is whether the call returned 0. -/
theorem Affinity_set_sched_drops_id :
    (Affinity_addAll { existingCPUs := 128 } [0, 64]).bind Affinity.ids = some [0, 64] ∧
    (Affinity_addAll { existingCPUs := 128 } [0, 64]).bind
        (Sched.Affinity_set (fun _ => 0) 1) =
      some ({ pid := 1, cpusetsize := 8, mask := 2 ^ 64 + 1 }, true) ∧
    SchedCall.seen { pid := 1, cpusetsize := 8, mask := 2 ^ 64 + 1 } = 1 ∧
    Nat.testBit (SchedCall.seen { pid := 1, cpusetsize := 8, mask := 2 ^ 64 + 1 }) 64
      = false ∧
    (Affinity_addAll { existingCPUs := 128 } [0, 64]).bind
        (Hwloc.Affinity_set (fun _ => 0) 1) =
      some ({ pid := 1, cpuset := 2 ^ 64 + 1 }, true) := by
  decide

theorem foldlM_load {α β : Type} (buf : List (Option α)) (g : β → α → β) :
    ∀ (L : List α) (k : Nat) (m : β),
      (∀ i, i < L.length → load buf (k + i) = L.get? i) →
      (List.range' k L.length).foldlM (fun m i => (load buf i).map fun c => g m c) m =
        some (L.foldl g m)
  | [], _, _, _ => rfl
  | x :: L, k, m, h => by
    have h0 : load buf k = some x := by
      have := h 0 (Nat.zero_lt_succ _)
      simpa using this
    have hrec := foldlM_load buf g L (k + 1) (g m x) (by
      intro i hi
      have := h (i + 1) (Nat.succ_lt_succ hi)
      rw [List.get?_cons_succ] at this
      rw [← this]
      congr 1
      omega)
    simp only [List.length_cons, List.range'_succ, List.foldlM, h0, Option.map_some',
      Option.some_bind, List.foldl_cons]
    exact hrec

theorem CPU_SET_testBit (x m c : Nat) :
    (CPU_SET x m).testBit c = (m.testBit c || (decide (x < CPU_SETSIZE) && decide (x = c))) := by
  unfold CPU_SET
  by_cases hx : x < CPU_SETSIZE
  · simp only [hx, if_true, Nat.testBit_or, Nat.one_shiftLeft, Nat.testBit_two_pow,
      decide_True, Bool.true_and]
  · simp only [hx, if_false, decide_False, Bool.false_and, Bool.or_false]

theorem hwloc_bitmap_set_testBit (m x c : Nat) :
    (hwloc_bitmap_set m x).testBit c = (m.testBit c || decide (x = c)) := by
  simp only [hwloc_bitmap_set, Nat.testBit_or, Nat.one_shiftLeft, Nat.testBit_two_pow]

theorem CPU_SET_fold_testBit (c : Nat) : ∀ (L : List Nat) (m : Nat),
    (L.foldl (fun m x => CPU_SET x m) m).testBit c = true ↔
      m.testBit c = true ∨ (c ∈ L ∧ c < CPU_SETSIZE)
  | [], m => by simp
  | x :: L, m => by
    rw [List.foldl_cons, CPU_SET_fold_testBit c L, CPU_SET_testBit]
    simp only [Bool.or_eq_true, Bool.and_eq_true, decide_eq_true_eq, List.mem_cons]
    constructor
    · rintro ((h | ⟨h1, h2⟩) | h)
      · exact Or.inl h
      · exact Or.inr ⟨Or.inl h2.symm, h2 ▸ h1⟩
      · exact Or.inr ⟨Or.inr h.1, h.2⟩
    · rintro (h | ⟨h1 | h1, h2⟩)
      · exact Or.inl (Or.inl h)
      · exact Or.inl (Or.inr ⟨h1 ▸ h2, h1.symm⟩)
      · exact Or.inr ⟨h1, h2⟩

theorem hwloc_fold_testBit (c : Nat) : ∀ (L : List Nat) (m : Nat),
    (L.foldl hwloc_bitmap_set m).testBit c = true ↔ m.testBit c = true ∨ c ∈ L
  | [], m => by simp
  | x :: L, m => by
    rw [List.foldl_cons, hwloc_fold_testBit c L, hwloc_bitmap_set_testBit]
    simp only [Bool.or_eq_true, decide_eq_true_eq, List.mem_cons]
    constructor
    · rintro ((h | h) | h)
      · exact Or.inl h
      · exact Or.inr (Or.inl h.symm)
      · exact Or.inr (Or.inr h)
    · rintro (h | h | h)
      · exact Or.inl (Or.inl h)
      · exact Or.inl (Or.inr h.symm)
      · exact Or.inr h

/-- The scheduler backend's `Affinity_set` on an `Affinity` that stores the ids `L`: the
mask the call sees has bit `c` set exactly for the stored ids below 64. -/
theorem Sched_Affinity_set_seen (os : SchedCall → Int) (pid : Nat) (a : Affinity)
    (L : List Nat) (hids : a.cpus.take a.used = L.map some) (hused : a.used = L.length) :
    ∃ call, Sched.Affinity_set os pid a = some (call, decide (os call = 0)) ∧
      call.pid = pid ∧ call.cpusetsize = ULONG_BYTES ∧
      (∀ c, call.mask.testBit c = true ↔ c ∈ L ∧ c < CPU_SETSIZE) ∧
      (∀ c, call.seen.testBit c = true ↔ c ∈ L ∧ c < 64) := by
  have hmask : Sched.Affinity_set.mask a = some (L.foldl (fun m x => CPU_SET x m) 0) := by
    have := foldlM_load a.cpus (fun m x => CPU_SET x m) L 0 0 (by
      intro i hi
      rw [Nat.zero_add]
      exact load_of_take a.cpus L a.used i hids hi)
    rw [Sched.Affinity_set.mask, List.range_eq_range', hused]
    exact this
  refine ⟨{ pid := pid, cpusetsize := ULONG_BYTES,
            mask := L.foldl (fun m x => CPU_SET x m) 0 }, ?_, rfl, rfl, ?_, ?_⟩
  · simp only [Sched.Affinity_set, hmask, Option.map_some']
  · intro c
    simp only [CPU_SET_fold_testBit, Nat.zero_testBit, Bool.false_eq_true, false_or]
  · intro c
    simp only [SchedCall.seen, ULONG_BYTES, Nat.testBit_mod_two_pow, Bool.and_eq_true,
      decide_eq_true_eq, CPU_SET_fold_testBit, Nat.zero_testBit, Bool.false_eq_true, false_or,
      CPU_SETSIZE]
    constructor
    · rintro ⟨h1, h2, _⟩
      exact ⟨h2, by omega⟩
    · rintro ⟨h1, h2⟩
      exact ⟨by omega, h1, by omega⟩

/-- The topology backend's `Affinity_set` on an `Affinity` that stores the ids `L`: the
bitmap passed has bit `c` set exactly for the stored ids. -/
theorem Hwloc_Affinity_set_cpuset (lib : HwlocCall → Int) (pid : Nat) (a : Affinity)
    (L : List Nat) (hids : a.cpus.take a.used = L.map some) (hused : a.used = L.length) :
    ∃ call, Hwloc.Affinity_set lib pid a = some (call, decide (lib call = 0)) ∧
      call.pid = pid ∧ (∀ c, call.cpuset.testBit c = true ↔ c ∈ L) := by
  have hmask : Hwloc.Affinity_set.mask a = some (L.foldl hwloc_bitmap_set 0) := by
    have := foldlM_load a.cpus hwloc_bitmap_set L 0 0 (by
      intro i hi
      rw [Nat.zero_add]
      exact load_of_take a.cpus L a.used i hids hi)
    rw [Hwloc.Affinity_set.mask, List.range_eq_range', hused]
    exact this
  refine ⟨{ pid := pid, cpuset := L.foldl hwloc_bitmap_set 0 }, ?_, rfl, ?_⟩
  · simp only [Hwloc.Affinity_set, hmask, Option.map_some']
  · intro c
    simp only [hwloc_fold_testBit, Nat.zero_testBit, Bool.false_eq_true, false_or]

theorem foldlM_filter {α β : Type} (p : β → Bool) (f : α → β → Option α) :
    ∀ (l : List β) (a : α),
      l.foldlM (fun a i => if p i then f a i else some a) a = (l.filter p).foldlM f a
  | [], _ => rfl
  | x :: l, a => by
    by_cases hx : p x = true
    · simp only [List.foldlM, hx, if_true, List.filter_cons_of_pos hx]
      cases f a x with
      | none => rfl
      | some b => exact foldlM_filter p f l b
    · simp only [List.foldlM, hx, if_false, List.filter_cons_of_neg hx]
      exact foldlM_filter p f l a

theorem filter_isset_length (n cpuset : Nat) :
    ((List.range n).filter fun i => CPU_ISSET i cpuset).length ≤ CPU_SETSIZE := by
  have hnd : ((List.range n).filter fun i => CPU_ISSET i cpuset).Nodup :=
    (List.nodup_range n).filter _
  rw [← List.toFinset_card_of_nodup hnd]
  have hsub : ((List.range n).filter fun i => CPU_ISSET i cpuset).toFinset ⊆
      Finset.range CPU_SETSIZE := by
    intro i hi
    simp only [List.mem_toFinset, List.mem_filter, CPU_ISSET, Bool.and_eq_true,
      decide_eq_true_eq] at hi
    exact Finset.mem_range.mpr hi.2.1
  calc _ ≤ (Finset.range CPU_SETSIZE).card := Finset.card_le_card hsub
    _ = CPU_SETSIZE := Finset.card_range _

theorem Affinity_fill (pl : ProcessList) (xs : List Nat) (h : xs.length ≤ 2 ^ 31) :
    ∃ b, (Affinity_new pl).bind (fun a => (xs.foldlM Affinity_add a).map some) =
        some (some b) ∧
      b.ids = some xs ∧ b.used = xs.length ∧ b.pl = pl := by
  have hwf : Affinity.WF
      { pl := pl, size := 8, used := 0, cpus := List.replicate 8 (some 0) } := by
    simp [Affinity.WF]
  obtain ⟨b, hb, _, hbpl, hbu, hbt⟩ := Affinity_add_fold xs _ hwf
    (by simp only [Nat.zero_add]; exact h)
  simp only [Nat.zero_add, List.take_zero, List.nil_append] at hbu hbt
  refine ⟨b, ?_, ?_, hbu, hbpl⟩
  · simp only [Affinity_new_eq, Option.some_bind, hb, Option.map_some']
  · unfold Affinity.ids
    rw [hbt]
    exact allSome_map_some _

theorem Sched_Affinity_get_eq (cpuset : Nat) (pl : ProcessList) :
    Sched.Affinity_get (some cpuset) pl =
      (Affinity_new pl).bind fun a =>
        (((List.range pl.existingCPUs).filter fun i => CPU_ISSET i cpuset).foldlM
          Affinity_add a).map some := by
  simp only [Sched.Affinity_get, foldlM_filter]

theorem Sched_Affinity_get_some (cpuset : Nat) (pl : ProcessList) :
    ∃ a, Sched.Affinity_get (some cpuset) pl = some (some a) ∧
      a.ids = some ((List.range pl.existingCPUs).filter fun i => CPU_ISSET i cpuset) ∧
      a.used = ((List.range pl.existingCPUs).filter fun i => CPU_ISSET i cpuset).length ∧
      a.pl = pl := by
  have hlen := filter_isset_length pl.existingCPUs cpuset
  obtain ⟨b, hb, h1, h2, h3⟩ := Affinity_fill pl
    ((List.range pl.existingCPUs).filter fun i => CPU_ISSET i cpuset)
    (by simp only [CPU_SETSIZE] at hlen; omega)
  exact ⟨b, by rw [Sched_Affinity_get_eq]; exact hb, h1, h2, h3⟩

/-- C10: the scheduler backend's `Affinity_get` returns the null pointer exactly when the
query fails; when the query gives the mask `cpuset`, it returns an `Affinity` whose ids
are the indices below `existingCPUs` that are set in the mask, in strictly ascending
order, `used` being their number. -/
theorem Sched_Affinity_get_spec (query : Option Nat) (pl : ProcessList) :
    (Sched.Affinity_get query pl = some none ↔ query = none) ∧
    (∀ cpuset, query = some cpuset →
      ∃ a, Sched.Affinity_get query pl = some (some a) ∧
        a.ids = some ((List.range pl.existingCPUs).filter fun i => CPU_ISSET i cpuset) ∧
        a.used = ((List.range pl.existingCPUs).filter fun i => CPU_ISSET i cpuset).length ∧
        ((List.range pl.existingCPUs).filter fun i => CPU_ISSET i cpuset).Pairwise
          (· < ·) ∧
        (∀ i, i ∈ ((List.range pl.existingCPUs).filter fun i => CPU_ISSET i cpuset) ↔
          i < pl.existingCPUs ∧ CPU_ISSET i cpuset = true) ∧
        a.pl = pl) := by
  have hsome := fun cpuset => Sched_Affinity_get_some cpuset pl
  constructor
  · constructor
    · intro h
      cases query with
      | none => rfl
      | some cpuset =>
        obtain ⟨a, ha, _⟩ := hsome cpuset
        rw [ha] at h
        simp at h
    · intro h
      rw [h]
      rfl
  · intro cpuset hq
    obtain ⟨a, ha, hids, hused, hpl⟩ := hsome cpuset
    refine ⟨a, hq ▸ ha, hids, hused, List.Pairwise.filter _ (List.pairwise_lt_range _), ?_, hpl⟩
    intro i
    simp [List.mem_filter, List.mem_range]

/-- Witness for C10: with four known CPUs and the mask of the CPUs 0 and 2 the result
holds the ids 0 and 2. -/
theorem Sched_Affinity_get_spec_witness :
    ∃ a, Sched.Affinity_get (some 5) { existingCPUs := 4 } = some (some a) ∧
      a.ids = some [0, 2] ∧ a.used = 2 := by
  obtain ⟨a, h1, h2, h3, _⟩ :=
    (Sched_Affinity_get_spec (some 5) { existingCPUs := 4 }).2 5 rfl
  exact ⟨a, h1, h2.trans (by decide), h3.trans (by decide)⟩

/-! ## Properties of `free_and_xStrdup` -/

theorem free_and_xStrdup_same (h : SlotHeap) (v : List Char)
    (hv : h.slot.map (·.str) = some v) : free_and_xStrdup h v = h := by
  unfold free_and_xStrdup
  cases hs : h.slot with
  | none => rw [hs] at hv; simp at hv
  | some p =>
    rw [hs] at hv
    simp only [Option.map_some', Option.some.injEq] at hv
    simp [String_eq, hv]

theorem free_and_xStrdup_other (h : SlotHeap) (v : List Char)
    (hv : h.slot.map (·.str) ≠ some v) :
    free_and_xStrdup h v = free_and_xStrdup.replace h v := by
  unfold free_and_xStrdup
  cases hs : h.slot with
  | none => rfl
  | some p =>
    rw [hs] at hv
    simp only [Option.map_some', ne_eq, Option.some.injEq] at hv
    simp [String_eq, hv]

theorem free_and_xStrdup_holds (h : SlotHeap) (v : List Char) :
    (free_and_xStrdup h v).slot.map (·.str) = some v := by
  by_cases hv : h.slot.map (·.str) = some v
  · rw [free_and_xStrdup_same h v hv]; exact hv
  · rw [free_and_xStrdup_other h v hv]; rfl

/-- C11: `free_and_xStrdup(slot, v)` always leaves the slot holding a string equal to `v`
and is idempotent.  If the slot already holds a string equal to `v`, the state is
unchanged: no duplication, no release, same pointer.  Otherwise it makes exactly one call
of `xFree`, on the old pointer, and exactly one duplication, whose result goes into the
slot.  From the empty slot, two calls with the same value make one duplication in total,
and a following call with another value makes one release, of the block of the first
value, and one more duplication. -/
theorem free_and_xStrdup_spec :
    (∀ (h : SlotHeap) (v : List Char),
      (free_and_xStrdup h v).slot.map (·.str) = some v ∧
      free_and_xStrdup (free_and_xStrdup h v) v = free_and_xStrdup h v ∧
      (h.slot.map (·.str) = some v → free_and_xStrdup h v = h) ∧
      (h.slot.map (·.str) ≠ some v →
        (free_and_xStrdup h v).frees = h.slot.map (·.addr) :: h.frees ∧
        (∃ p, (free_and_xStrdup h v).dups = p :: h.dups ∧ p.str = v ∧
          (free_and_xStrdup h v).slot = some p))) ∧
    (∀ v w : List Char, v ≠ w →
      (free_and_xStrdup (free_and_xStrdup SlotHeap.empty v) v).dups.length = 1 ∧
      (free_and_xStrdup (free_and_xStrdup SlotHeap.empty v) v).frees = [none] ∧
      (free_and_xStrdup (free_and_xStrdup (free_and_xStrdup SlotHeap.empty v) v) w).dups.length
        = 2 ∧
      (free_and_xStrdup (free_and_xStrdup (free_and_xStrdup SlotHeap.empty v) v) w).frees =
        [(free_and_xStrdup SlotHeap.empty v).slot.map (·.addr), none] ∧
      (free_and_xStrdup (free_and_xStrdup (free_and_xStrdup SlotHeap.empty v) v) w).slot.map
        (·.str) = some w) := by
  constructor
  · intro h v
    refine ⟨free_and_xStrdup_holds h v,
      free_and_xStrdup_same _ v (free_and_xStrdup_holds h v),
      free_and_xStrdup_same h v, fun hv => ?_⟩
    rw [free_and_xStrdup_other h v hv]
    exact ⟨rfl, _, rfl, rfl, rfl⟩
  · intro v w hvw
    have h1 : free_and_xStrdup SlotHeap.empty v =
        free_and_xStrdup.replace SlotHeap.empty v := rfl
    have h2 : free_and_xStrdup (free_and_xStrdup SlotHeap.empty v) v =
        free_and_xStrdup SlotHeap.empty v :=
      free_and_xStrdup_same _ v (free_and_xStrdup_holds _ v)
    have h3 : free_and_xStrdup (free_and_xStrdup SlotHeap.empty v) w =
        free_and_xStrdup.replace (free_and_xStrdup SlotHeap.empty v) w := by
      apply free_and_xStrdup_other
      rw [free_and_xStrdup_holds]
      simpa using hvw
    rw [h2, h3, h1]
    simp [free_and_xStrdup.replace, SlotHeap.empty, xStrdup]

/-! ## Round trip of `Affinity_set` and `Affinity_get` -/

theorem sorted_ext : ∀ (l1 l2 : List Nat), l1.Pairwise (· < ·) → l2.Pairwise (· < ·) →
    (∀ c, c ∈ l1 ↔ c ∈ l2) → l1 = l2
  | [], [], _, _, _ => rfl
  | [], y :: l2, _, _, h => by simpa using (h y).mpr (List.mem_cons_self _ _)
  | x :: l1, [], _, _, h => by simpa using (h x).mp (List.mem_cons_self _ _)
  | x :: l1, y :: l2, h1, h2, h => by
    rw [List.pairwise_cons] at h1 h2
    have hxy : x = y := by
      have hx := (h x).mp (List.mem_cons_self _ _)
      have hy := (h y).mpr (List.mem_cons_self _ _)
      rw [List.mem_cons] at hx hy
      rcases hx with hx | hx
      · exact hx
      · rcases hy with hy | hy
        · exact hy.symm
        · have := h2.1 x hx
          have := h1.1 y hy
          omega
    subst hxy
    congr 1
    apply sorted_ext l1 l2 h1.2 h2.2
    intro c
    constructor
    · intro hc
      have := (h c).mp (List.mem_cons_of_mem _ hc)
      rw [List.mem_cons] at this
      rcases this with e | e
      · have := h1.1 c hc
        omega
      · exact e
    · intro hc
      have := (h c).mpr (List.mem_cons_of_mem _ hc)
      rw [List.mem_cons] at this
      rcases this with e | e
      · have := h2.1 c hc
        omega
      · exact e

theorem hwloc_bitmap_foreach_eq (m : Nat) (L : List Nat) (hL : L.Pairwise (· < ·))
    (hm : ∀ c, m.testBit c = true ↔ c ∈ L) :
    hwloc_bitmap_foreach { bits := m, infinite := false } = L := by
  apply sorted_ext _ _ (List.Pairwise.filter _ (List.pairwise_lt_range _)) hL
  intro c
  simp only [hwloc_bitmap_foreach, List.mem_filter, List.mem_range, ← hm]
  constructor
  · exact fun h => h.2
  · intro h
    refine ⟨?_, h⟩
    have hge := Nat.testBit_implies_ge h
    have hne : m ≠ 0 := by
      have : 0 < 2 ^ c := Nat.pow_pos (by decide)
      omega
    have := (Nat.le_log2 hne).mpr hge
    omega

theorem filter_isset_eq (n m : Nat) (L : List Nat) (hL : L.Pairwise (· < ·))
    (hn : ∀ c ∈ L, c < n) (hm : ∀ c, m.testBit c = true ↔ c ∈ L ∧ c < CPU_SETSIZE)
    (hs : ∀ c ∈ L, c < CPU_SETSIZE) :
    ((List.range n).filter fun i => CPU_ISSET i m) = L := by
  apply sorted_ext _ _ (List.Pairwise.filter _ (List.pairwise_lt_range _)) hL
  intro c
  simp only [List.mem_filter, List.mem_range, CPU_ISSET, Bool.and_eq_true, decide_eq_true_eq,
    hm]
  constructor
  · exact fun h => h.2.2.1
  · exact fun h => ⟨hn c h, hs c h, h, hs c h⟩

/-- Within the first 64 CPUs the round trip holds on both backends: `Affinity_set` of a
strictly ascending, non-empty list `L` of ids below the known CPU count succeeds, and
`Affinity_get` on the same process then returns a present `Affinity` whose id list is `L`;
on the scheduler backend for ids below 64, on the topology backend for every `L` of at
most `2^31` ids. -/
theorem roundTrip_within (pid : Nat) (pl : ProcessList) (a : Affinity) (L : List Nat)
    (hst : a.Stores L) (hL : L.Pairwise (· < ·)) (hN : ∀ c ∈ L, c < pl.existingCPUs)
    (hne : L ≠ []) :
    (∀ k : Kernel, (∀ c ∈ L, c < 64) →
      ∃ b, Sched.roundTrip k pid a pl = some (some b) ∧ b.ids = some L) ∧
    (∀ t : Topology, L.length ≤ 2 ^ 31 →
      ∃ b, Hwloc.roundTrip t pid a pl = some (some b) ∧ b.ids = some L) := by
  obtain ⟨hids, hused⟩ := hst
  obtain ⟨x, hx⟩ := List.exists_mem_of_ne_nil L hne
  constructor
  · intro k h64
    obtain ⟨call, hset, hpid, _, hmask, hseen⟩ :=
      Sched_Affinity_set_seen (fun c => (k.sched_setaffinity c).2) pid a L hids hused
    obtain ⟨b, hb, hbids, _⟩ := Sched_Affinity_get_some call.seen pl
    have hnz : call.seen ≠ 0 := by
      intro h0
      have := (hseen x).mpr ⟨hx, h64 x hx⟩
      rw [h0] at this
      simp at this
    refine ⟨b, ?_, ?_⟩
    · have hupd : Function.update k.maskOf call.pid call.seen pid = call.seen := by
        rw [hpid]
        exact Function.update_same _ _ _
      unfold Sched.roundTrip
      rw [hset]
      simp only [Option.some_bind, Kernel.sched_getaffinity, Kernel.sched_setaffinity, hnz,
        if_false, hupd]
      exact hb
    · rw [hbids]
      congr 1
      apply filter_isset_eq _ _ _ hL hN
      · intro c
        rw [hseen]
        simp only [CPU_SETSIZE]
        constructor
        · exact fun h => ⟨h.1, by omega⟩
        · exact fun h => ⟨h.1, h64 c h.1⟩
      · intro c hc
        have := h64 c hc
        simp only [CPU_SETSIZE]
        omega
  · intro t hlen
    obtain ⟨call, hset, hpid, hbits⟩ :=
      Hwloc_Affinity_set_cpuset (fun c => (t.hwloc_set_proc_cpubind c).2) pid a L hids hused
    have hnz : call.cpuset ≠ 0 := by
      intro h0
      have := (hbits x).mpr hx
      rw [h0] at this
      simp at this
    have hlast : hwloc_bitmap_last { bits := call.cpuset, infinite := false } ≠ -1 := by
      simp only [hwloc_bitmap_last, Bool.false_eq_true, if_false, hnz]
      omega
    obtain ⟨b, hb, hbids, _⟩ := Affinity_fill pl L hlen
    refine ⟨b, ?_, hbids⟩
    have hupd : Function.update t.bitmapOf call.pid
        { bits := call.cpuset, infinite := false } pid =
        { bits := call.cpuset, infinite := false } := by
      rw [hpid]
      exact Function.update_same _ _ _
    unfold Hwloc.roundTrip
    rw [hset]
    simp only [Option.some_bind, Topology.hwloc_get_proc_cpubind,
      Topology.hwloc_set_proc_cpubind, hnz, if_false, hupd, Hwloc.Affinity_get, hlast,
      hwloc_bitmap_foreach_eq call.cpuset L hL hbits]
    exact hb

/-- C12: on the scheduler backend, with 128 known CPUs and a process bound to CPU 1,
`Affinity_set` of the stored ids `[0, 64]` reports success, and `Affinity_get` on the same
process then returns the ids `[0]`: the id 64 is lost, because `Affinity_set` passes
`sizeof(unsigned long)` as the size of the set.  On the same input the topology backend
returns `[0, 64]`, and so does the scheduler backend for the ids `[0, 63]`. -/
theorem roundTrip_sched_drops_id :
    Affinity.ids
      { pl := { existingCPUs := 128 }, size := 8, used := 2,
        cpus := [some 0, some 64, some 0, some 0, some 0, some 0, some 0, some 0] } =
        some [0, 64] ∧
    (Sched.Affinity_set (fun c => (Kernel.sched_setaffinity { maskOf := fun _ => 2 } c).2) 7
      { pl := { existingCPUs := 128 }, size := 8, used := 2,
        cpus := [some 0, some 64, some 0, some 0, some 0, some 0, some 0, some 0] }).map
        Prod.snd = some true ∧
    (Sched.roundTrip { maskOf := fun _ => 2 } 7
      { pl := { existingCPUs := 128 }, size := 8, used := 2,
        cpus := [some 0, some 64, some 0, some 0, some 0, some 0, some 0, some 0] }
      { existingCPUs := 128 }).map (fun r => r.bind Affinity.ids) = some (some [0]) ∧
    (∃ b, Hwloc.roundTrip { bitmapOf := fun _ => { bits := 2, infinite := false } } 7
      { pl := { existingCPUs := 128 }, size := 8, used := 2,
        cpus := [some 0, some 64, some 0, some 0, some 0, some 0, some 0, some 0] }
      { existingCPUs := 128 } = some (some b) ∧ b.ids = some [0, 64]) ∧
    (Sched.roundTrip { maskOf := fun _ => 2 } 7
      { pl := { existingCPUs := 128 }, size := 8, used := 2,
        cpus := [some 0, some 63, some 0, some 0, some 0, some 0, some 0, some 0] }
      { existingCPUs := 128 }).map (fun r => r.bind Affinity.ids) = some (some [0, 63]) := by
  refine ⟨by decide, by decide, by decide, ?_, by decide⟩
  exact (roundTrip_within 7 { existingCPUs := 128 }
    { pl := { existingCPUs := 128 }, size := 8, used := 2,
      cpus := [some 0, some 64, some 0, some 0, some 0, some 0, some 0, some 0] } [0, 64]
    ⟨by decide, by decide⟩ (by decide) (by decide) (by decide)).2 _ (by decide)

/-! ## The two backends of `Affinity_get` -/

theorem testBit_lt_setsize (M c : Nat) (hM : M < 2 ^ CPU_SETSIZE) (h : M.testBit c = true) :
    c < CPU_SETSIZE := by
  by_contra hc
  have hle : 2 ^ CPU_SETSIZE ≤ 2 ^ c := Nat.pow_le_pow_right (by decide) (Nat.le_of_not_lt hc)
  have := Nat.testBit_lt_two_pow (Nat.lt_of_lt_of_le hM hle)
  rw [this] at h
  exact Bool.noConfusion h

/-- C18, as stated, fails: with 4 known CPUs, when both backends observe the empty set
the topology backend returns `[0, 1, 2, 3]` and the scheduler backend `[]`; when both
observe the set `{5}` the topology backend returns `[5]` and the scheduler backend
`[]`. -/
theorem Affinity_get_backends_counterexample :
    (Hwloc.Affinity_get (some { bits := 0, infinite := false }) { existingCPUs := 4 }).map
        (fun r => r.bind Affinity.ids) = some (some [0, 1, 2, 3]) ∧
    (Sched.Affinity_get (some 0) { existingCPUs := 4 }).map
        (fun r => r.bind Affinity.ids) = some (some []) ∧
    (Hwloc.Affinity_get (some { bits := 2 ^ 5, infinite := false })
        { existingCPUs := 4 }).map (fun r => r.bind Affinity.ids) = some (some [5]) ∧
    (Sched.Affinity_get (some (2 ^ 5)) { existingCPUs := 4 }).map
        (fun r => r.bind Affinity.ids) = some (some []) := by
  refine ⟨by decide, by decide, ?_, by decide⟩
  have hforeach : hwloc_bitmap_foreach { bits := 2 ^ 5, infinite := false } = [5] := by
    apply hwloc_bitmap_foreach_eq (2 ^ 5) [5] (by simp)
    intro c
    rw [Nat.testBit_two_pow]
    simp [eq_comm]
  have hlast : hwloc_bitmap_last { bits := 2 ^ 5, infinite := false } ≠ -1 := by
    simp only [hwloc_bitmap_last, Bool.false_eq_true, if_false]
    rw [if_neg (by decide)]
    omega
  simp only [Hwloc.Affinity_get, hlast, if_false, hforeach]
  decide

/-- C18, amended: when the topology library's bitmap and the scheduler's mask denote the
same set of CPUs, that set being not empty and made of indices below the known CPU count
`N`, or when the bitmap is infinitely set (unrestricted) and the mask is that of all `N`
known CPUs, the two backends of `Affinity_get` return the same `Affinity`, whose id list
is the ascending list of the indices below `N` in the set. -/
theorem Affinity_get_backends_agree (pl : ProcessList) (B : HwlocBitmap) (M : Nat)
    (hM : M < 2 ^ CPU_SETSIZE)
    (hobs : (B.infinite = false ∧ B.bits = M ∧ M ≠ 0 ∧
        ∀ c, M.testBit c = true → c < pl.existingCPUs) ∨
      (B.infinite = true ∧ M = 2 ^ pl.existingCPUs - 1)) :
    Hwloc.Affinity_get (some B) pl = Sched.Affinity_get (some M) pl ∧
    ∃ a, Sched.Affinity_get (some M) pl = some (some a) ∧
      a.ids = some ((List.range pl.existingCPUs).filter fun i => M.testBit i) ∧
      ((List.range pl.existingCPUs).filter fun i => M.testBit i).Pairwise (· < ·) := by
  have hfilter : ((List.range pl.existingCPUs).filter fun i => CPU_ISSET i M) =
      (List.range pl.existingCPUs).filter fun i => M.testBit i := by
    apply List.filter_congr
    intro c _
    simp only [CPU_ISSET]
    cases h : M.testBit c with
    | false => simp
    | true => simp [testBit_lt_setsize M c hM h]
  obtain ⟨a, ha, haids, _⟩ := Sched_Affinity_get_some M pl
  refine ⟨?_, a, ha, hfilter ▸ haids, List.Pairwise.filter _ (List.pairwise_lt_range _)⟩
  rw [Sched_Affinity_get_eq, hfilter]
  rcases hobs with ⟨hfin, hbits, hne, hlt⟩ | ⟨hinf, hfull⟩
  · have hB : B = { bits := M, infinite := false } := by
      cases B
      simp only at hfin hbits
      simp [hfin, hbits]
    have hlast : hwloc_bitmap_last { bits := M, infinite := false } ≠ -1 := by
      simp only [hwloc_bitmap_last, Bool.false_eq_true, if_false, hne]
      omega
    have hforeach : hwloc_bitmap_foreach { bits := M, infinite := false } =
        (List.range pl.existingCPUs).filter fun i => M.testBit i := by
      apply hwloc_bitmap_foreach_eq M _ (List.Pairwise.filter _ (List.pairwise_lt_range _))
      intro c
      simp only [List.mem_filter, List.mem_range]
      exact ⟨fun h => ⟨hlt c h, h⟩, fun h => h.2⟩
    simp only [hB, Hwloc.Affinity_get, hlast, if_false, hforeach]
  · have hlast : hwloc_bitmap_last B = -1 := by
      simp only [hwloc_bitmap_last, hinf, if_true]
    have hall : ((List.range pl.existingCPUs).filter fun i => M.testBit i) =
        List.range pl.existingCPUs := by
      rw [List.filter_eq_self]
      intro c hc
      rw [hfull, Nat.testBit_two_pow_sub_one]
      simpa using hc
    simp only [Hwloc.Affinity_get, hlast, if_true, hall]

/-- Witness for the amended C18: with four known CPUs, the set `{0, 2}` seen by both
backends gives the same result on both. -/
theorem Affinity_get_backends_agree_witness :
    Hwloc.Affinity_get (some { bits := 5, infinite := false }) { existingCPUs := 4 } =
      Sched.Affinity_get (some 5) { existingCPUs := 4 } :=
  (Affinity_get_backends_agree { existingCPUs := 4 } { bits := 5, infinite := false } 5
    (Nat.lt_of_lt_of_le (by decide : 5 < 2 ^ 3) (Nat.pow_le_pow_right (by decide) (by decide)))
    (Or.inl ⟨rfl, rfl, by decide, fun c hc => by
      by_contra hge
      have hle : 2 ^ 4 ≤ 2 ^ c := Nat.pow_le_pow_right (by decide) (Nat.le_of_not_lt hge)
      have := Nat.testBit_lt_two_pow (Nat.lt_of_lt_of_le (by decide : 5 < 2 ^ 4) hle)
      rw [this] at hc
      exact Bool.noConfusion hc⟩)).1

/-! ## Properties of `readfd_internal` -/

theorem writeCells_eq {α : Type} (buf : List (Option α)) (off : Nat) (vals : List α)
    (h : off + vals.length ≤ buf.length) :
    writeCells buf off vals =
      some (buf.take off ++ vals.map some ++ buf.drop (off + vals.length)) := by
  simp [writeCells, h]

theorem written_length {α : Type} (buf : List (Option α)) (off : Nat) (vals : List α)
    (h : off + vals.length ≤ buf.length) :
    (buf.take off ++ vals.map some ++ buf.drop (off + vals.length)).length = buf.length := by
  simp only [List.length_append, List.length_take, List.length_map, List.length_drop]
  omega

theorem written_take {α : Type} (buf : List (Option α)) (off : Nat) (vals : List α)
    (h : off + vals.length ≤ buf.length) :
    (buf.take off ++ vals.map some ++ buf.drop (off + vals.length)).take (off + vals.length) =
      buf.take off ++ vals.map some := by
  apply List.take_left'
  simp only [List.length_append, List.length_take, List.length_map]
  omega

theorem written_drop {α : Type} (buf : List (Option α)) (off k : Nat) (vals : List α)
    (h : off + vals.length ≤ buf.length) :
    (buf.take off ++ vals.map some ++ buf.drop (off + vals.length)).drop
        (off + vals.length + k) = buf.drop (off + vals.length + k) := by
  have hl : (buf.take off ++ vals.map some).length = off + vals.length := by
    simp only [List.length_append, List.length_take, List.length_map]
    omega
  rw [List.drop_append_eq_append_drop, hl, List.drop_of_length_le (by omega), List.nil_append,
    List.drop_drop]
  congr 1
  omega

theorem set_after_take {α : Type} (buf : List α) (n : Nat) (v : α) (h : n < buf.length) :
    buf.set n v = buf.take n ++ v :: buf.drop (n + 1) := by
  apply List.ext_getElem
  · simp only [List.length_set, List.length_append, List.length_take, List.length_cons,
      List.length_drop]
    omega
  · intro i h1 h2
    rcases Nat.lt_trichotomy i n with hlt | heq | hgt
    · rw [List.getElem_set_ne (by omega), List.getElem_append_left (by simp; omega)]
      simp
    · subst heq
      rw [List.getElem_set_self, List.getElem_append_right (by simp)]
      simp [Nat.min_eq_left (Nat.le_of_lt h)]
    · rw [List.getElem_set_ne (by omega), List.getElem_append_right (by simp; omega)]
      simp only [List.length_take, Nat.min_eq_left (Nat.le_of_lt h)]
      have hi : i - n = (i - n - 1) + 1 := by omega
      rw [List.getElem_cons, dif_neg (by omega), List.getElem_drop]
      congr 1
      omega

theorem readStream_data (bytes : List Nat) (rest : List ReadResult) (h : bytes ≠ []) :
    readStream (ReadResult.data bytes :: rest) = bytes ++ readStream rest := by
  cases bytes with
  | nil => exact absurd rfl h
  | cons b bs => rfl

theorem readfd_loop_spec (closeErrno : Option Nat) :
    ∀ (reads : List ReadResult) (buffer : List (Option Nat)) (off count closes : Nat),
      off + count < buffer.length → off + count < 2 ^ 63 →
      readfd_internal.loop closeErrno reads buffer off count closes ≠ ReadOutcome.fault ∧
      (readfd_internal.loop closeErrno reads buffer off count closes = ReadOutcome.pending →
        ∀ x ∈ reads, x.ends = false) ∧
      (∀ v b c, readfd_internal.loop closeErrno reads buffer off count closes =
          ReadOutcome.returned v b c →
        c = closes + 1 ∧
        ((∃ e, ReadResult.error e ∈ reads ∧ e ≠ EINTR ∧
            v = -((closeErrno.getD e : Nat) : Int)) ∨
          (∃ r, v = ((off + r : Nat) : Int) ∧ r = min (readStream reads).length count ∧
            b = buffer.take off ++ ((readStream reads).take count).map some ++
              some 0 :: buffer.drop (off + r + 1))))
  | [], buffer, off, count, closes, _, _ => by
    simp [readfd_internal.loop]
  | ReadResult.error e :: rest, buffer, off, count, closes, hlen, h63 => by
    unfold readfd_internal.loop
    by_cases he : e = EINTR
    · obtain ⟨h1, h2, h3⟩ := readfd_loop_spec closeErrno rest buffer off count closes hlen h63
      simp only [he, if_true]
      refine ⟨h1, ?_, ?_⟩
      · intro hp x hx
        rw [List.mem_cons] at hx
        rcases hx with rfl | hx
        · simp [ReadResult.ends]
        · exact h2 hp x hx
      · intro v b c hr
        obtain ⟨hc, hv⟩ := h3 v b c hr
        refine ⟨hc, ?_⟩
        rcases hv with ⟨e1, he1, he2, he3⟩ | ⟨r, hr1, hr2, hr3⟩
        · exact Or.inl ⟨e1, List.mem_cons_of_mem _ he1, he2, he3⟩
        · refine Or.inr ⟨r, hr1, ?_, ?_⟩
          · simpa [readStream] using hr2
          · simpa [readStream] using hr3
    · simp only [he, if_false]
      refine ⟨by simp, by simp, ?_⟩
      intro v b c hr
      simp only [ReadOutcome.returned.injEq] at hr
      obtain ⟨hv, _, hc⟩ := hr
      exact ⟨hc.symm, Or.inl ⟨e, List.mem_cons_self _ _, he, hv.symm⟩⟩
  | ReadResult.data bytes :: rest, buffer, off, count, closes, hlen, h63 => by
    have hgot : (bytes.take count).length ≤ count := List.length_take_le _ _
    have hfit : off + (bytes.take count).length ≤ buffer.length := by omega
    have hno : ¬ 2 ^ 63 ≤ off + (bytes.take count).length := by omega
    unfold readfd_internal.loop
    simp only [writeCells_eq buffer off _ hfit, hno, if_false]
    by_cases hterm : count - (bytes.take count).length = 0 ∨ (bytes.take count).length = 0
    · have hidx : off + (bytes.take count).length <
          (buffer.take off ++ (bytes.take count).map some ++
            buffer.drop (off + (bytes.take count).length)).length := by
        rw [written_length buffer off _ hfit]
        omega
      simp only [hterm, if_true, store_eq_some _ _ _ hidx]
      refine ⟨by simp, by simp, ?_⟩
      intro v b c hr
      simp only [ReadOutcome.returned.injEq] at hr
      obtain ⟨hv, hb, hc⟩ := hr
      refine ⟨hc.symm, Or.inr ⟨(bytes.take count).length, hv.symm, ?_, ?_⟩⟩
      · cases bytes with
        | nil => simp [readStream]
        | cons x xs =>
          have hl := List.length_take count (x :: xs)
          rw [readStream_data _ _ (List.cons_ne_nil _ _), List.length_append]
          simp only [List.length_cons] at hl hterm ⊢
          omega
      · rw [← hb, set_after_take _ _ _ hidx, written_take buffer off _ hfit]
        have hd := written_drop buffer off 1 (bytes.take count) hfit
        rw [hd]
        have hstream : (readStream (ReadResult.data bytes :: rest)).take count =
            bytes.take count := by
          cases bytes with
          | nil => simp [readStream]
          | cons x xs =>
            have hl := List.length_take count (x :: xs)
            rw [readStream_data _ _ (List.cons_ne_nil _ _)]
            apply List.take_append_of_le_length
            simp only [List.length_cons] at hl hterm ⊢
            omega
        rw [hstream]
    · have hnz : ¬ (bytes.take count).length = 0 := fun h => hterm (Or.inr h)
      have hlt : (bytes.take count).length < count := by
        have : ¬ count - (bytes.take count).length = 0 := fun h => hterm (Or.inl h)
        omega
      have hall : bytes.take count = bytes := by
        apply List.take_of_length_le
        simp only [List.length_take] at hlt
        omega
      have hne : bytes ≠ [] := by
        intro h
        simp [h] at hnz
      simp only [hterm, if_false]
      rw [hall] at hfit hlt ⊢
      obtain ⟨h1, h2, h3⟩ := readfd_loop_spec closeErrno rest
        (buffer.take off ++ bytes.map some ++ buffer.drop (off + bytes.length))
        (off + bytes.length) (count - bytes.length) closes
        (by rw [written_length buffer off _ hfit]; omega) (by omega)
      refine ⟨h1, ?_, ?_⟩
      · intro hp x hx
        rw [List.mem_cons] at hx
        rcases hx with rfl | hx
        · simp only [ReadResult.ends, List.isEmpty_eq_true]
          simpa using hne
        · exact h2 hp x hx
      · intro v b c hr
        obtain ⟨hc, hv⟩ := h3 v b c hr
        refine ⟨hc, ?_⟩
        rcases hv with ⟨e1, he1, he2, he3⟩ | ⟨r, hr1, hr2, hr3⟩
        · exact Or.inl ⟨e1, List.mem_cons_of_mem _ he1, he2, he3⟩
        · refine Or.inr ⟨bytes.length + r, ?_, ?_, ?_⟩
          · rw [hr1]; congr 1; omega
          · rw [readStream_data _ _ hne, List.length_append, hr2]
            omega
          · have e1 : off + bytes.length + r + 1 = off + bytes.length + (r + 1) := by omega
            have e2 : off + (bytes.length + r) + 1 = off + bytes.length + (r + 1) := by omega
            rw [hr3, written_take buffer off _ hfit, e1, written_drop buffer off _ bytes hfit,
              readStream_data _ _ hne, List.take_append_eq_append_take,
              List.take_of_length_le (Nat.le_of_lt hlt), List.map_append, e2]
            simp only [List.append_assoc]

theorem readStream_goes_on (e : Nat) (pre : List ReadResult)
    (h : (ReadResult.error e).ends = false) :
    e = EINTR ∧ readStream (ReadResult.error e :: pre) = readStream pre := by
  have he : e = EINTR := by
    simpa [ReadResult.ends] using h
  exact ⟨he, by simp [readStream, he]⟩

/-- Reads that do not end the reading, and deliver fewer bytes than the loop still asks
for, leave the loop running: their bytes are stored one after the other. -/
theorem readfd_loop_prefix (closeErrno : Option Nat) (rest : List ReadResult) :
    ∀ (pre : List ReadResult) (buffer : List (Option Nat)) (off count closes : Nat),
      (∀ x ∈ pre, x.ends = false) →
      (readStream pre ≠ [] → (readStream pre).length < count) →
      off + count < buffer.length → off + count < 2 ^ 63 →
      readfd_internal.loop closeErrno (pre ++ rest) buffer off count closes =
        readfd_internal.loop closeErrno rest
          (buffer.take off ++ (readStream pre).map some ++
            buffer.drop (off + (readStream pre).length))
          (off + (readStream pre).length) (count - (readStream pre).length) closes
  | [], buffer, off, count, closes, _, _, _, _ => by
    simp [readStream]
  | ReadResult.error e :: pre, buffer, off, count, closes, hpre, hfit, hlen, h63 => by
    obtain ⟨he, hs⟩ := readStream_goes_on e pre (hpre _ (List.mem_cons_self _ _))
    rw [hs] at hfit ⊢
    rw [List.cons_append, readfd_internal.loop, if_pos he]
    exact readfd_loop_prefix closeErrno rest pre buffer off count closes
      (fun x hx => hpre x (List.mem_cons_of_mem _ hx)) hfit hlen h63
  | ReadResult.data bytes :: pre, buffer, off, count, closes, hpre, hfit, hlen, h63 => by
    have hne : bytes ≠ [] := by
      have := hpre _ (List.mem_cons_self _ _)
      simpa [ReadResult.ends] using this
    have hs := readStream_data bytes pre hne
    rw [hs] at hfit ⊢
    have hb : 0 < bytes.length := List.length_pos.mpr hne
    have hfit1 := hfit (by simp [hne])
    simp only [List.length_append] at hfit1 ⊢
    have htake : bytes.take count = bytes := List.take_of_length_le (by omega)
    have ih := readfd_loop_prefix closeErrno rest pre
      (buffer.take off ++ bytes.map some ++ buffer.drop (off + bytes.length))
      (off + bytes.length) (count - bytes.length) closes
      (fun x hx => hpre x (List.mem_cons_of_mem _ hx))
      (fun h => by have := hfit (by simp [hne]); simp only [List.length_append] at this; omega)
      (by rw [written_length _ _ _ (by omega)]; omega) (by omega)
    rw [List.cons_append, readfd_internal.loop]
    simp only [htake, writeCells_eq buffer off bytes (by omega)]
    rw [if_neg (by omega), if_neg (by omega), ih, written_take _ _ _ (by omega),
      written_drop _ _ _ _ (by omega)]
    simp only [List.map_append, List.append_assoc, Nat.add_assoc, Nat.sub_sub]

theorem readfd_loop_error (closeErrno : Option Nat) (e : Nat) (post : List ReadResult)
    (buffer : List (Option Nat)) (off count closes : Nat) (he : e ≠ EINTR) :
    readfd_internal.loop closeErrno (ReadResult.error e :: post) buffer off count closes =
      ReadOutcome.returned (-((closeErrno.getD e : Nat) : Int)) buffer (closes + 1) := by
  rw [readfd_internal.loop, if_neg he]

theorem readfd_loop_last (closeErrno : Option Nat) (bytes : List Nat) (post : List ReadResult)
    (buffer : List (Option Nat)) (off count closes : Nat)
    (hlen : off + count < buffer.length) (h63 : off + count < 2 ^ 63)
    (hend : bytes = [] ∨ count ≤ bytes.length) :
    readfd_internal.loop closeErrno (ReadResult.data bytes :: post) buffer off count closes =
      ReadOutcome.returned ((off + (bytes.take count).length : Nat) : Int)
        (buffer.take off ++ (bytes.take count).map some ++
          some 0 :: buffer.drop (off + (bytes.take count).length + 1)) (closes + 1) := by
  have hg : (bytes.take count).length ≤ count := by
    rw [List.length_take]; omega
  have hstop : count - (bytes.take count).length = 0 ∨ (bytes.take count).length = 0 := by
    rcases hend with h | h
    · right; rw [h]; simp
    · left; rw [List.length_take]; omega
  have hw := written_length buffer off (bytes.take count) (by omega)
  rw [readfd_internal.loop]
  simp only [writeCells_eq buffer off (bytes.take count) (by omega)]
  rw [if_neg (by omega), if_pos hstop, store_eq_some _ _ _ (by rw [hw]; omega)]
  simp only
  rw [set_after_take _ _ _ (by rw [hw]; omega), written_take _ _ _ (by omega),
    written_drop _ _ _ _ (by omega)]

/-- C13: `readfd_internal`, as `xReadfile` and `xReadfileat` call it once the file is
open, on a buffer of at least `count` bytes (`count` within `ssize_t`): for `count = 0` it
returns `-EINVAL`.  Otherwise it never leaves the buffer and it skips interrupted reads.
When, after reads that are interrupted or deliver bytes short of `count - 1` in total, a
read fails with another error, it returns minus the error code, the bytes read so far
stored and no terminator written.  When after such reads a read reaches the end of the file
or brings the total to `count - 1`, it returns the number `r <= count - 1` of bytes read,
these bytes lying at `buffer[0..r)` in read order and `buffer[r]` being 0.  It returns as
soon as the sequence of outcomes holds an end of file or such an error, and every return
follows exactly one `close`. -/
theorem readfd_internal_spec (closeErrno : Option Nat) (reads : List ReadResult)
    (buffer : List (Option Nat)) (count : Nat) (hcap : count ≤ buffer.length)
    (hsz : count ≤ 2 ^ 63) :
    (count = 0 →
      readfd_internal closeErrno reads buffer count =
        ReadOutcome.returned (-(EINVAL : Int)) buffer 1) ∧
    (0 < count →
      readfd_internal closeErrno reads buffer count ≠ ReadOutcome.fault ∧
      ((∃ x ∈ reads, x.ends = true) →
        readfd_internal closeErrno reads buffer count ≠ ReadOutcome.pending) ∧
      (∀ v b c, readfd_internal closeErrno reads buffer count = ReadOutcome.returned v b c →
        c = 1 ∧
        ((∃ e, ReadResult.error e ∈ reads ∧ e ≠ EINTR ∧
            v = -((closeErrno.getD e : Nat) : Int) ∧ (0 < closeErrno.getD e → v < 0)) ∨
          (∃ r : Nat, v = (r : Int) ∧ r ≤ count - 1 ∧
            r = min (readStream reads).length (count - 1) ∧
            b = ((readStream reads).take (count - 1)).map some ++
              some 0 :: buffer.drop (r + 1)))) ∧
      (∀ pre e post, reads = pre ++ ReadResult.error e :: post →
        (∀ x ∈ pre, x.ends = false) →
        (readStream pre ≠ [] → (readStream pre).length < count - 1) → e ≠ EINTR →
        readfd_internal closeErrno reads buffer count =
          ReadOutcome.returned (-((closeErrno.getD e : Nat) : Int))
            ((readStream pre).map some ++ buffer.drop (readStream pre).length) 1 ∧
        (0 < closeErrno.getD e → -((closeErrno.getD e : Nat) : Int) < 0)) ∧
      (∀ pre bytes post, reads = pre ++ ReadResult.data bytes :: post →
        (∀ x ∈ pre, x.ends = false) →
        (readStream pre ≠ [] → (readStream pre).length < count - 1) →
        (bytes = [] ∨ count - 1 ≤ (readStream pre).length + bytes.length) →
        readfd_internal closeErrno reads buffer count =
          ReadOutcome.returned
            ((min ((readStream pre).length + bytes.length) (count - 1) : Nat) : Int)
            (((readStream pre ++ bytes).take (count - 1)).map some ++
              some 0 :: buffer.drop
                (min ((readStream pre).length + bytes.length) (count - 1) + 1)) 1)) ∧
    xReadfile none closeErrno reads buffer count =
      readfd_internal closeErrno reads buffer count ∧
    xReadfileat none closeErrno reads buffer count =
      readfd_internal closeErrno reads buffer count := by
  refine ⟨fun h0 => by simp [readfd_internal, h0], fun hpos => ?_, rfl, rfl⟩
  obtain ⟨h1, h2, h3⟩ := readfd_loop_spec closeErrno reads buffer 0 (count - 1) 0
    (by omega) (by omega)
  have hrun : readfd_internal closeErrno reads buffer count =
      readfd_internal.loop closeErrno reads buffer 0 (count - 1) 0 := by
    simp [readfd_internal, Nat.ne_of_gt hpos]
  rw [hrun]
  have hpre : ∀ (pre rest : List ReadResult), (∀ x ∈ pre, x.ends = false) →
      (readStream pre ≠ [] → (readStream pre).length < count - 1) →
      readfd_internal.loop closeErrno (pre ++ rest) buffer 0 (count - 1) 0 =
        readfd_internal.loop closeErrno rest
          ((readStream pre).map some ++ buffer.drop (readStream pre).length)
          (readStream pre).length (count - 1 - (readStream pre).length) 0 := by
    intro pre rest hends hfit
    have := readfd_loop_prefix closeErrno rest pre buffer 0 (count - 1) 0 hends hfit
      (by omega) (by omega)
    simpa only [List.take_zero, List.nil_append, Nat.zero_add] using this
  refine ⟨h1, ?_, ?_, ?_, ?_⟩
  · rintro ⟨x, hx, hends⟩ hp
    have := h2 hp x hx
    rw [this] at hends
    exact Bool.noConfusion hends
  · intro v b c hr
    obtain ⟨hc, hv⟩ := h3 v b c hr
    refine ⟨by simpa using hc, ?_⟩
    rcases hv with ⟨e, he1, he2, he3⟩ | ⟨r, hr1, hr2, hr3⟩
    · refine Or.inl ⟨e, he1, he2, he3, fun hp => ?_⟩
      rw [he3]
      omega
    · refine Or.inr ⟨r, by simpa using hr1, by omega, hr2, ?_⟩
      simpa using hr3
  · intro pre e post hreads hends hfit he
    rw [hreads, hpre pre _ hends hfit, readfd_loop_error _ _ _ _ _ _ _ he]
    exact ⟨rfl, fun hp => by omega⟩
  · intro pre bytes post hreads hends hfit hend
    have hn : (readStream pre).length ≤ count - 1 := by
      by_cases hnil : readStream pre = []
      · rw [hnil]; exact Nat.zero_le _
      · exact Nat.le_of_lt (hfit hnil)
    have hbuf : ((readStream pre).map some ++ buffer.drop (readStream pre).length).length =
        buffer.length := by
      simp only [List.length_append, List.length_map, List.length_drop]
      omega
    have hg : (bytes.take (count - 1 - (readStream pre).length)).length =
        min (count - 1 - (readStream pre).length) bytes.length := List.length_take _ _
    have hr : (readStream pre).length +
        (bytes.take (count - 1 - (readStream pre).length)).length =
        min ((readStream pre).length + bytes.length) (count - 1) := by
      rw [hg]; omega
    rw [hreads, hpre pre _ hends hfit,
      readfd_loop_last _ _ _ _ _ _ _ (by rw [hbuf]; omega) (by omega)
        (by rcases hend with h | h
            · exact Or.inl h
            · exact Or.inr (by omega))]
    rw [hr]
    congr 1
    have e1 : ((readStream pre).map some ++ buffer.drop (readStream pre).length).take
        (readStream pre).length = (readStream pre).map some :=
      List.take_left' (by simp)
    have e2 : ((readStream pre).map some ++ buffer.drop (readStream pre).length).drop
        (min ((readStream pre).length + bytes.length) (count - 1) + 1) =
        buffer.drop (min ((readStream pre).length + bytes.length) (count - 1) + 1) := by
      rw [List.drop_append_eq_append_drop, List.drop_of_length_le (by simp; omega),
        List.nil_append, List.drop_drop, List.length_map]
      congr 1
      omega
    rw [e1, e2, List.take_append_eq_append_take, List.take_of_length_le hn, List.map_append]

/-- Witness for C13: a short read, an interrupted read, a second read and the end of the
file, into a buffer of eight bytes; and the same reads followed by a failed read with
`errno` 5 instead of the end of the file. -/
theorem readfd_internal_spec_witness :
    readfd_internal none
        [ReadResult.data [1, 2], ReadResult.error EINTR, ReadResult.data [3],
          ReadResult.data []] (List.replicate 8 none) 8 =
      ReadOutcome.returned 3 [some 1, some 2, some 3, some 0, none, none, none, none] 1 ∧
    readfd_internal none
        [ReadResult.data [1, 2], ReadResult.error EINTR, ReadResult.data [3],
          ReadResult.error 5] (List.replicate 8 none) 8 =
      ReadOutcome.returned (-5) [some 1, some 2, some 3, none, none, none, none, none] 1 :=
  ⟨(((readfd_internal_spec none
      [ReadResult.data [1, 2], ReadResult.error EINTR, ReadResult.data [3],
        ReadResult.data []] (List.replicate 8 none) 8 (by decide) (by decide)).2.1
      (by decide)).2.2.2.2
      [ReadResult.data [1, 2], ReadResult.error EINTR, ReadResult.data [3]] [] [] rfl
      (by decide) (by decide) (by decide)).trans (by decide),
    ((((readfd_internal_spec none
      [ReadResult.data [1, 2], ReadResult.error EINTR, ReadResult.data [3],
        ReadResult.error 5] (List.replicate 8 none) 8 (by decide) (by decide)).2.1
      (by decide)).2.2.2.1
      [ReadResult.data [1, 2], ReadResult.error EINTR, ReadResult.data [3]] 5 [] rfl
      (by decide) (by decide) (by decide)).1).trans (by decide)⟩

/-! ## Properties of `String_getToken` -/

/-- Invariant of the loop of `String_getToken`: the stores so far went to the indices
`0, 1, ..`, one after the other, and none stored a NUL. -/
theorem String_getToken_step_inv (numMatch : Nat) (st : TokenState) (c : Char)
    (h : st.stores.reverse.map Prod.fst = List.range st.foundCount ∧
      ∀ s ∈ st.stores, s.2 ≠ NUL) :
    (String_getToken.step numMatch st c).stores.reverse.map Prod.fst =
        List.range (String_getToken.step numMatch st c).foundCount ∧
      ∀ s ∈ (String_getToken.step numMatch st c).stores, s.2 ≠ NUL := by
  unfold String_getToken.step
  split
  · rename_i hc
    refine ⟨?_, ?_⟩
    · simp only [List.reverse_cons, List.map_append, List.map_cons, List.map_nil, h.1,
        List.range_succ]
    · intro s hs
      rw [List.mem_cons] at hs
      rcases hs with rfl | hs
      · exact hc.2.2.2.1
      · exact h.2 s hs
  · exact h

theorem String_getToken_fold_inv (numMatch : Nat) : ∀ (line : List Char) (st : TokenState),
    (st.stores.reverse.map Prod.fst = List.range st.foundCount ∧
      ∀ s ∈ st.stores, s.2 ≠ NUL) →
    (line.foldl (String_getToken.step numMatch) st).stores.reverse.map Prod.fst =
        List.range (line.foldl (String_getToken.step numMatch) st).foundCount ∧
      ∀ s ∈ (line.foldl (String_getToken.step numMatch) st).stores, s.2 ≠ NUL
  | [], _, h => h
  | c :: cs, st, h => by
    rw [List.foldl_cons]
    exact String_getToken_fold_inv numMatch cs _ (String_getToken_step_inv numMatch st c h)

theorem String_getToken_scan_inv (line : List Char) (numMatch : Nat) :
    (String_getToken.scan line numMatch).stores.reverse.map Prod.fst =
        List.range (String_getToken.scan line numMatch).foundCount ∧
      ∀ s ∈ (String_getToken.scan line numMatch).stores, s.2 ≠ NUL :=
  String_getToken_fold_inv numMatch line _ ⟨rfl, fun _ hs => by simp at hs⟩

theorem String_getToken_foundCount (line : List Char) (numMatch : Nat) :
    (String_getToken.scan line numMatch).foundCount =
      (String_getToken.retained line numMatch).length := by
  have := congrArg List.length (String_getToken_scan_inv line numMatch).1
  simp only [List.length_map, List.length_reverse, List.length_range] at this
  simp only [String_getToken.retained, List.length_map, List.length_reverse]
  exact this.symm

theorem String_getToken_writes_fst (line : List Char) (numMatch : Nat) :
    (String_getToken.writes line numMatch).map Prod.fst =
      List.range ((String_getToken.retained line numMatch).length + 1) := by
  simp only [String_getToken.writes, List.reverse_cons, List.map_append, List.map_cons,
    List.map_nil, (String_getToken_scan_inv line numMatch).1, List.range_succ,
    String_getToken_foundCount]

theorem String_getToken_writes_snd (line : List Char) (numMatch : Nat) :
    (String_getToken.writes line numMatch).map Prod.snd =
      String_getToken.retained line numMatch ++ [NUL] := by
  simp only [String_getToken.writes, String_getToken.retained, List.reverse_cons,
    List.map_append, List.map_cons, List.map_nil]

theorem String_getToken_retained_no_NUL (line : List Char) (numMatch : Nat) :
    NUL ∉ String_getToken.retained line numMatch := by
  intro h
  simp only [String_getToken.retained, List.mem_map, List.mem_reverse] at h
  obtain ⟨s, hs, he⟩ := h
  exact (String_getToken_scan_inv line numMatch).2 s hs he

theorem applyStores_cons (buf : List (Option Char)) (w : Nat × Char)
    (ws : List (Nat × Char)) :
    applyStores buf (w :: ws) = (store buf w.1 (some w.2)).bind fun m => applyStores m ws :=
  rfl

theorem applyStores_range : ∀ (vals : List Char) (pre buf : List (Option Char)),
    applyStores (pre ++ buf) ((List.range' pre.length vals.length).zip vals) =
      if vals.length ≤ buf.length then
        some (pre ++ vals.map some ++ buf.drop vals.length)
      else none
  | [], pre, buf => by simp [applyStores]
  | v :: vs, pre, [] => by
    rw [List.length_cons, List.range'_succ, List.zip_cons_cons, applyStores_cons]
    simp [store]
  | v :: vs, pre, b :: bs => by
    have hst : store (pre ++ b :: bs) pre.length (some v) = some ((pre ++ [some v]) ++ bs) := by
      rw [store_eq_some _ _ _ (by simp)]
      simp
    have ih := applyStores_range vs (pre ++ [some v]) bs
    simp only [List.length_append, List.length_singleton] at ih
    have e : pre ++ [some v] ++ bs = pre ++ some v :: bs := by simp
    rw [e] at ih
    rw [List.length_cons, List.range'_succ, List.zip_cons_cons, applyStores_cons, hst,
      Option.some_bind, e, ih]
    simp

theorem String_getToken_eq (line : List Char) (numMatch : Nat) :
    String_getToken line numMatch =
      if (String_getToken.retained line numMatch).length + 1 ≤ MATCH_BYTES then
        some (String_getToken.retained line numMatch)
      else none := by
  have hzip : String_getToken.writes line numMatch =
      (List.range' 0 (String_getToken.retained line numMatch ++ [NUL]).length).zip
        (String_getToken.retained line numMatch ++ [NUL]) := by
    apply List.zip_of_prod
    · rw [String_getToken_writes_fst, List.range_eq_range']
      simp
    · exact String_getToken_writes_snd line numMatch
  have happ := applyStores_range (String_getToken.retained line numMatch ++ [NUL]) []
    (List.replicate MATCH_BYTES none)
  simp only [List.length_nil, List.nil_append] at happ
  unfold String_getToken
  rw [hzip, happ]
  simp only [List.length_append, List.length_singleton, List.length_replicate]
  split
  · simp only [Option.some_bind, List.map_append, List.map_cons, List.map_nil,
      List.append_assoc, List.singleton_append,
      cstr_terminated _ _ (String_getToken_retained_no_NUL line numMatch), Option.map_some',
      xStrdup]
  · rfl

set_option maxRecDepth 8000 in
theorem replicate_a_retained :
    String_getToken.retained (List.replicate 50 'a') 1 = List.replicate 50 'a' := by
  decide

/-- C19: the stores of `String_getToken` into the 50 bytes of `match` go to the indices
`0, 1, .., k`, where `k` is the number of bytes retained, the last one being the store of
the terminator; so every store is at an index below 50 exactly when at most 49 bytes are
retained, and then the function returns the retained bytes; for a token of 50 bytes the
store of the terminator is at index 50. -/
theorem String_getToken_bounds :
    (∀ (line : List Char) (numMatch : Nat),
      (String_getToken.writes line numMatch).map Prod.fst =
        List.range ((String_getToken.retained line numMatch).length + 1) ∧
      ((∀ w ∈ String_getToken.writes line numMatch, w.1 < MATCH_BYTES) ↔
        (String_getToken.retained line numMatch).length ≤ 49) ∧
      ((String_getToken line numMatch).isSome = true ↔
        (String_getToken.retained line numMatch).length ≤ 49) ∧
      ((String_getToken.retained line numMatch).length ≤ 49 →
        String_getToken line numMatch = some (String_getToken.retained line numMatch))) ∧
    (∃ w ∈ String_getToken.writes (List.replicate 50 'a') 1, MATCH_BYTES ≤ w.1) ∧
    String_getToken (List.replicate 50 'a') 1 = none := by
  refine ⟨fun line numMatch => ⟨String_getToken_writes_fst line numMatch, ?_, ?_, ?_⟩, ?_, ?_⟩
  · have hfst := String_getToken_writes_fst line numMatch
    constructor
    · intro h
      have hmem : (String_getToken.retained line numMatch).length ∈
          (String_getToken.writes line numMatch).map Prod.fst := by
        rw [hfst, List.mem_range]
        omega
      rw [List.mem_map] at hmem
      obtain ⟨w, hw, he⟩ := hmem
      have := h w hw
      simp only [MATCH_BYTES] at this
      omega
    · intro h w hw
      have hmem : w.1 ∈ (String_getToken.writes line numMatch).map Prod.fst :=
        List.mem_map_of_mem _ hw
      rw [hfst, List.mem_range] at hmem
      simp only [MATCH_BYTES]
      omega
  · rw [String_getToken_eq]
    simp only [MATCH_BYTES]
    split
    · simp only [Option.isSome_some, true_iff]; omega
    · simp only [Option.isSome_none, Bool.false_eq_true, false_iff]; omega
  · intro h
    rw [String_getToken_eq, if_pos (by simp only [MATCH_BYTES]; omega)]
  · refine ⟨(50, NUL), ?_, by decide⟩
    have hfc := String_getToken_foundCount (List.replicate 50 'a') 1
    rw [replicate_a_retained, List.length_replicate] at hfc
    simp only [String_getToken.writes, List.reverse_cons, List.mem_append, List.mem_singleton,
      hfc, or_true]
  · rw [String_getToken_eq, replicate_a_retained, List.length_replicate]
    rfl

theorem splitOn_no_sep (x : Char) : ∀ (l : List Char), ∀ p ∈ l.splitOn x, x ∉ p
  | [], p, hp => by
    simp only [List.splitOn_nil, List.mem_singleton] at hp
    simp [hp]
  | c :: l, p, hp => by
    have ih := splitOn_no_sep x l
    unfold List.splitOn at hp ih
    rw [List.splitOnP_cons] at hp
    by_cases hc : (c == x) = true
    · rw [if_pos hc, List.mem_cons] at hp
      rcases hp with rfl | hp
      · simp
      · exact ih p hp
    · rw [if_neg hc] at hp
      cases hs : List.splitOnP (fun y => y == x) l with
      | nil => exact absurd hs (List.splitOnP_ne_nil _ _)
      | cons h t =>
        rw [hs] at hp ih
        simp only [List.modifyHead_cons, List.mem_cons] at hp
        rcases hp with rfl | hp
        · intro hx
          rw [List.mem_cons] at hx
          rcases hx with hx | hx
          · exact hc (by simp [hx])
          · exact ih h (List.mem_cons_self _ _) hx
        · exact ih p (List.mem_cons_of_mem _ hp)

theorem intercalate_space_cons (p q : List Char) (ps : List (List Char)) :
    [' '].intercalate (p :: q :: ps) = p ++ ' ' :: [' '].intercalate (q :: ps) := by
  simp [List.intercalate, List.intersperse]

theorem intercalate_space_single (p : List Char) : [' '].intercalate [p] = p := by
  simp [List.intercalate, List.intersperse]

/-- A space only ends the current word. -/
theorem String_getToken_step_space (numMatch : Nat) (st : TokenState) :
    String_getToken.step numMatch st ' ' = { st with inWord := false } := by
  have h1 : String_getToken.inWordAt ' ' = false := by decide
  simp [String_getToken.step, String_getToken.countAt, h1]

theorem String_getToken_in_word (numMatch : Nat) : ∀ (p : List Char) (st : TokenState),
    ' ' ∉ p → st.inWord = true →
    (p.foldl (String_getToken.step numMatch) st).inWord = true ∧
    (p.foldl (String_getToken.step numMatch) st).count = st.count ∧
    (p.foldl (String_getToken.step numMatch) st).stores.reverse.map Prod.snd =
      st.stores.reverse.map Prod.snd ++ (if st.count = numMatch then keptOf p else [])
  | [], st, _, hin => by simp [hin, keptOf]
  | c :: cs, st, hp, hin => by
    have hc : c ≠ ' ' := fun e => hp (e ▸ List.mem_cons_self _ _)
    have hcs : ' ' ∉ cs := fun e => hp (List.mem_cons_of_mem _ e)
    have hw : String_getToken.inWordAt c = true := by
      simp [String_getToken.inWordAt, hc]
    have hcount : String_getToken.countAt st c = st.count := by
      simp [String_getToken.countAt, hin]
    rw [List.foldl_cons]
    by_cases hk : st.count = numMatch ∧ c ≠ NUL ∧ c ≠ '\n' ∧ c ≠ EOF_CHAR
    · have hstep : String_getToken.step numMatch st c =
          { inWord := true, count := st.count, foundCount := st.foundCount + 1,
            stores := (st.foundCount, c) :: st.stores } := by
        simp [String_getToken.step, hw, hcount, hc, hk.1, hk.2.1, hk.2.2.1, hk.2.2.2]
      obtain ⟨h1, h2, h3⟩ := String_getToken_in_word numMatch cs _ hcs
        (show (String_getToken.step numMatch st c).inWord = true by rw [hstep])
      rw [hstep] at h1 h2 h3 ⊢
      refine ⟨h1, h2, ?_⟩
      rw [h3]
      simp only [hk.1, if_true, keptOf, List.reverse_cons, List.map_append, List.map_cons,
        List.map_nil, List.append_assoc, List.singleton_append]
      rw [List.filter_cons_of_pos (by simp [hk.2.1, hk.2.2.1, hk.2.2.2])]
    · have hstep : String_getToken.step numMatch st c =
          { inWord := true, count := st.count, foundCount := st.foundCount,
            stores := st.stores } := by
        unfold String_getToken.step
        rw [if_neg (by
          rintro ⟨_, h2, _, h4, h5, h6⟩
          exact hk ⟨hcount ▸ h2, h4, h5, h6⟩), hw, hcount]
      obtain ⟨h1, h2, h3⟩ := String_getToken_in_word numMatch cs _ hcs
        (show (String_getToken.step numMatch st c).inWord = true by rw [hstep])
      rw [hstep] at h1 h2 h3 ⊢
      refine ⟨h1, h2, ?_⟩
      rw [h3]
      by_cases hn : st.count = numMatch
      · simp only [hn, if_true, keptOf]
        rw [List.filter_cons_of_neg (by
          intro hcond
          simp only [decide_eq_true_eq] at hcond
          exact hk ⟨hn, hcond⟩)]
      · simp only [hn, if_false]

theorem String_getToken_word (numMatch : Nat) (p : List Char) (st : TokenState)
    (hp : ' ' ∉ p) (hne : p ≠ []) (hin : st.inWord = false)
    (hc : st.count + 1 < USHRT_MOD) :
    (p.foldl (String_getToken.step numMatch) st).inWord = true ∧
    (p.foldl (String_getToken.step numMatch) st).count = st.count + 1 ∧
    (p.foldl (String_getToken.step numMatch) st).stores.reverse.map Prod.snd =
      st.stores.reverse.map Prod.snd ++ (if st.count + 1 = numMatch then keptOf p else []) := by
  cases p with
  | nil => exact absurd rfl hne
  | cons c cs =>
    have hc1 : c ≠ ' ' := fun e => hp (e ▸ List.mem_cons_self _ _)
    have key : String_getToken.step numMatch st c =
        String_getToken.step numMatch { st with inWord := true, count := st.count + 1 } c := by
      simp [String_getToken.step, String_getToken.countAt, String_getToken.inWordAt, hin, hc1,
        Nat.mod_eq_of_lt hc]
    rw [List.foldl_cons, key, ← List.foldl_cons]
    exact String_getToken_in_word numMatch (c :: cs)
      { st with inWord := true, count := st.count + 1 } hp rfl

theorem String_getToken_parts (numMatch : Nat) : ∀ (parts : List (List Char)) (st : TokenState),
    (∀ p ∈ parts, ' ' ∉ p) → st.inWord = false →
    st.count + (parts.filter fun p => p ≠ []).length < USHRT_MOD →
    (([' '].intercalate parts).foldl (String_getToken.step numMatch) st).count =
        st.count + (parts.filter fun p => p ≠ []).length ∧
    (([' '].intercalate parts).foldl (String_getToken.step numMatch) st).stores.reverse.map
        Prod.snd =
      st.stores.reverse.map Prod.snd ++
        (if st.count < numMatch then
          keptOf ((parts.filter fun p => p ≠ []).getD (numMatch - st.count - 1) [])
        else [])
  | [], st, _, _, _ => by
    simp [List.intercalate, keptOf]
  | [p], st, hp, hin, hc => by
    rw [intercalate_space_single]
    by_cases hne : p = []
    · subst hne
      simp [keptOf]
    · have hf : (List.filter (fun p => decide (p ≠ [])) [p]) = [p] := by simp [hne]
      rw [hf] at hc ⊢
      obtain ⟨_, h2, h3⟩ := String_getToken_word numMatch p st (hp p (List.mem_singleton_self _))
        hne hin (by simpa using hc)
      refine ⟨by simpa using h2, ?_⟩
      rw [h3]
      congr 1
      by_cases h1 : st.count + 1 = numMatch
      · have e : numMatch - st.count - 1 = 0 := by omega
        rw [if_pos h1, if_pos (by omega), e]
        rfl
      · rw [if_neg h1]
        by_cases h2 : st.count < numMatch
        · rw [if_pos h2]
          obtain ⟨j, hj⟩ : ∃ j, numMatch - st.count - 1 = j + 1 := ⟨numMatch - st.count - 2, by omega⟩
          rw [hj]
          simp [keptOf]
        · rw [if_neg h2]
  | p :: q :: ps, st, hp, hin, hc => by
    rw [intercalate_space_cons, List.foldl_append, List.foldl_cons, String_getToken_step_space]
    have hq : ∀ r ∈ q :: ps, ' ' ∉ r := fun r hr => hp r (List.mem_cons_of_mem _ hr)
    by_cases hne : p = []
    · subst hne
      have hf : (List.filter (fun p => decide (p ≠ [])) ([] :: q :: ps)) =
          List.filter (fun p => decide (p ≠ [])) (q :: ps) := by simp
      rw [hf] at hc ⊢
      have ih := String_getToken_parts numMatch (q :: ps) { st with inWord := false } hq rfl hc
      simpa using ih
    · have hf : (List.filter (fun p => decide (p ≠ [])) (p :: q :: ps)) =
          p :: List.filter (fun p => decide (p ≠ [])) (q :: ps) := by
        rw [List.filter_cons_of_pos (by simp [hne])]
      rw [hf] at hc ⊢
      simp only [List.length_cons] at hc ⊢
      obtain ⟨_, h2, h3⟩ := String_getToken_word numMatch p st (hp p (List.mem_cons_self _ _))
        hne hin (by omega)
      have ih := String_getToken_parts numMatch (q :: ps)
        { List.foldl (String_getToken.step numMatch) st p with inWord := false } hq rfl
        (by simp only [h2]; omega)
      obtain ⟨i1, i2⟩ := ih
      simp only [h2, h3] at i1 i2 ⊢
      refine ⟨by rw [i1]; omega, ?_⟩
      rw [i2, List.append_assoc]
      congr 1
      by_cases h1 : st.count + 1 = numMatch
      · have e : numMatch - st.count - 1 = 0 := by omega
        rw [if_pos h1, if_neg (by omega), if_pos (by omega), e]
        simp
      · rw [if_neg h1]
        by_cases h2 : st.count < numMatch
        · rw [if_pos h2, if_pos (by omega)]
          obtain ⟨j, hj⟩ : ∃ j, numMatch - st.count - 1 = j + 1 := ⟨numMatch - st.count - 2, by omega⟩
          have hj2 : numMatch - (st.count + 1) - 1 = j := by omega
          rw [hj, hj2]
          simp
        · rw [if_neg h2, if_neg (by omega)]
          simp

/-- The bytes the loop retains are those of the `numMatch`-th space-delimited token that
are not newline, 0xFF or NUL. -/
theorem String_getToken_retained (line : List Char) (numMatch : Nat)
    (hcount : (spaceTokens line).length < USHRT_MOD) :
    String_getToken.retained line numMatch = keptOf (tokenAt (spaceTokens line) numMatch) := by
  have h := String_getToken_parts numMatch (line.splitOn ' ')
    { inWord := false, count := 0, foundCount := 0, stores := [] }
    (splitOn_no_sep ' ' line) rfl (by simpa [spaceTokens] using hcount)
  rw [List.intercalate_splitOn] at h
  unfold String_getToken.retained String_getToken.scan
  rw [h.2]
  unfold tokenAt spaceTokens
  by_cases hn : numMatch = 0
  · simp [hn, keptOf]
  · simp [hn, Nat.pos_of_ne_zero hn]

/-- C14, as claimed, fails: a tab does not delimit and a newline is dropped from inside a
token. On the line `a<TAB>b` the first token delimited by space, tab and newline is `a`, but
`String_getToken(line, 1)` returns `a<TAB>b`; on `a<NL>b` it returns `ab`. -/
theorem String_getToken_counterexample :
    String_getToken ['a', '\t', 'b'] 1 = some ['a', '\t', 'b'] ∧
    tokenAt (whitespaceTokens ['a', '\t', 'b']) 1 = ['a'] ∧
    String_getToken ['a', '\n', 'b'] 1 = some ['a', 'b'] ∧
    tokenAt (whitespaceTokens ['a', '\n', 'b']) 1 = ['a'] := by
  decide

/-- C14, amended: on a line with fewer than 65536 space-delimited tokens,
`String_getToken(line, n)` returns the `n`-th (1-indexed) token delimited by spaces only,
with its newline, 0xFF and NUL bytes left out, when at most 49 bytes of it remain; it is the
token itself when the token has none of those bytes, and the empty string when `n = 0` or
the line has fewer than `n` tokens. -/
theorem String_getToken_spec (line : List Char) (n : Nat)
    (hcount : (spaceTokens line).length < USHRT_MOD)
    (hfit : (keptOf (tokenAt (spaceTokens line) n)).length + 1 ≤ MATCH_BYTES) :
    String_getToken line n = some (keptOf (tokenAt (spaceTokens line) n)) ∧
    ((∀ c ∈ tokenAt (spaceTokens line) n, c ≠ NUL ∧ c ≠ '\n' ∧ c ≠ EOF_CHAR) →
      String_getToken line n = some (tokenAt (spaceTokens line) n)) ∧
    (n = 0 ∨ (spaceTokens line).length < n → String_getToken line n = some []) := by
  have hmain : String_getToken line n = some (keptOf (tokenAt (spaceTokens line) n)) := by
    rw [String_getToken_eq, String_getToken_retained line n hcount, if_pos hfit]
  refine ⟨hmain, ?_, ?_⟩
  · intro hall
    rw [hmain]
    congr 1
    unfold keptOf
    rw [List.filter_eq_self]
    intro c hc
    simpa using hall c hc
  · intro h
    rw [hmain]
    have e : tokenAt (spaceTokens line) n = [] := by
      unfold tokenAt
      rcases h with h | h
      · rw [if_pos h]
      · have hn : n ≠ 0 := by omega
        rw [if_neg hn, List.getD_eq_default _ _ (by omega)]
    rw [e]
    rfl

/-- Witness for C14, amended: the second token of `ab cd<NL>`. -/
theorem String_getToken_spec_witness :
    String_getToken ['a', 'b', ' ', 'c', 'd', '\n'] 2 = some ['c', 'd'] := by
  have h := (String_getToken_spec ['a', 'b', ' ', 'c', 'd', '\n'] 2 (by decide)
    (by decide)).1
  rw [h]
  decide

/-! ## Zero sizes and counts in the allocator -/

/-- C16, as claimed, fails for `xReallocArrayZero`: with a null `ptr` the count `prevmemb`
is zero and the call returns a block (here two members of four bytes, zeroed), and with
equal counts the call returns `ptr` even when `size` is zero. -/
theorem zero_argument_counterexample :
    xReallocArrayZero 64 none 0 2 4 = some (some (List.replicate 8 (some 0)), true) ∧
    xReallocArrayZero 64 (some [some 1, some 2]) 2 2 0 = some (some [some 1, some 2], false) ∧
    xReallocArrayZero 64 none 0 0 4 = some (none, false) := by
  decide

/-- C16, amended: a zero size or count ends `xMalloc`, `xMallocArray`, `xCalloc`, `xRealloc`
and `xReallocArray` without a result; `xReallocArrayZero` ends without a result when the
counts differ and the new count or the size is zero, and when `ptr` is null without
`prevmemb` being zero or the other way round; with equal counts (and `ptr` null exactly
when they are zero) it returns `ptr`, whatever the size. -/
theorem zero_argument_fatal (w : Nat) :
    xMalloc 0 = none ∧ xRealloc 0 = none ∧
    (∀ n, xMallocArray w 0 n = none ∧ xMallocArray w n 0 = none) ∧
    (∀ n, xCalloc w 0 n = none ∧ xCalloc w n 0 = none) ∧
    (∀ n, xReallocArray w 0 n = none ∧ xReallocArray w n 0 = none) ∧
    (∀ ptr prevmemb newmemb size, prevmemb ≠ newmemb → newmemb = 0 ∨ size = 0 →
      xReallocArrayZero w ptr prevmemb newmemb size = none) ∧
    (∀ ptr prevmemb newmemb size, ¬ (ptr = none ↔ prevmemb = 0) →
      xReallocArrayZero w ptr prevmemb newmemb size = none) ∧
    (∀ ptr n size, (ptr = none ↔ n = 0) →
      xReallocArrayZero w ptr n n size = some (ptr, false)) := by
  have harr : ∀ n, xReallocArray w 0 n = none ∧ xReallocArray w n 0 = none := by
    intro n
    constructor
    · simp [xReallocArray]
    · unfold xReallocArray
      by_cases h : n = 0
      · rw [if_pos h]
      · rw [if_neg h, if_pos rfl]
  refine ⟨rfl, rfl, ?_, ?_, harr, ?_, ?_, ?_⟩
  · intro n
    constructor
    · simp [xMallocArray]
    · unfold xMallocArray
      by_cases h : n = 0
      · rw [if_pos h]
      · rw [if_neg h, if_pos rfl]
  · intro n
    constructor
    · simp [xCalloc]
    · unfold xCalloc
      by_cases h : n = 0
      · rw [if_pos h]
      · rw [if_neg h, if_pos rfl]
  · intro ptr prevmemb newmemb size hne hz
    unfold xReallocArrayZero
    by_cases ha : decide (ptr = none) ≠ decide (prevmemb = 0)
    · rw [if_pos ha]
    · rw [if_neg ha, if_neg hne]
      rcases hz with hz | hz
      · rw [hz, (harr size).1]
        rfl
      · rw [hz, (harr newmemb).2]
        rfl
  · intro ptr prevmemb newmemb size hne
    unfold xReallocArrayZero
    rw [if_pos]
    simpa using hne
  · intro ptr n size hptr
    unfold xReallocArrayZero
    rw [if_neg (by simpa using hptr), if_pos rfl]

/-- Witness for C16, amended: shrinking three members to none, and growing with a zero
size, end without a result. -/
theorem zero_argument_fatal_witness :
    xReallocArrayZero 64 (some [some 1, some 2, some 3]) 3 0 1 = none ∧
    xReallocArrayZero 64 (some [some 1, some 2, some 3]) 3 4 0 = none :=
  ⟨(zero_argument_fatal 64).2.2.2.2.2.1 _ 3 0 1 (by decide) (Or.inl rfl),
    (zero_argument_fatal 64).2.2.2.2.2.1 _ 3 4 0 (by decide) (Or.inr rfl)⟩

/-! ## Invariant of `Affinity` -/

theorem Affinity_add_eq_grown (a : Affinity) (id : Nat) :
    Affinity_add a id = (Affinity_add.grown a).bind fun t =>
      (store t.cpus t.used (some id)).map fun cpus =>
        { t with cpus := cpus, used := (t.used + 1) % UINT_MOD } := rfl

theorem Affinity_add_grown (a : Affinity) (id : Nat) (hinv : a.Inv) (hused : a.used < 2 ^ 31) :
    ∃ t b, Affinity_add.grown a = some t ∧ t.used = a.used ∧ t.used < t.size ∧
      t.cpus.length = t.size ∧ store t.cpus t.used (some id) = some b.cpus ∧
      Affinity_add a id = some b ∧ b.size = t.size ∧ b.used = a.used + 1 ∧ b.Inv := by
  obtain ⟨h1, h2, k, h3⟩ := hinv
  have hpos : 0 < 2 ^ k := Nat.pow_pos (by decide)
  have hu : (a.used + 1) % UINT_MOD = a.used + 1 := by
    apply Nat.mod_eq_of_lt
    simp only [UINT_MOD]
    omega
  rw [Affinity_add_eq_grown]
  unfold Affinity_add.grown
  by_cases hfull : a.used = a.size
  · have hs : (a.size * 2) % UINT_MOD = a.size * 2 := by
      apply Nat.mod_eq_of_lt
      simp only [UINT_MOD]
      omega
    have hsz : (UINT_BYTES * (a.size * 2)) % SIZE_MOD / UINT_BYTES = a.size * 2 := by
      simp only [SIZE_MOD, UINT_BYTES]
      omega
    have hnz : (UINT_BYTES * (a.size * 2)) % SIZE_MOD ≠ 0 := by
      simp only [SIZE_MOD, UINT_BYTES]
      omega
    have hlen : (resize none a.cpus (a.size * 2)).length = a.size * 2 := by
      simp [resize]; omega
    simp only [hfull, if_true, hs, reallocCells_eq _ _ _ _ hnz, hsz, Option.map_some',
      Option.some_bind, store_eq_some _ _ _ (show a.size < _ by rw [hlen]; omega)]
    refine ⟨_, _, rfl, rfl, ?_, hlen, ?_, rfl, rfl, ?_, ?_, ?_, k + 1, ?_⟩
    · simp only; omega
    · exact store_eq_some _ _ _ (show a.size < _ by rw [hlen]; omega)
    · simp only [hfull ▸ hu]
    · simp only [List.length_set]; exact hlen
    · simp only [hfull ▸ hu]; omega
    · simp only [h3, Nat.pow_succ]; omega
  · simp only [hfull, if_false, Option.some_bind,
      store_eq_some a.cpus a.used _ (by omega), Option.map_some', hu]
    refine ⟨_, _, rfl, rfl, by omega, h1, ?_, rfl, rfl, rfl, ?_, ?_, k, h3⟩
    · exact store_eq_some a.cpus a.used _ (by omega)
    · simpa using h1
    · simp only; omega

theorem Affinity_inv_fold :
    ∀ (xs : List Nat) (a : Affinity), a.Inv → a.used + xs.length ≤ 2 ^ 31 →
      ∃ b, xs.foldlM Affinity_add a = some b ∧ b.Inv ∧ b.used = a.used + xs.length
  | [], a, hinv, _ => ⟨a, rfl, hinv, rfl⟩
  | x :: xs, a, hinv, hlen => by
    simp only [List.length_cons] at hlen
    obtain ⟨_, b, _, _, _, _, _, hb, _, hbu, hbinv⟩ := Affinity_add_grown a x hinv (by omega)
    obtain ⟨c, hc, hcinv, hcu⟩ := Affinity_inv_fold xs b hbinv (by omega)
    refine ⟨c, ?_, hcinv, ?_⟩
    · simp only [List.foldlM, hb]
      exact hc
    · simp only [List.length_cons]; omega

/-- C17: the state after `Affinity_new` and any `n ≤ 2^31` calls of `Affinity_add` exists
and has `used = n ≤ size`, a block of `size` cells and `size = 8 * 2^k` for some `k`
(`size = 8` and `used = 0` after no call); from such a state with `n < 2^31` a further
`Affinity_add` stores at the index `used`, which is below the capacity and the length of
the block in force at the store, and gives the next state. -/
theorem Affinity_invariant (pl : ProcessList) (xs : List Nat) (hcap : xs.length ≤ 2 ^ 31) :
    ∃ a, Affinity_addAll pl xs = some a ∧ a.used = xs.length ∧ a.used ≤ a.size ∧
      a.cpus.length = a.size ∧ (∃ k, a.size = 8 * 2 ^ k) ∧
      (xs = [] → a.size = 8 ∧ a.used = 0) ∧
      (xs.length < 2 ^ 31 → ∀ id, ∃ t b, Affinity_add.grown a = some t ∧
        t.used = a.used ∧ t.used < t.size ∧ t.cpus.length = t.size ∧
        store t.cpus t.used (some id) = some b.cpus ∧ Affinity_add a id = some b ∧
        b.size = t.size ∧ Affinity_addAll pl (xs ++ [id]) = some b) := by
  have hinv : Affinity.Inv
      { pl := pl, size := 8, used := 0, cpus := List.replicate 8 (some 0) } :=
    ⟨by simp, by simp, 0, rfl⟩
  obtain ⟨a, ha, hainv, hau⟩ := Affinity_inv_fold xs _ hinv (by simpa using hcap)
  simp only [Nat.zero_add] at hau
  have hall : Affinity_addAll pl xs = some a := by
    simp only [Affinity_addAll, Affinity_new_eq, Option.some_bind]
    exact ha
  refine ⟨a, hall, hau, hainv.2.1, hainv.1, hainv.2.2, ?_, ?_⟩
  · intro hnil
    subst hnil
    simp only [List.foldlM, pure] at ha
    cases ha
    exact ⟨rfl, rfl⟩
  · intro hlt id
    obtain ⟨t, b, ht, htu, htlt, htlen, hst, hb, hbs, _, _⟩ :=
      Affinity_add_grown a id hainv (by omega)
    refine ⟨t, b, ht, htu, htlt, htlen, hst, hb, hbs, ?_⟩
    simp only [Affinity_addAll, Affinity_new_eq, Option.some_bind, List.foldlM_append, ha]
    show (Affinity_add a id >>= pure) = some b
    rw [hb]
    rfl

/-- Witness for C17: after nine additions the capacity is 16 = 8 * 2^1 and the tenth
addition stores at index 9. -/
theorem Affinity_invariant_witness :
    [10, 11, 12, 13, 14, 15, 16, 17, 18].length ≤ 2 ^ 31 ∧
      ∃ a, Affinity_addAll { existingCPUs := 32 } [10, 11, 12, 13, 14, 15, 16, 17, 18] = some a ∧
        a.used = 9 ∧ a.used ≤ a.size ∧ ∃ k, a.size = 8 * 2 ^ k :=
  ⟨by decide,
    match Affinity_invariant { existingCPUs := 32 } [10, 11, 12, 13, 14, 15, 16, 17, 18]
      (by decide) with
    | ⟨a, h1, h2, h3, _, h5, _⟩ => ⟨a, h1, h2, h3, h5⟩⟩

/-! ## Index safety of `String_split` -/

theorem String_split_loop_body (sep : Char) (fuel : Nat) (s : List Char) (out : List Slot)
    (ctr blocks : Nat) :
    String_split.loop sep (fuel + 1) s out ctr blocks =
      match strchr s sep with
      | none => some (s, out, ctr)
      | some size =>
        (String_split.body s out ctr blocks size).bind fun r =>
          if size + 1 ≤ strlen s then
            String_split.loop sep fuel (s.drop (size + 1)) r.1 r.2.1 r.2.2
          else none := by
  rw [String_split.loop]
  cases strchr s sep with
  | none => rfl
  | some size =>
    simp only [String_split.body]
    cases store out ctr (Slot.str (xStrndup s size)) with
    | none => rfl
    | some out1 =>
      simp only [Option.some_bind]
      by_cases h : (ctr + 1) % SIZE_MOD = blocks
      · simp only [h, if_true]
        cases reallocCells Slot.indet PTR_BYTES out1 (PTR_BYTES * ((blocks + 10) % UINT_MOD) % SIZE_MOD) with
        | none => rfl
        | some out2 => rfl
      · simp only [h, if_false]
        rfl

theorem String_split_body_spec (s : List Char) (out : List Slot) (ctr blocks size : Nat)
    (hlen : out.length = blocks) (hctr : ctr < blocks)
    (hblk : ctr + 1 = blocks → blocks + 10 < UINT_MOD) (hlt : blocks < UINT_MOD) :
    ∃ out1 out2 blocks1, store out ctr (Slot.str (xStrndup s size)) = some out1 ∧
      String_split.body s out ctr blocks size = some (out2, ctr + 1, blocks1) ∧
      out2.length = blocks1 ∧ ctr + 1 < blocks1 := by
  have hc1 : (ctr + 1) % SIZE_MOD = ctr + 1 := by
    apply Nat.mod_eq_of_lt
    simp only [UINT_MOD, SIZE_MOD] at *
    omega
  unfold String_split.body
  simp only [store_eq_some out ctr _ (hlen ▸ hctr), Option.some_bind, hc1]
  by_cases hgrow : ctr + 1 = blocks
  · have hb := hblk hgrow
    have hb1 : (blocks + 10) % UINT_MOD = blocks + 10 := Nat.mod_eq_of_lt hb
    have hsz : (PTR_BYTES * (blocks + 10)) % SIZE_MOD / PTR_BYTES = blocks + 10 := by
      simp only [UINT_MOD, SIZE_MOD, PTR_BYTES] at *
      omega
    have hnz : (PTR_BYTES * (blocks + 10)) % SIZE_MOD ≠ 0 := by
      simp only [UINT_MOD, SIZE_MOD, PTR_BYTES] at *
      omega
    simp only [hgrow, if_true, hb1, reallocCells_eq _ _ _ _ hnz, hsz, Option.map_some']
    refine ⟨_, _, _, rfl, rfl, ?_, by omega⟩
    simp [resize]
    omega
  · simp only [hgrow, if_false, Option.map_some']
    exact ⟨_, _, _, rfl, rfl, by simpa using hlen, by omega⟩

/-- For a separator other than NUL and a string whose number of separators is within
the range of `blocks`, the array starts with 10 slots; an iteration of the loop entered
with `ctr < blocks` = the number of slots stores within the array and leaves
`ctr < blocks` = the number of slots; the loop ends with `ctr` below the number of slots,
and `String_split` returns an array of `n + 1` slots with the null sentinel at index `n`:
no store is outside the array. -/
theorem String_split_index_safe (s : List Char) (sep : Char) (hsep : sep ≠ NUL)
    (hcnt : s.count sep + 10 < UINT_MOD) :
    callocCells Slot.null PTR_BYTES 10 = some (List.replicate 10 Slot.null) ∧
    (∀ rest out ctr blocks size, out.length = blocks → ctr < blocks →
      (ctr + 1 = blocks → blocks + 10 < UINT_MOD) → blocks < UINT_MOD →
      ∃ out1 out2 blocks1, store out ctr (Slot.str (xStrndup rest size)) = some out1 ∧
        String_split.body rest out ctr blocks size = some (out2, ctr + 1, blocks1) ∧
        out2.length = blocks1 ∧ ctr + 1 < blocks1) ∧
    ∃ rest out1 ctr1 out n,
      String_split.loop sep (strlen s + 1) s (List.replicate 10 Slot.null) 0 10 =
        some (rest, out1, ctr1) ∧ ctr1 < out1.length ∧
      String_split s sep = some (out, n) ∧ (n = ctr1 ∨ n = ctr1 + 1) ∧
      out.length = n + 1 ∧ out.get? n = some Slot.null := by
  have hcalloc : callocCells Slot.null PTR_BYTES 10 = some (List.replicate 10 Slot.null) := by
    decide
  refine ⟨hcalloc, fun rest out ctr blocks size h1 h2 h3 h4 =>
    String_split_body_spec rest out ctr blocks size h1 h2 h3 h4, ?_⟩
  obtain ⟨init, last, out1, e1, e2, e3, e4, e5⟩ :=
    String_split_loop_spec hsep (strlen s + 1) s (List.replicate 10 Slot.null) 0 10
      (by simp [strlen]) (by simp) (by omega) (by omega) (by omega)
  have hinit : init.length < s.count sep + 1 := by
    have := congrArg List.length e1
    rw [splitOn_length] at this
    simp only [List.length_append, List.length_singleton] at this
    omega
  simp only [Nat.zero_add] at e3 e4
  have key : ∀ (o : List Slot) (c : Nat), c ≤ init.length + 1 →
      ∃ out, ((reallocCells Slot.indet PTR_BYTES o
          ((PTR_BYTES * ((c + 1) % SIZE_MOD)) % SIZE_MOD)).bind fun out3 =>
          (store out3 c Slot.null).map fun out4 => (out4, c)) = some (out, c) ∧
        out.length = c + 1 ∧ out.get? c = some Slot.null := by
    intro o c hc
    have h0 : (c + 1) % SIZE_MOD = c + 1 := by
      apply Nat.mod_eq_of_lt
      simp only [UINT_MOD, SIZE_MOD] at *
      omega
    have hsz : (PTR_BYTES * (c + 1)) % SIZE_MOD / PTR_BYTES = c + 1 := by
      simp only [UINT_MOD, SIZE_MOD, PTR_BYTES] at *
      omega
    have hnz : (PTR_BYTES * (c + 1)) % SIZE_MOD ≠ 0 := by
      simp only [UINT_MOD, SIZE_MOD, PTR_BYTES] at *
      omega
    have hlen : (resize Slot.indet o (c + 1)).length = c + 1 := by
      simp [resize]; omega
    simp only [h0, reallocCells_eq _ _ _ _ hnz, hsz, Option.some_bind,
      store_eq_some _ _ _ (show c < _ by rw [hlen]; omega), Option.map_some']
    refine ⟨_, rfl, by simpa using hlen, ?_⟩
    rw [List.get?_eq_getElem?, List.getElem?_set_self (by rw [hlen]; omega)]
  unfold String_split
  simp only [hcalloc, Option.some_bind, e3]
  by_cases hne : charAt last 0 ≠ NUL
  · have h1 : (init.length + 1) % SIZE_MOD = init.length + 1 := by
      apply Nat.mod_eq_of_lt
      simp only [UINT_MOD, SIZE_MOD] at *
      omega
    rw [if_pos hne]
    simp only [store_eq_some _ _ _ e4, Option.map_some', Option.some_bind, h1]
    obtain ⟨out, ho, hl, hg⟩ := key (out1.set init.length (Slot.str (xStrdup last)))
      (init.length + 1) (Nat.le_refl _)
    exact ⟨last, out1, init.length, out, init.length + 1, rfl, e4, ho, Or.inr rfl, hl, hg⟩
  · rw [if_neg hne]
    simp only [Option.some_bind]
    obtain ⟨out, ho, hl, hg⟩ := key out1 init.length (Nat.le_succ _)
    exact ⟨last, out1, init.length, out, init.length, rfl, e4, ho, Or.inl rfl, hl, hg⟩

/-- The string `a,b,,c` split at commas gives an array of five slots with the sentinel at
index 4. -/
theorem String_split_index_safe_example :
    ∃ out n, String_split ['a', ',', 'b', ',', ',', 'c'] ',' = some (out, n) ∧
      out.length = n + 1 ∧ out.get? n = some Slot.null :=
  match (String_split_index_safe ['a', ',', 'b', ',', ',', 'c'] ',' (by decide)
    (by decide)).2.2 with
  | ⟨_, _, _, out, n, _, _, h, _, hl, hg⟩ => ⟨out, n, h, hl, hg⟩

/-! ## The audit lines of the allocator -/

theorem Audit_xMalloc_line (log : List AuditLine) (data : Nat) (t : Nat × Nat) (size : Nat)
    (site : Site) (p : Nat) (log1 : List AuditLine)
    (h : Audit.xMalloc log data t size site = some (p, log1)) :
    size ≠ 0 ∧ p = data ∧ p ≠ 0 ∧ log1 = log ++
      [AuditLine.mk p t Verb.allocated (some size) site] := by
  unfold Audit.xMalloc at h
  by_cases h1 : size = 0
  · rw [if_pos h1] at h
    exact Option.noConfusion h
  · rw [if_neg h1] at h
    by_cases h2 : data = 0
    · rw [if_pos h2] at h
      exact Option.noConfusion h
    · rw [if_neg h2] at h
      simp only [Option.some.injEq, Prod.mk.injEq] at h
      obtain ⟨rfl, rfl⟩ := h
      exact ⟨h1, rfl, h2, rfl⟩

theorem Audit_xRealloc_line (log : List AuditLine) (data : Nat) (t : Nat × Nat) (size : Nat)
    (site : Site) (p : Nat) (log1 : List AuditLine)
    (h : Audit.xRealloc log data t size site = some (p, log1)) :
    size ≠ 0 ∧ p = data ∧ p ≠ 0 ∧ log1 = log ++
      [AuditLine.mk p t Verb.reallocated (some size) site] := by
  unfold Audit.xRealloc at h
  by_cases h1 : size = 0
  · rw [if_pos h1] at h
    exact Option.noConfusion h
  · rw [if_neg h1] at h
    by_cases h2 : data = 0
    · rw [if_pos h2] at h
      exact Option.noConfusion h
    · rw [if_neg h2] at h
      simp only [Option.some.injEq, Prod.mk.injEq] at h
      obtain ⟨rfl, rfl⟩ := h
      exact ⟨h1, rfl, h2, rfl⟩

/-- The guards of the array allocators: a call that goes on has counts other than zero
and a product that is the byte count. -/
theorem array_guards {α : Type} (w nmemb size : Nat) (f : Option α) (r : α)
    (h : (if nmemb = 0 then none else if size = 0 then none
      else if overflowGuard w nmemb size = true then none else f) = some r) :
    (nmemb * size) % 2 ^ w = nmemb * size ∧ f = some r := by
  by_cases h1 : nmemb = 0
  · rw [if_pos h1] at h
    exact Option.noConfusion h
  · rw [if_neg h1] at h
    by_cases h2 : size = 0
    · rw [if_pos h2] at h
      exact Option.noConfusion h
    · rw [if_neg h2] at h
      by_cases h3 : overflowGuard w nmemb size = true
      · rw [if_pos h3] at h
        exact Option.noConfusion h
      · rw [if_neg h3] at h
        exact ⟨(product_fits w nmemb size (Nat.pos_of_ne_zero h1) (Nat.pos_of_ne_zero h2)
          (by simpa using h3)).1, h⟩

theorem Audit_xReallocArray_line (w : Nat) (log : List AuditLine) (data : Nat) (t : Nat × Nat)
    (nmemb size : Nat) (site : Site) (p : Nat) (log1 : List AuditLine)
    (h : Audit.xReallocArray w log data t nmemb size site = some (p, log1)) :
    log1 = log ++ [AuditLine.mk p t Verb.reallocated (some (nmemb * size)) site] := by
  obtain ⟨e, h1⟩ := array_guards w nmemb size _ _ h
  rw [e] at h1
  exact (Audit_xRealloc_line log data t _ site p log1 h1).2.2.2

/-- C15, as claimed, fails: `xReallocArrayZero` with equal counts returns `ptr` and appends
no line, the line of `xFree` carries no byte count, and `xAsprintf` appends no line. -/
theorem audit_line_counterexample :
    Audit.xReallocArrayZero 64 [] 8192 (1, 2) 4096 3 3 4 ⟨"f", "a.c", 7⟩ = some (4096, []) ∧
    (Audit.xFree [] (1, 2) 4096 ⟨"f", "a.c", 7⟩).map (fun l => l.bytes) = [none] ∧
    Audit.xAsprintf [] 5 4096 = some (5, []) :=
  ⟨rfl, rfl, rfl⟩

/-- C15, amended: a successful call of `xMalloc`, `xMallocArray`, `xCalloc`, `xRealloc`,
`xReallocArray`, `xStrdup`, `xStrndup`, or of `xReallocArrayZero` with counts that differ,
appends exactly one line to the stream, with the pointer returned, the verb, the byte count
(`size`, `nmemb * size`, `strlen(str) + 1`, `len + 1` as a `size_t`) and the call-site;
`xReallocArrayZero` with equal counts appends no line; `xFree` appends exactly one line with
the pointer passed, the verb and the call-site, and no byte count.  The earlier lines stay
as they are. -/
theorem audit_line_appended (w : Nat) (log : List AuditLine) (data : Nat) (t : Nat × Nat)
    (site : Site) (p : Nat) (log1 : List AuditLine) :
    (∀ size, Audit.xMalloc log data t size site = some (p, log1) →
      log1 = log ++ [AuditLine.mk p t Verb.allocated (some size) site]) ∧
    (∀ nmemb size, Audit.xMallocArray w log data t nmemb size site = some (p, log1) →
      log1 = log ++ [AuditLine.mk p t Verb.allocated (some (nmemb * size)) site]) ∧
    (∀ nmemb size, Audit.xCalloc w log data t nmemb size site = some (p, log1) →
      log1 = log ++ [AuditLine.mk p t Verb.allocatedAndZeroised (some (nmemb * size)) site]) ∧
    (∀ size, Audit.xRealloc log data t size site = some (p, log1) →
      log1 = log ++ [AuditLine.mk p t Verb.reallocated (some size) site]) ∧
    (∀ nmemb size, Audit.xReallocArray w log data t nmemb size site = some (p, log1) →
      log1 = log ++ [AuditLine.mk p t Verb.reallocated (some (nmemb * size)) site]) ∧
    (∀ ptr prevmemb newmemb size,
      Audit.xReallocArrayZero w log data t ptr prevmemb newmemb size site = some (p, log1) →
      (prevmemb ≠ newmemb → log1 = log ++ [AuditLine.mk p t Verb.reallocated (some (newmemb * size)) site]) ∧
      (prevmemb = newmemb → p = ptr ∧ log1 = log)) ∧
    (∀ str, Audit.xStrdup log data t str site = some (p, log1) →
      log1 = log ++ [AuditLine.mk p t Verb.duplicated (some (strlen str + 1)) site]) ∧
    (∀ len, Audit.xStrndup log data t len site = some (p, log1) →
      log1 = log ++ [AuditLine.mk p t Verb.duplicated (some ((len + 1) % SIZE_MOD)) site]) ∧
    (∀ ptr, Audit.xFree log t ptr site =
      log ++ [AuditLine.mk ptr t Verb.deallocated none site]) := by
  refine ⟨?_, ?_, ?_, ?_, ?_, ?_, ?_, ?_, fun _ => rfl⟩
  · intro size h
    exact (Audit_xMalloc_line log data t size site p log1 h).2.2.2
  · intro nmemb size h
    obtain ⟨e, h1⟩ := array_guards w nmemb size _ _ h
    rw [e] at h1
    exact (Audit_xMalloc_line log data t _ site p log1 h1).2.2.2
  · intro nmemb size h
    obtain ⟨e, h1⟩ := array_guards w nmemb size _ _ h
    rw [e] at h1
    by_cases h2 : data = 0
    · rw [if_pos h2] at h1
      exact Option.noConfusion h1
    · rw [if_neg h2] at h1
      simp only [Option.some.injEq, Prod.mk.injEq] at h1
      obtain ⟨rfl, rfl⟩ := h1
      rfl
  · intro size h
    exact (Audit_xRealloc_line log data t size site p log1 h).2.2.2
  · intro nmemb size h
    exact Audit_xReallocArray_line w log data t nmemb size site p log1 h
  · intro ptr prevmemb newmemb size h
    unfold Audit.xReallocArrayZero at h
    by_cases ha : decide (ptr = 0) ≠ decide (prevmemb = 0)
    · rw [if_pos ha] at h
      exact Option.noConfusion h
    · rw [if_neg ha] at h
      by_cases he : prevmemb = newmemb
      · rw [if_pos he] at h
        simp only [Option.some.injEq, Prod.mk.injEq] at h
        exact ⟨fun hne => absurd he hne, fun _ => ⟨h.1.symm, h.2.symm⟩⟩
      · rw [if_neg he] at h
        exact ⟨fun _ => Audit_xReallocArray_line w log data t newmemb size site p log1 h,
          fun heq => absurd heq he⟩
  · intro str h
    unfold Audit.xStrdup at h
    by_cases h2 : data = 0
    · rw [if_pos h2] at h
      exact Option.noConfusion h
    · rw [if_neg h2] at h
      simp only [Option.some.injEq, Prod.mk.injEq] at h
      obtain ⟨rfl, rfl⟩ := h
      rfl
  · intro len h
    unfold Audit.xStrndup at h
    by_cases h2 : data = 0
    · rw [if_pos h2] at h
      exact Option.noConfusion h
    · rw [if_neg h2] at h
      simp only [Option.some.injEq, Prod.mk.injEq] at h
      obtain ⟨rfl, rfl⟩ := h
      rfl

/-- Witness for C15, amended: `xMallocArray(3, 4)` and `xReallocArrayZero` from three to
six members of four bytes succeed and append the line of 12 and of 24 bytes. -/
theorem audit_line_appended_witness :
    Audit.xMallocArray 64 [] 4096 (1, 2) 3 4 ⟨"f", "a.c", 7⟩ =
      some (4096, [AuditLine.mk 4096 (1, 2) Verb.allocated (some 12) ⟨"f", "a.c", 7⟩]) ∧
    ∃ p log1, Audit.xReallocArrayZero 64 [] 8192 (1, 2) 4096 3 6 4 ⟨"f", "a.c", 7⟩ =
        some (p, log1) ∧
      log1 = [] ++ [AuditLine.mk p (1, 2) Verb.reallocated (some (6 * 4)) ⟨"f", "a.c", 7⟩] :=
  ⟨rfl, 8192, _, rfl,
    ((audit_line_appended 64 [] 8192 (1, 2) ⟨"f", "a.c", 7⟩ 8192 _).2.2.2.2.2.1
      4096 3 6 4 rfl).1 (by decide)⟩

/-! ## `String_split` beyond the range of `blocks` -/

theorem strchr_head (sep : Char) (s : List Char) : strchr (sep :: s) sep = some 0 := by
  simp [strchr]

/-- An iteration of the loop of `String_split` on a string that starts with the separator. -/
theorem String_split_loop_head (sep : Char) (fuel : Nat) (s : List Char) (out : List Slot)
    (ctr blocks : Nat) :
    String_split.loop sep (fuel + 1) (sep :: s) out ctr blocks =
      (String_split.body (sep :: s) out ctr blocks 0).bind fun r =>
        String_split.loop sep fuel s r.1 r.2.1 r.2.2 := by
  rw [String_split_loop_body, strchr_head]
  simp only [strlen, List.length_cons, Nat.zero_add, Nat.le_add_left, if_true, List.drop_succ_cons,
    List.drop_zero]

theorem String_split_body_step (s : List Char) (out : List Slot) (ctr blocks size : Nat)
    (hlen : out.length = blocks) (hctr : ctr < blocks)
    (hblk : ctr + 1 = blocks → blocks + 10 < UINT_MOD) (hlt : blocks < UINT_MOD) :
    ∃ out2, String_split.body s out ctr blocks size =
        some (out2, ctr + 1, if ctr + 1 = blocks then blocks + 10 else blocks) ∧
      out2.length = if ctr + 1 = blocks then blocks + 10 else blocks := by
  have hc1 : (ctr + 1) % SIZE_MOD = ctr + 1 := by
    apply Nat.mod_eq_of_lt
    simp only [UINT_MOD, SIZE_MOD] at *
    omega
  unfold String_split.body
  simp only [store_eq_some out ctr _ (hlen ▸ hctr), Option.some_bind, hc1]
  by_cases hgrow : ctr + 1 = blocks
  · have hb := hblk hgrow
    have hb1 : (blocks + 10) % UINT_MOD = blocks + 10 := Nat.mod_eq_of_lt hb
    have hsz : (PTR_BYTES * (blocks + 10)) % SIZE_MOD / PTR_BYTES = blocks + 10 := by
      simp only [UINT_MOD, SIZE_MOD, PTR_BYTES] at *
      omega
    have hnz : (PTR_BYTES * (blocks + 10)) % SIZE_MOD ≠ 0 := by
      simp only [UINT_MOD, SIZE_MOD, PTR_BYTES] at *
      omega
    simp only [hgrow, if_true, hb1, reallocCells_eq _ _ _ _ hnz, hsz, Option.map_some']
    refine ⟨_, rfl, ?_⟩
    simp [resize]
    omega
  · simp only [hgrow, if_false, Option.map_some']
    exact ⟨_, rfl, by simpa using hlen⟩

/-- The loop of `String_split` over `k` separators in a row, while `ctr` stays below
4294967290: `ctr` advances by `k`, and `blocks`, a multiple of 10, stays the number of
slots, above `ctr`. -/
theorem String_split_loop_run (sep : Char) (fuel : Nat) (s : List Char) :
    ∀ (k : Nat) (out : List Slot) (ctr blocks : Nat),
      out.length = blocks → ctr < blocks → blocks ≤ ctr + 10 → 10 ∣ blocks →
      ctr + k ≤ 4294967289 →
      ∃ out1 blocks1,
        String_split.loop sep (fuel + k) (List.replicate k sep ++ s) out ctr blocks =
          String_split.loop sep fuel s out1 (ctr + k) blocks1 ∧
        out1.length = blocks1 ∧ ctr + k < blocks1 ∧ blocks1 ≤ ctr + k + 10 ∧ 10 ∣ blocks1
  | 0, out, ctr, blocks, hlen, hctr, hblk, hdvd, _ =>
    ⟨out, blocks, rfl, hlen, hctr, hblk, hdvd⟩
  | k + 1, out, ctr, blocks, hlen, hctr, hblk, hdvd, hk => by
    obtain ⟨out2, hbody, hlen2⟩ := String_split_body_step (sep :: (List.replicate k sep ++ s))
      out ctr blocks 0 hlen hctr (by simp only [UINT_MOD]; omega)
      (by simp only [UINT_MOD]; omega)
    obtain ⟨out1, blocks1, hrun, h1, h2, h3, h4⟩ := String_split_loop_run sep fuel s k out2
      (ctr + 1) (if ctr + 1 = blocks then blocks + 10 else blocks) hlen2
      (by split <;> omega) (by split <;> omega)
      (by split
          · exact Nat.dvd_add hdvd (Nat.dvd_refl 10)
          · exact hdvd)
      (by omega)
    have e : ctr + 1 + k = ctr + (k + 1) := by omega
    rw [e] at hrun h2 h3
    refine ⟨out1, blocks1, ?_, h1, h2, h3, h4⟩
    rw [List.replicate_succ, List.cons_append, ← Nat.add_assoc, String_split_loop_head, hbody]
    exact hrun

/-- The iteration in which `blocks += rate` leaves the range of `unsigned int`: the result
is 4, and the array is reallocated to 4 slots. -/
theorem String_split_loop_wrap (sep : Char) (fuel : Nat) (s : List Char) (out : List Slot)
    (hlen : out.length = 4294967290) :
    ∃ out1, String_split.loop sep (fuel + 1) (sep :: s) out 4294967289 4294967290 =
        String_split.loop sep fuel s out1 4294967290 4 ∧ out1.length = 4 := by
  have hc1 : (4294967289 + 1) % SIZE_MOD = 4294967290 := by decide
  have hb1 : (4294967290 + 10) % UINT_MOD = 4 := by decide
  have hsz : (PTR_BYTES * 4) % SIZE_MOD / PTR_BYTES = 4 := by decide
  have hnz : (PTR_BYTES * 4) % SIZE_MOD ≠ 0 := by decide
  rw [String_split_loop_head]
  unfold String_split.body
  simp only [store_eq_some out 4294967289 _ (by rw [hlen]; omega), Option.some_bind, hc1,
    if_true, hb1, reallocCells_eq _ _ _ _ hnz, hsz, Option.map_some']
  refine ⟨_, rfl, ?_⟩
  simp only [resize, List.length_append, List.length_take, List.length_set,
    List.length_replicate, hlen]
  omega

/-- A store at `ctr` at or beyond the number of slots: the iteration has no result. -/
theorem String_split_loop_outside (sep : Char) (fuel : Nat) (s : List Char) (out : List Slot)
    (ctr blocks : Nat) (h : out.length ≤ ctr) :
    store out ctr (Slot.str (xStrndup (sep :: s) 0)) = none ∧
    String_split.body (sep :: s) out ctr blocks 0 = none ∧
    String_split.loop sep (fuel + 1) (sep :: s) out ctr blocks = none := by
  have hst : store out ctr (Slot.str (xStrndup (sep :: s) 0)) = none := by
    unfold store
    rw [if_neg (by omega)]
  have hbody : String_split.body (sep :: s) out ctr blocks 0 = none := by
    unfold String_split.body
    rw [hst]
    rfl
  refine ⟨hst, hbody, ?_⟩
  rw [String_split_loop_head, hbody]
  rfl

/-- The loop of `String_split` on 4294967291 separators: after 4294967290 iterations
`blocks` is 4, the array has 4 slots and `ctr` is 4294967290. -/
theorem String_split_loop_long (sep : Char) :
    ∃ out, String_split.loop sep (strlen (List.replicate 4294967291 sep) + 1)
        (List.replicate 4294967291 sep) (List.replicate 10 Slot.null) 0 10 =
      String_split.loop sep 2 [sep] out 4294967290 4 ∧ out.length = 4 := by
  obtain ⟨out1, blocks1, hrun, h1, h2, h3, h4⟩ := String_split_loop_run sep 3 [sep, sep]
    4294967289 (List.replicate 10 Slot.null) 0 10 (List.length_replicate _ _) (by omega)
    (by omega) (Nat.dvd_refl 10) (by omega)
  have hb : blocks1 = 4294967290 := by omega
  subst hb
  rw [Nat.zero_add] at hrun
  obtain ⟨out2, hwrap, hlen2⟩ := String_split_loop_wrap sep 2 [sep] out1 h1
  refine ⟨out2, ?_, hlen2⟩
  have hs : List.replicate 4294967291 sep = List.replicate 4294967289 sep ++ [sep, sep] :=
    List.replicate_add 4294967289 2 sep
  have hf : strlen (List.replicate 4294967291 sep) + 1 = 3 + 4294967289 := by
    rw [strlen, List.length_replicate]
  rw [hf, hs, hrun]
  exact hwrap

/-- C1: on the string of 4294967291 commas `String_split` has no result: `blocks`, an
`unsigned int`, wraps from 4294967290 to 4 while `ctr`, a `size_t`, goes on, the array is
reallocated to 4 slots, and the next store `out[ctr]` is outside it; the array of the
4294967291 empty segments is not returned.  On `a,,b` the result is as specified. -/
theorem String_split_long_no_result :
    String_split (List.replicate 4294967291 ',') ',' = none ∧
    String_split ['a', ',', ',', 'b'] ',' =
      some ([Slot.str ['a'], Slot.str [], Slot.str ['b'], Slot.null], 3) := by
  have hcalloc : callocCells Slot.null PTR_BYTES 10 = some (List.replicate 10 Slot.null) := by
    decide
  obtain ⟨out, hloop, hlen⟩ := String_split_loop_long ','
  have hnone := (String_split_loop_outside ',' 1 [] out 4294967290 4 (by omega)).2.2
  refine ⟨?_, by decide⟩
  unfold String_split
  rw [hcalloc, Option.some_bind, hloop, hnone]
  rfl

/-- C20: on the string of 4294967291 commas the loop of `String_split` reaches, after
4294967290 iterations, a state with `ctr = 4294967290` and `blocks = 4`, the array having
4 slots, and the string still starting with a separator: the store `out[ctr]` of the next
iteration is outside the array, and the iteration and the loop have no result. -/
theorem String_split_store_outside :
    ∃ out, String_split.loop ',' (strlen (List.replicate 4294967291 ',') + 1)
        (List.replicate 4294967291 ',') (List.replicate 10 Slot.null) 0 10 =
      String_split.loop ',' 2 [','] out 4294967290 4 ∧
      out.length = 4 ∧ strchr [','] ',' = some 0 ∧
      store out 4294967290 (Slot.str (xStrndup [','] 0)) = none ∧
      String_split.body [','] out 4294967290 4 0 = none ∧
      String_split.loop ',' 2 [','] out 4294967290 4 = none := by
  obtain ⟨out, hloop, hlen⟩ := String_split_loop_long ','
  obtain ⟨h1, h2, h3⟩ := String_split_loop_outside ',' 1 [] out 4294967290 4 (by omega)
  exact ⟨out, hloop, hlen, strchr_head ',' [], h1, h2, h3⟩

end Htop
